import Mathlib

/-!
Verification development for the dejj DWARF type-extraction pipeline.

This file gives a shallow embedding, in Lean, of the data model and the
algorithms of the dejj repository (packages exstructs, exstractor, cli),
and proves properties of the embedded code.

Conventions used throughout the embedding:
- Rust `usize`/`u32` values are modelled as `Nat`; overflow checks that the
  source performs explicitly (for example `byte_size > u32::MAX`) appear as
  explicit comparisons against the corresponding bounds.
- `BTreeMap` is modelled as an association list sorted strictly by key
  (function `mapInsert` keeps the sort); `BTreeSet` as a strictly sorted
  `List`.  Iteration order of the Rust collections is therefore the list
  order of the model.
- Fallible Rust functions returning `cu::Result<T>` are modelled as
  `Option T` when the claims only distinguish success from failure, and as
  `Except String T` when the error itself matters.  Functions whose
  termination Rust obtains from runtime invariants take an explicit fuel
  argument.
- `.unwrap()`/panic paths are modelled as `none`.
-/

set_option maxHeartbeats 1000000

namespace Dejj

/-! ## Ordered association lists (model of BTreeMap) and sorted lists (model of BTreeSet) -/

/-- Lookup in an association list (model of `BTreeMap::get`). -/
def mapGet {κ α : Type} [DecidableEq κ] : List (κ × α) → κ → Option α
  | [], _ => none
  | (k2, v) :: rest, k => if k = k2 then some v else mapGet rest k

/-- Insert-or-replace in a key-sorted association list (model of `BTreeMap::insert`). -/
def mapInsert {κ α : Type} [LinearOrder κ] : List (κ × α) → κ → α → List (κ × α)
  | [], k, v => [(k, v)]
  | (k2, v2) :: rest, k, v =>
    if k < k2 then (k, v) :: (k2, v2) :: rest
    else if k = k2 then (k, v) :: rest
    else (k2, v2) :: mapInsert rest k v

/-- Remove a key from an association list (model of `BTreeMap::remove`). -/
def mapRemove {κ α : Type} [DecidableEq κ] : List (κ × α) → κ → List (κ × α)
  | [], _ => []
  | (k2, v) :: rest, k => if k = k2 then rest else (k2, v) :: mapRemove rest k

/-- The keys of an association list. -/
def mapKeys {κ α : Type} (m : List (κ × α)) : List κ := m.map (fun p => p.1)

/-- Insert into a strictly sorted list without duplicating (model of `BTreeSet::insert`). -/
def setInsert {κ : Type} [LinearOrder κ] : List κ → κ → List κ
  | [], k => [k]
  | k2 :: rest, k =>
    if k < k2 then k :: k2 :: rest
    else if k = k2 then k2 :: rest
    else k2 :: setInsert rest k

/-- Union of a sorted set with the elements of a list (model of `BTreeSet::extend`). -/
def setExtend {κ : Type} [LinearOrder κ] (s : List κ) (ks : List κ) : List κ :=
  ks.foldl setInsert s

/-- Collect a list into a sorted set (model of `BTreeSet::from_iter` / `collect`). -/
def setOfList {κ : Type} [LinearOrder κ] (ks : List κ) : List κ := setExtend [] ks

/-! ## Primitive kinds (tyyaml/src/type_id.rs) -/

/-- Primitive type kinds, `enum Prim` of tyyaml. -/
inductive Prim : Type where
  | void | bool
  | u8 | u16 | u32 | u64 | u128
  | i8 | i16 | i32 | i64 | i128
  | f32 | f64 | f128
  deriving DecidableEq

/-- Byte size of a primitive, `Prim::byte_size`; `void` has no size. -/
def Prim.byteSize : Prim → Option Nat
  | .void => none
  | .bool => some 1
  | .u8 => some 1
  | .u16 => some 2
  | .u32 => some 4
  | .u64 => some 8
  | .u128 => some 16
  | .i8 => some 1
  | .i16 => some 2
  | .i32 => some 4
  | .i64 => some 8
  | .i128 => some 16
  | .f32 => some 4
  | .f64 => some 8
  | .f128 => some 16

/-- The list of all primitives, `Prim::iter`. -/
def Prim.all : List Prim :=
  [.void, .bool, .u8, .u16, .u32, .u64, .u128, .i8, .i16, .i32, .i64, .i128, .f32, .f64, .f128]

/-! ## Goff: global offsets (exstructs/src/goff.rs) -/

/-- Global offset into DWARF; unique identifier of a type in one extraction run. -/
abbrev Goff := Nat

/-- Fabricated global offset for a primitive type, `Goff::prim`. -/
def Goff.prim : Prim → Goff
  | .void => 0x1FFFF0000
  | .bool => 0x1FFFF0001
  | .u8 => 0x1FFFF0101
  | .u16 => 0x1FFFF0102
  | .u32 => 0x1FFFF0104
  | .u64 => 0x1FFFF0108
  | .u128 => 0x1FFFF0110
  | .i8 => 0x1FFFF0201
  | .i16 => 0x1FFFF0202
  | .i32 => 0x1FFFF0204
  | .i64 => 0x1FFFF0208
  | .i128 => 0x1FFFF0210
  | .f32 => 0x1FFFF0304
  | .f64 => 0x1FFFF0308
  | .f128 => 0x1FFFF0310

/-- The abstract pointer identity, `Goff::pointer`. -/
def Goff.pointer : Goff := 0x2FFFF0000

/-- The abstract pointer-to-member-data identity, `Goff::ptmd`. -/
def Goff.ptmdGoff : Goff := 0x2FFFF0001

/-- The abstract pointer-to-member-function identity, `Goff::ptmf`. -/
def Goff.ptmfGoff : Goff := 0x2FFFF0002

/-- Whether the goff is from the fabricated primitive range, `Goff::is_prim`:
the source tests `self.0 >= 0x1FFFF0000`. -/
def Goff.isPrim (g : Goff) : Bool := 0x1FFFF0000 ≤ g

/-! ## Type trees (tyyaml/src/type_tree.rs) -/

/-- A generic type tree, `enum Tree<Repr>` of tyyaml: basic type, array,
pointer, subroutine (`[retty, args...]`), pointer-to-member-data and
pointer-to-member-function. -/
inductive Tree (R : Type) : Type where
  | base (r : R)
  | array (t : Tree R) (len : Nat)
  | ptr (t : Tree R)
  | sub (ts : List (Tree R))
  | ptmd (b : R) (t : Tree R)
  | ptmf (b : R) (ts : List (Tree R))

mutual

/-- Decidable equality for trees (the source derives `PartialEq`/`Eq`). -/
def treeDecEq {R : Type} (h : DecidableEq R) : (a b : Tree R) → Decidable (a = b)
  | .base r, .base s =>
    match h r s with
    | .isTrue p => .isTrue (by rw [p])
    | .isFalse p => .isFalse (by intro q; cases q; exact p rfl)
  | .array t l, .array t2 l2 =>
    match treeDecEq h t t2, Nat.decEq l l2 with
    | .isTrue p, .isTrue q => .isTrue (by rw [p, q])
    | .isFalse p, _ => .isFalse (by intro q; cases q; exact p rfl)
    | _, .isFalse p => .isFalse (by intro q; cases q; exact p rfl)
  | .ptr t, .ptr t2 =>
    match treeDecEq h t t2 with
    | .isTrue p => .isTrue (by rw [p])
    | .isFalse p => .isFalse (by intro q; cases q; exact p rfl)
  | .sub ts, .sub ts2 =>
    match treeListDecEq h ts ts2 with
    | .isTrue p => .isTrue (by rw [p])
    | .isFalse p => .isFalse (by intro q; cases q; exact p rfl)
  | .ptmd b t, .ptmd b2 t2 =>
    match h b b2, treeDecEq h t t2 with
    | .isTrue p, .isTrue q => .isTrue (by rw [p, q])
    | .isFalse p, _ => .isFalse (by intro q; cases q; exact p rfl)
    | _, .isFalse p => .isFalse (by intro q; cases q; exact p rfl)
  | .ptmf b ts, .ptmf b2 ts2 =>
    match h b b2, treeListDecEq h ts ts2 with
    | .isTrue p, .isTrue q => .isTrue (by rw [p, q])
    | .isFalse p, _ => .isFalse (by intro q; cases q; exact p rfl)
    | _, .isFalse p => .isFalse (by intro q; cases q; exact p rfl)
  | .base _, .array _ _ => .isFalse (by intro q; cases q)
  | .base _, .ptr _ => .isFalse (by intro q; cases q)
  | .base _, .sub _ => .isFalse (by intro q; cases q)
  | .base _, .ptmd _ _ => .isFalse (by intro q; cases q)
  | .base _, .ptmf _ _ => .isFalse (by intro q; cases q)
  | .array _ _, .base _ => .isFalse (by intro q; cases q)
  | .array _ _, .ptr _ => .isFalse (by intro q; cases q)
  | .array _ _, .sub _ => .isFalse (by intro q; cases q)
  | .array _ _, .ptmd _ _ => .isFalse (by intro q; cases q)
  | .array _ _, .ptmf _ _ => .isFalse (by intro q; cases q)
  | .ptr _, .base _ => .isFalse (by intro q; cases q)
  | .ptr _, .array _ _ => .isFalse (by intro q; cases q)
  | .ptr _, .sub _ => .isFalse (by intro q; cases q)
  | .ptr _, .ptmd _ _ => .isFalse (by intro q; cases q)
  | .ptr _, .ptmf _ _ => .isFalse (by intro q; cases q)
  | .sub _, .base _ => .isFalse (by intro q; cases q)
  | .sub _, .array _ _ => .isFalse (by intro q; cases q)
  | .sub _, .ptr _ => .isFalse (by intro q; cases q)
  | .sub _, .ptmd _ _ => .isFalse (by intro q; cases q)
  | .sub _, .ptmf _ _ => .isFalse (by intro q; cases q)
  | .ptmd _ _, .base _ => .isFalse (by intro q; cases q)
  | .ptmd _ _, .array _ _ => .isFalse (by intro q; cases q)
  | .ptmd _ _, .ptr _ => .isFalse (by intro q; cases q)
  | .ptmd _ _, .sub _ => .isFalse (by intro q; cases q)
  | .ptmd _ _, .ptmf _ _ => .isFalse (by intro q; cases q)
  | .ptmf _ _, .base _ => .isFalse (by intro q; cases q)
  | .ptmf _ _, .array _ _ => .isFalse (by intro q; cases q)
  | .ptmf _ _, .ptr _ => .isFalse (by intro q; cases q)
  | .ptmf _ _, .sub _ => .isFalse (by intro q; cases q)
  | .ptmf _ _, .ptmd _ _ => .isFalse (by intro q; cases q)

/-- Decidable equality for lists of trees. -/
def treeListDecEq {R : Type} (h : DecidableEq R) : (a b : List (Tree R)) → Decidable (a = b)
  | [], [] => .isTrue rfl
  | [], _ :: _ => .isFalse (by intro q; cases q)
  | _ :: _, [] => .isFalse (by intro q; cases q)
  | a :: as, b :: bs =>
    match treeDecEq h a b, treeListDecEq h as bs with
    | .isTrue p, .isTrue q => .isTrue (by rw [p, q])
    | .isFalse p, _ => .isFalse (by intro q; cases q; exact p rfl)
    | _, .isFalse p => .isFalse (by intro q; cases q; exact p rfl)

end

instance {R : Type} [h : DecidableEq R] : DecidableEq (Tree R) := treeDecEq h

mutual

/-- Map over the base representation of a tree, `Tree::map` (with the total
mapping functions the claims use). -/
def treeMapGoff {R S : Type} (f : R → S) : Tree R → Tree S
  | .base r => .base (f r)
  | .array t len => .array (treeMapGoff f t) len
  | .ptr t => .ptr (treeMapGoff f t)
  | .sub ts => .sub (treeMapGoffList f ts)
  | .ptmd b t => .ptmd (f b) (treeMapGoff f t)
  | .ptmf b ts => .ptmf (f b) (treeMapGoffList f ts)

/-- Map over the base representations of a list of trees. -/
def treeMapGoffList {R S : Type} (f : R → S) : List (Tree R) → List (Tree S)
  | [] => []
  | t :: ts => treeMapGoff f t :: treeMapGoffList f ts

end

mutual

/-- Whether a representation occurs in the tree, `Tree::contains`. -/
def treeContains {R : Type} [DecidableEq R] (k : R) : Tree R → Bool
  | .base r => r = k
  | .array t _ => treeContains k t
  | .ptr t => treeContains k t
  | .sub ts => treeListContains k ts
  | .ptmd b t => b = k || treeContains k t
  | .ptmf b ts => b = k || treeListContains k ts

/-- Whether a representation occurs in any tree of the list. -/
def treeListContains {R : Type} [DecidableEq R] (k : R) : List (Tree R) → Bool
  | [] => false
  | t :: ts => treeContains k t || treeListContains k ts

end

mutual

/-- Collect the PTM base representations of a tree, in traversal order
(`Tree::for_each_ptm_base` feeding a set insertion). -/
def treePtmBases {R : Type} : Tree R → List R
  | .base _ => []
  | .array t _ => treePtmBases t
  | .ptr t => treePtmBases t
  | .sub ts => treeListPtmBases ts
  | .ptmd b t => b :: treePtmBases t
  | .ptmf b ts => b :: treeListPtmBases ts

/-- Collect the PTM base representations of a list of trees. -/
def treeListPtmBases {R : Type} : List (Tree R) → List R
  | [] => []
  | t :: ts => treePtmBases t ++ treeListPtmBases ts

end

/-! ## GoffBuckets (exstructs/src/bucket.rs) -/

/-- A partition of known goffs into equivalence classes, `struct GoffBuckets`.
`indexMap` models the `GoffMap<usize>`, `buckets` the `Vec<GoffSet>` (each
set a strictly sorted list), `freeList` the free index list. -/
structure GoffBuckets : Type where
  indexMap : List (Goff × Nat)
  buckets : List (List Goff)
  freeList : List Nat
  deriving DecidableEq

/-- The empty bucket collection, `GoffBuckets::default`. -/
def GoffBuckets.empty : GoffBuckets := ⟨[], [], []⟩

/-- Primary goff of one bucket, `GoffBuckets::primary_from_bucket`
(release branch): if the largest element is a primitive goff it is the
primary, otherwise the smallest element is. -/
def GoffBuckets.primaryFromBucket (bucket : List Goff) : Option Goff :=
  match bucket.getLast? with
  | none => none
  | some largest => if largest.isPrim then some largest else bucket.head?

/-- Primary goff of the bucket at an index, `GoffBuckets::primary_from_index`. -/
def GoffBuckets.primaryFromIndex (s : GoffBuckets) (i : Nat) : Option Goff :=
  match s.buckets.get? i with
  | none => none
  | some bucket => GoffBuckets.primaryFromBucket bucket

/-- Primary goff of the bucket `k` is in, `GoffBuckets::primary`. -/
def GoffBuckets.primary (s : GoffBuckets) (k : Goff) : Option Goff :=
  match mapGet s.indexMap k with
  | none => none
  | some i => s.primaryFromIndex i

/-- Primary with fallback to the input, `GoffBuckets::primary_fallback`. -/
def GoffBuckets.primaryFallback (s : GoffBuckets) (k : Goff) : Goff :=
  (s.primary k).getD k

/-- Index for a new bucket, `GoffBuckets::make_new_bucket`: pop the free
list, or append an empty bucket. -/
def GoffBuckets.makeNewBucket (s : GoffBuckets) : GoffBuckets × Nat :=
  match s.freeList with
  | [] => (⟨s.indexMap, s.buckets ++ [[]], s.freeList⟩, s.buckets.length)
  | i :: rest => (⟨s.indexMap, s.buckets, rest⟩, i)

/-- Take a bucket out, `GoffBuckets::remove_bucket`: push the index on the
free list and replace the bucket with the empty set, returning its keys. -/
def GoffBuckets.removeBucket (s : GoffBuckets) (i : Nat) : GoffBuckets × List Goff :=
  (⟨s.indexMap, s.buckets.set i [], i :: s.freeList⟩, (s.buckets.get? i).getD [])

/-- Insert a goff, `GoffBuckets::insert`.  Returns the updated state and
`none` if the goff was inserted as a new bucket, or `some k` with the
primary of its bucket if it was already present (state unchanged). -/
def GoffBuckets.insert (s : GoffBuckets) (k : Goff) : GoffBuckets × Option Goff :=
  match mapGet s.indexMap k with
  | none =>
    let r := s.makeNewBucket
    let s2 : GoffBuckets :=
      ⟨mapInsert r.1.indexMap k r.2,
       r.1.buckets.set r.2 (setInsert ((r.1.buckets.get? r.2).getD []) k),
       r.1.freeList⟩
    (s2, none)
  | some i => (s, s.primaryFromIndex i)

/-- Priority between two goffs, free function `pick_bucket_primary_key`:
a primitive goff wins, two distinct primitive goffs are an error, otherwise
the smaller goff wins. -/
def pickBucketPrimaryKey (k1 k2 : Goff) : Except String (Goff × Goff) :=
  if k1 = k2 then .ok (k1, k2)
  else
    match k1.isPrim, k2.isPrim with
    | true, true => .error "cannot have 2 different primitive goffs in the same bucket"
    | true, false => .ok (k1, k2)
    | false, true => .ok (k2, k1)
    | false, false => if k1 < k2 then .ok (k1, k2) else .ok (k2, k1)

/-- Merge the buckets of two goffs, `GoffBuckets::merge`.  The state is
threaded exactly as the Rust method mutates `self`: the two inserts happen
before any error can be returned, so an error leaves the classes of the
two goffs exactly as after insertion. -/
def GoffBuckets.merge (s : GoffBuckets) (k1 k2 : Goff) : GoffBuckets × Option String :=
  let r1 := s.insert k1
  let k1p := r1.2.getD k1
  let r2 := r1.1.insert k2
  let s2 := r2.1
  let k2p := r2.2.getD k2
  if k1p = k2p then (s2, none)
  else
    match pickBucketPrimaryKey k1p k2p with
    | .error e => (s2, some e)
    | .ok (kTo, kFrom) =>
      match mapGet s2.indexMap kFrom with
      | none => (s2, some "merge: unexpected k_from not found")
      | some iFrom =>
        match mapGet s2.indexMap kTo with
        | none => (s2, some "merge: unexpected k_to not found")
        | some iTo =>
          let r3 := s2.removeBucket iFrom
          let newIndexMap := r3.2.foldl (fun m k => mapInsert m k iTo) r3.1.indexMap
          let s4 : GoffBuckets :=
            ⟨newIndexMap,
             r3.1.buckets.set iTo (setExtend ((r3.1.buckets.get? iTo).getD []) r3.2),
             r3.1.freeList⟩
          (s4, none)

/-- Well-formedness of a bucket state (the invariants the Rust structure
maintains): every indexed goff is a member of its bucket, every bucket
member is indexed back to its bucket, buckets are strictly sorted and hold
at most one primitive goff, and free indices are in range, empty and
distinct. -/
def GoffBuckets.WF (s : GoffBuckets) : Prop :=
  (∀ p ∈ s.indexMap, p.1 ∈ (s.buckets.get? p.2).getD [])
  ∧ (∀ i ∈ List.range s.buckets.length, ∀ x ∈ (s.buckets.get? i).getD [],
      mapGet s.indexMap x = some i)
  ∧ (∀ b ∈ s.buckets, List.Pairwise (· < ·) b)
  ∧ (∀ b ∈ s.buckets, ∀ x ∈ b, ∀ y ∈ b, x.isPrim = true → y.isPrim = true → x = y)
  ∧ (∀ i ∈ s.freeList, i < s.buckets.length ∧ (s.buckets.get? i).getD [] = [])
  ∧ s.freeList.Nodup

instance goffBucketsWFDecidable (s : GoffBuckets) : Decidable s.WF :=
  inferInstanceAs (Decidable ((∀ p ∈ s.indexMap, p.1 ∈ (s.buckets.get? p.2).getD [])
    ∧ (∀ i ∈ List.range s.buckets.length, ∀ x ∈ (s.buckets.get? i).getD [],
        mapGet s.indexMap x = some i)
    ∧ (∀ b ∈ s.buckets, List.Pairwise (· < ·) b)
    ∧ (∀ b ∈ s.buckets, ∀ x ∈ b, ∀ y ∈ b, x.isPrim = true → y.isPrim = true → x = y)
    ∧ (∀ i ∈ s.freeList, i < s.buckets.length ∧ (s.buckets.get? i).getD [] = [])
    ∧ s.freeList.Nodup))

/-! ## Namespaces and names (exstructs/src/namespace.rs) -/

/-- One segment of a namespace path, `enum NameSeg`. -/
inductive NameSeg : Type where
  | name (s : String)
  | type (g : Goff) (s : String)
  | subprogram (g : Goff) (s : String) (isLinkageName : Bool)
  | anonymous
  deriving DecidableEq

/-- A namespace path, `struct Namespace(Vec<NameSeg>)`. -/
structure Namespace : Type where
  segs : List NameSeg
  deriving DecidableEq

/-- A name qualified by a namespace, `struct NamespacedName(Namespace, ArcStr)`. -/
structure NamespacedName : Type where
  ns : Namespace
  basename : String
  deriving DecidableEq

/-- The empty namespace, `Namespace::default`. -/
def Namespace.empty : Namespace := ⟨[]⟩

/-- An unnamespaced name, `NamespacedName::unnamespaced`. -/
def NamespacedName.unnamespaced (s : String) : NamespacedName := ⟨Namespace.empty, s⟩

/-! ## Type structure data (exstructs/src/structure.rs) -/

/-- Special member kinds, `enum SpecialMember`. -/
inductive SpecialMember : Type where
  | base
  | vfptr
  | bitfield (byteSize : Nat)
  deriving DecidableEq

/-- A struct or union member, `struct Member`. -/
structure Member : Type where
  offset : Nat
  name : Option String
  ty : Tree Goff
  special : Option SpecialMember
  deriving DecidableEq

/-- Whether the member is a base-class member, `Member::is_base`. -/
def Member.isBase (m : Member) : Bool := m.special = some SpecialMember.base

/-- Whether the member special is a bitfield (the loader's
`matches!(prev.special, Some(SpecialMember::Bitfield(_)))`). -/
def Member.isBitfield (m : Member) : Bool :=
  match m.special with
  | some (.bitfield _) => true
  | _ => false

/-- An entry of a virtual function table, `struct VtableEntry`. -/
structure VtableEntry : Type where
  name : String
  functionTypes : List (Tree Goff)
  deriving DecidableEq

/-- Whether the vtable entry is a destructor, `VtableEntry::is_dtor`:
the name starts with a tilde. -/
def VtableEntry.isDtor (v : VtableEntry) : Bool := v.name.startsWith "~"

/-- One enumerator of an enum, `struct Enumerator`. -/
structure Enumerator : Type where
  name : String
  value : Int
  deriving DecidableEq

/-- Template arguments, `enum TemplateArg<T>` (exstructs/src/template.rs),
here always instantiated at goffs. -/
inductive TemplateArg (R : Type) : Type where
  | const (v : Int)
  | type (t : Tree R)
  | staticConst

/-- Decidable equality for template arguments (the source derives `Eq`). -/
instance {R : Type} [DecidableEq R] : DecidableEq (TemplateArg R)
  | .const v, .const w =>
    if h : v = w then .isTrue (by rw [h]) else .isFalse (by intro q; cases q; exact h rfl)
  | .type t, .type t2 =>
    if h : t = t2 then .isTrue (by rw [h]) else .isFalse (by intro q; cases q; exact h rfl)
  | .staticConst, .staticConst => .isTrue rfl
  | .const _, .type _ => .isFalse (by intro q; cases q)
  | .const _, .staticConst => .isFalse (by intro q; cases q)
  | .type _, .const _ => .isFalse (by intro q; cases q)
  | .type _, .staticConst => .isFalse (by intro q; cases q)
  | .staticConst, .const _ => .isFalse (by intro q; cases q)
  | .staticConst, .type _ => .isFalse (by intro q; cases q)

/-- Data of an enum with resolved size, `struct Enum`. -/
structure Enum : Type where
  byteSize : Nat
  enumerators : List Enumerator
  deriving DecidableEq

/-- Decidable equality for the modelled Rust `Result`. -/
instance {ε α : Type} [DecidableEq ε] [DecidableEq α] : DecidableEq (Except ε α)
  | .ok a, .ok b =>
    if h : a = b then .isTrue (by rw [h]) else .isFalse (by intro q; cases q; exact h rfl)
  | .error a, .error b =>
    if h : a = b then .isTrue (by rw [h]) else .isFalse (by intro q; cases q; exact h rfl)
  | .ok _, .error _ => .isFalse (by intro q; cases q)
  | .error _, .ok _ => .isFalse (by intro q; cases q)

/-- Data of an enum whose size may still be a base-type reference,
`struct EnumUndeterminedSize`: `byte_size_or_base: Result<u32, Goff>`. -/
structure EnumUndeterminedSize : Type where
  byteSizeOrBase : Except Goff Nat
  enumerators : List Enumerator
  deriving DecidableEq

/-- Data of a union, `struct Union`. -/
structure Union : Type where
  templateArgs : List (TemplateArg Goff)
  byteSize : Nat
  members : List Member
  deriving DecidableEq

/-- Data of a struct or class, `struct Struct`. -/
structure Struct : Type where
  templateArgs : List (TemplateArg Goff)
  byteSize : Nat
  vtable : List (Nat × VtableEntry)
  members : List Member
  deriving DecidableEq

/-- Payload of a defined L-type or M-type, `struct LTypeData<T>`. -/
structure LTypeData (T : Type) : Type where
  name : Option NamespacedName
  data : T
  deriving DecidableEq

/-- Payload of a declared L-type, `struct LTypeDecl`. -/
structure LTypeDecl : Type where
  enclosing : Namespace
  nameWithTpl : NamespacedName
  deriving DecidableEq

/-- Low-level per-unit type data, `enum LType`. -/
inductive LType : Type where
  | prim (p : Prim)
  | typedef (name : NamespacedName) (target : Goff)
  | enum (d : LTypeData EnumUndeterminedSize)
  | enumDecl (d : LTypeDecl)
  | union (d : LTypeData Union)
  | unionDecl (d : LTypeDecl)
  | struct (d : LTypeData Struct)
  | structDecl (d : LTypeDecl)
  | tree (t : Tree Goff)
  | alias (g : Goff)
  deriving DecidableEq

/-! ## Struct member collection (cli/src/cmds/cmd_extract/stage0_loader.rs,
`load_struct_type_from_entry`) -/

/-- The u32 maximum, used by the loader both as an overflow bound and as the
initial `prev_offset` sentinel. -/
def u32Max : Nat := 4294967295

/-- Raw data of one `DW_TAG_member` child as read from DWARF attributes:
name, type offset, member offset, and the optional `DW_AT_bit_size` and
`DW_AT_byte_size` attributes. -/
structure RawStructMember : Type where
  name : Option String
  tyGoff : Goff
  offset : Nat
  bitSize : Option Nat
  byteSize : Option Nat
  deriving DecidableEq

/-- The bitfield tail of the member processing: a member with
`DW_AT_bit_size` adopts `Bitfield(byte_size)` and replaces the last
collected member when that member has the same offset and is itself a
bitfield; all other members are appended. -/
def bitfieldStep (members : List Member) (f : RawStructMember) (member0 : Member) :
    Except String (List Member) :=
  match f.bitSize with
  | none => .ok (members ++ [member0])
  | some _ =>
    match f.byteSize with
    | none => .error "failed to get byte size of struct bitfield member"
    | some bsz =>
      if u32Max ≤ bsz then .error "bitfield_byte_size is too big"
      else
        let member1 : Member := { member0 with special := some (.bitfield bsz) }
        match members.getLast? with
        | some prev =>
          if prev.offset = member1.offset ∧ prev.isBitfield = true then
            .ok (members.dropLast ++ [member1])
          else
            .ok (members ++ [member1])
        | none => .ok (members ++ [member1])

/-- Process one non-static `DW_TAG_member` child of a struct entry,
`load_struct_type_from_entry` lines 453..527.  `isVfptrName` models the
configured `vfptr-field-regex` match, `pointerType` the configured pointer
primitive.  A name matching the vfptr pattern must sit at offset zero and
is rewritten to a pointer-primitive `Vfptr` member. -/
def addStructMember (isVfptrName : String → Bool) (pointerType : Prim)
    (members : List Member) (f : RawStructMember) : Except String (List Member) :=
  if u32Max ≤ f.offset then .error "member_offset is too big"
  else
    match f.name with
    | some n =>
      if isVfptrName n then
        if f.offset = 0 then
          bitfieldStep members f
            { offset := 0, name := none, ty := .base (Goff.prim pointerType),
              special := some .vfptr }
        else .error "unexpected vfptr field at non-zero offset"
      else
        bitfieldStep members f
          { offset := f.offset, name := some n, ty := .base f.tyGoff, special := none }
    | none =>
      bitfieldStep members f
        { offset := f.offset, name := none, ty := .base f.tyGoff, special := none }

/-- Collect a list of raw struct members in DWARF order. -/
def loadStructMembers (isVfptrName : String → Bool) (pointerType : Prim)
    (fs : List RawStructMember) : Except String (List Member) :=
  fs.foldlM (addStructMember isVfptrName pointerType) []

/-- Stable insertion of an element into a list sorted by a natural key:
the element goes after all elements whose key is not greater. -/
def stableInsertByKey {α : Type} (key : α → Nat) : List α → α → List α
  | [], m => [m]
  | x :: xs, m => if key m < key x then m :: x :: xs else x :: stableInsertByKey key xs m

/-- Stable sort by a natural key (model of the stable Rust `sort_by_key`,
realized as insertion sort). -/
def sortByKey {α : Type} (key : α → Nat) (ms : List α) : List α :=
  ms.foldl (stableInsertByKey key) []

/-- The scan of `Vec::retain` in `load_struct_type_from_entry` lines
597..611: walk the sorted members tracking the offset of the last retained
member; an equal-offset base member is dropped (empty-base optimization),
an equal-offset non-base member records the first conflicting offset. -/
def retainMembers : List Member → Nat → Option Nat → List Member × Option Nat
  | [], _, conflict => ([], conflict)
  | m :: rest, prevOffset, conflict =>
    if m.offset = prevOffset then
      if m.isBase then
        retainMembers rest prevOffset conflict
      else
        let conflict2 := if conflict.isNone then some prevOffset else conflict
        let r := retainMembers rest m.offset conflict2
        (m :: r.1, r.2)
    else
      let r := retainMembers rest m.offset conflict
      (m :: r.1, r.2)

/-- Sort the collected struct members and check offset collisions,
`load_struct_type_from_entry` lines 588..614: stable sort by `is_base`,
then stable sort by `offset`, then drop equal-offset bases and fail on any
remaining equal-offset pair. -/
def sortAndCheckMembers (ms : List Member) : Except String (List Member) :=
  let sorted := sortByKey (fun m => m.offset) (sortByKey (fun m => cond m.isBase 1 0) ms)
  let r := retainMembers sorted u32Max none
  match r.2 with
  | some _ => .error "found multiple members at the same offset"
  | none => .ok r.1

/-! ## Union member collection (cli/src/cmds/cmd_extract/stage0_loader.rs,
`load_union_type_from_entry` lines 349..371) -/

/-- Process one `DW_TAG_member` child of a union entry: a member whose type
duplicates an already collected member is merged into it, the name being
adopted only when the collected member had none. -/
def addUnionMember : List Member → Option String → Goff → List Member
  | [], name, t => [{ offset := 0, name := name, ty := .base t, special := none }]
  | m :: rest, name, t =>
    if m.ty = .base t then
      (if m.name = none then { m with name := name } else m) :: rest
    else
      m :: addUnionMember rest name t

/-- Collect union members in DWARF order; each raw member is a name and a
type offset. -/
def loadUnionMembers (fs : List (Option String × Goff)) : List Member :=
  fs.foldl (fun ms f => addUnionMember ms f.1 f.2) []

/-! ## Symbols (exstructs/src/symbol.rs) and namespace maps -/

/-- Information of a global symbol, `struct SymbolInfo`. -/
structure SymbolInfo : Type where
  address : Nat
  linkName : String
  ty : Tree Goff
  paramNames : List String
  templateArgs : List (TemplateArg Goff)
  deriving DecidableEq

/-- Per-unit namespace data, `struct NamespaceMaps` (exstructs/src/namespace.rs). -/
structure NamespaceMaps : Type where
  qualifiers : List (Goff × Namespace)
  namespaces : List (Goff × Namespace)
  bySrc : List (String × Namespace)
  deriving DecidableEq

/-! ## Goff mapping (exstructs/src/algorithm/map_goff.rs)

The claims only exercise `map_goff` with the infallible function
`|k| Ok(buckets.primary_fallback(k))`, so the mapping functions are
modelled with a total `Goff → Goff` argument. -/

/-- Goff mapping inside a template argument, `TemplateArg::<Goff>::map_goff`. -/
def TemplateArg.mapGoff (f : Goff → Goff) : TemplateArg Goff → TemplateArg Goff
  | .type t => .type (treeMapGoff f t)
  | other => other

/-- Goff mapping inside a member, `Member::map_goff`. -/
def Member.mapGoff (f : Goff → Goff) (m : Member) : Member :=
  { m with ty := treeMapGoff f m.ty }

/-- Goff mapping inside a vtable entry, `VtableEntry::map_goff`. -/
def VtableEntry.mapGoff (f : Goff → Goff) (v : VtableEntry) : VtableEntry :=
  { v with functionTypes := v.functionTypes.map (treeMapGoff f) }

/-- Goff mapping inside a symbol, `SymbolInfo::map_goff`: the type and the
template arguments. -/
def SymbolInfo.mapGoff (f : Goff → Goff) (s : SymbolInfo) : SymbolInfo :=
  { s with ty := treeMapGoff f s.ty,
           templateArgs := s.templateArgs.map (TemplateArg.mapGoff f) }

/-- Goff mapping inside a namespace segment, `NameSeg::map_goff`: only
`Type` and `Subprogram` segments carry a goff. -/
def NameSeg.mapGoff (f : Goff → Goff) : NameSeg → NameSeg
  | .type g s => .type (f g) s
  | .subprogram g s b => .subprogram (f g) s b
  | other => other

/-- Goff mapping inside a namespace, `Namespace::map_goff`. -/
def Namespace.mapGoff (f : Goff → Goff) (n : Namespace) : Namespace :=
  ⟨n.segs.map (NameSeg.mapGoff f)⟩

/-- Goff mapping inside a namespaced name, `NamespacedName::map_goff`. -/
def NamespacedName.mapGoff (f : Goff → Goff) (n : NamespacedName) : NamespacedName :=
  { n with ns := n.ns.mapGoff f }

/-- Goff mapping inside union data, `impl MapGoff for Union`. -/
def Union.mapGoff (f : Goff → Goff) (u : Union) : Union :=
  { u with templateArgs := u.templateArgs.map (TemplateArg.mapGoff f),
           members := u.members.map (Member.mapGoff f) }

/-- Goff mapping inside struct data, `impl MapGoff for Struct`. -/
def Struct.mapGoff (f : Goff → Goff) (s : Struct) : Struct :=
  { s with templateArgs := s.templateArgs.map (TemplateArg.mapGoff f),
           vtable := s.vtable.map (fun p => (p.1, p.2.mapGoff f)),
           members := s.members.map (Member.mapGoff f) }

/-- Goff mapping inside an L-type payload, `LTypeData::<T>::map_goff`
(maps the name, then the data). -/
def LTypeData.mapGoff {T : Type} (fd : (Goff → Goff) → T → T) (f : Goff → Goff)
    (d : LTypeData T) : LTypeData T :=
  { name := d.name.map (NamespacedName.mapGoff f), data := fd f d.data }

/-- Goff mapping inside an L-type declaration, `LTypeDecl::map_goff`. -/
def LTypeDecl.mapGoff (f : Goff → Goff) (d : LTypeDecl) : LTypeDecl :=
  { enclosing := d.enclosing.mapGoff f, nameWithTpl := d.nameWithTpl.mapGoff f }

/-- Goff mapping for enum data is a no-op, `impl MapGoff for Enum` and
`impl MapGoff for EnumUndeterminedSize` (even a base-type reference in
`byte_size_or_base` is not mapped). -/
def EnumUndeterminedSize.mapGoff (_f : Goff → Goff) (d : EnumUndeterminedSize) :
    EnumUndeterminedSize := d

/-- Goff mapping over an L-type, `LType::map_goff`. -/
def LType.mapGoff (f : Goff → Goff) : LType → LType
  | .prim p => .prim p
  | .typedef name target => .typedef (name.mapGoff f) (f target)
  | .alias inner => .alias (f inner)
  | .enum d => .enum (d.mapGoff EnumUndeterminedSize.mapGoff f)
  | .enumDecl d => .enumDecl (d.mapGoff f)
  | .union d => .union (d.mapGoff Union.mapGoff f)
  | .unionDecl d => .unionDecl (d.mapGoff f)
  | .struct d => .struct (d.mapGoff Struct.mapGoff f)
  | .structDecl d => .structDecl (d.mapGoff f)
  | .tree t => .tree (treeMapGoff f t)

/-- Goff mapping over all values of the namespace maps (the three loops at
the end of `merging_dedupe`). -/
def NamespaceMaps.mapGoff (f : Goff → Goff) (ns : NamespaceMaps) : NamespaceMaps :=
  { qualifiers := ns.qualifiers.map (fun p => (p.1, p.2.mapGoff f)),
    namespaces := ns.namespaces.map (fun p => (p.1, p.2.mapGoff f)),
    bySrc := ns.bySrc.map (fun p => (p.1, p.2.mapGoff f)) }

/-! ## Dedupe (exstructs/src/algorithm/dedupe.rs) -/

/-- Result of `merging_dedupe`: the deduplicated map together with the
symbol table and namespace maps it rewrote at the fixpoint. -/
structure DedupeOut (T : Type) : Type where
  map : List (Goff × T)
  symbols : List (String × SymbolInfo)
  ns : Option NamespaceMaps
  deriving DecidableEq

/-- The map-rebuilding phase of one `merging_dedupe` iteration (the first
`for` loop): every entry is re-keyed by `primary_fallback`, its value run
through the mapper; colliding keys keep equal values and merge unequal
ones through the merger. -/
def dedupeBuild {T : Type} [DecidableEq T] (buckets : GoffBuckets)
    (mapper : T → GoffBuckets → Option T) (merger : T → T → Option T) :
    List (Goff × T) → List (Goff × T) → Option (List (Goff × T))
  | [], acc => some acc
  | (goff, t) :: rest, acc =>
    let k := buckets.primaryFallback goff
    match mapper t buckets with
    | none => none
    | some t2 =>
      match mapGet acc k with
      | none => dedupeBuild buckets mapper merger rest (mapInsert acc k t2)
      | some existing =>
        if existing = t2 then
          dedupeBuild buckets mapper merger rest acc
        else
          match merger existing t2 with
          | none => none
          | some merged => dedupeBuild buckets mapper merger rest (mapInsert acc k merged)

/-- Insert a goff into the hash-grouping map (the `hash_map.entry(h)`
update in `merging_dedupe`). -/
def groupInsert (m : List (Nat × List Goff)) (h : Nat) (k : Goff) : List (Nat × List Goff) :=
  match mapGet m h with
  | none => mapInsert m h [k]
  | some s => mapInsert m h (setInsert s k)

/-- Group the keys of the map by the hash of their value (the second `for`
loop of a `merging_dedupe` iteration). -/
def groupByHash {T : Type} (hash : T → Nat) :
    List (Goff × T) → List (Nat × List Goff) → List (Nat × List Goff)
  | [], acc => acc
  | (g, t) :: rest, acc => groupByHash hash rest (groupInsert acc (hash t) g)

/-- The inner pair loop of the hash-collision scan: compare the first key
of a group against every later one, merging buckets when the mapped values
are equal. -/
def pairMergeOne {T : Type} [DecidableEq T] (map : List (Goff × T)) (k : Goff) :
    List Goff → GoffBuckets → Bool → Option (GoffBuckets × Bool)
  | [], bks, hm => some (bks, hm)
  | j :: rest, bks, hm =>
    match mapGet map k, mapGet map j with
    | some t1, some t2 =>
      if t1 = t2 then
        match bks.merge k j with
        | (bks2, none) => pairMergeOne map k rest bks2 true
        | (_, some _) => none
      else
        pairMergeOne map k rest bks hm
    | _, _ => none

/-- The pair scan over one group's key list. -/
def pairMergeKeys {T : Type} [DecidableEq T] (map : List (Goff × T)) :
    List Goff → GoffBuckets → Bool → Option (GoffBuckets × Bool)
  | [], bks, hm => some (bks, hm)
  | k :: rest, bks, hm =>
    match pairMergeOne map k rest bks hm with
    | none => none
    | some (bks2, hm2) => pairMergeKeys map rest bks2 hm2

/-- The pair scan over all hash groups (the `if has_collision` block). -/
def pairMergeGroups {T : Type} [DecidableEq T] (map : List (Goff × T)) :
    List (Nat × List Goff) → GoffBuckets → Bool → Option (GoffBuckets × Bool)
  | [], bks, hm => some (bks, hm)
  | (_, keys) :: rest, bks, hm =>
    match pairMergeKeys map keys bks hm with
    | none => none
    | some (bks2, hm2) => pairMergeGroups map rest bks2 hm2

/-- The dedupe loop, `merging_dedupe` (exstructs dedupe.rs): rebuild the
map through the buckets, merge the buckets of equal values grouped by
hash, loop while merges happen, and on the fixpoint rewrite symbols and
namespace maps through `primary_fallback`.  `fuel` bounds the number of
iterations; `none` is both error and fuel exhaustion. -/
def mergingDedupe {T : Type} [DecidableEq T] (hash : T → Nat)
    (mapper : T → GoffBuckets → Option T) (merger : T → T → Option T) :
    Nat → List (Goff × T) → GoffBuckets → List (String × SymbolInfo) →
    Option NamespaceMaps → Option (DedupeOut T)
  | 0, _, _, _, _ => none
  | fuel + 1, map, buckets, symbols, ns =>
    match dedupeBuild buckets mapper merger map [] with
    | none => none
    | some map2 =>
      match (if (groupByHash hash map2 []).isEmpty then some (buckets, false)
             else pairMergeGroups map2 (groupByHash hash map2 []) buckets false) with
      | none => none
      | some (buckets2, hasMerges) =>
        if hasMerges then
          mergingDedupe hash mapper merger fuel map2 buckets2 symbols ns
        else
          some ⟨map2,
                symbols.map (fun p => (p.1, p.2.mapGoff buckets2.primaryFallback)),
                ns.map (NamespaceMaps.mapGoff buckets2.primaryFallback)⟩

/-- The non-merging wrapper `dedupe`: its merger always fails. -/
def dedupe {T : Type} [DecidableEq T] (hash : T → Nat)
    (mapper : T → GoffBuckets → Option T) (fuel : Nat) (map : List (Goff × T))
    (buckets : GoffBuckets) (symbols : List (String × SymbolInfo))
    (ns : Option NamespaceMaps) : Option (DedupeOut T) :=
  mergingDedupe hash mapper (fun _ _ => none) fuel map buckets symbols ns

/-! ## Typedef and alias cleaning (exstractor/src/lstage/clean_typedefs.rs) -/

/-- Whether the goff transitively refers to a composite tree, `is_tree`
(the memoization cache of the source is semantically transparent and is
not modelled).  The source recursion is unbounded; the model takes fuel,
which suffices whenever the corresponding `resolve_alias` call succeeded. -/
def isTreeG (types : List (Goff × LType)) : Nat → Goff → Option Bool
  | 0, _ => none
  | fuel + 1, goff =>
    match mapGet types goff with
    | none => none
    | some (.typedef _ inner) => isTreeG types fuel inner
    | some (.alias inner) => isTreeG types fuel inner
    | some (.tree (Tree.base inner)) => isTreeG types fuel inner
    | some (.tree _) => some true
    | some _ => some false

/-- Whether the goff transitively refers to a primitive, `is_primitive`. -/
def isPrimitiveG (types : List (Goff × LType)) : Nat → Goff → Option Bool
  | 0, _ => none
  | fuel + 1, goff =>
    if goff.isPrim then some true
    else
      match mapGet types goff with
      | none => none
      | some (.typedef _ inner) => isPrimitiveG types fuel inner
      | some (.alias inner) => isPrimitiveG types fuel inner
      | some (.tree (Tree.base inner)) => isPrimitiveG types fuel inner
      | some (.prim _) => some true
      | some _ => some false

/-- Resolve alias chains, `resolve_alias`: follow `Alias`, `Tree::Base`
and collapsible `Typedef` edges; a typedef whose target resolves to a
composite tree or a primitive loses its name, otherwise the typedef is
retargeted at the resolved goff.  The source limits the recursion depth to
1000, so the model's initial fuel is 1001. -/
def resolveAlias (types : List (Goff × LType)) : Nat → Goff → Option (Goff × LType)
  | 0, _ => none
  | fuel + 1, goff =>
    match mapGet types goff with
    | none => none
    | some (.alias inner) => resolveAlias types fuel inner
    | some (.tree (Tree.base inner)) => resolveAlias types fuel inner
    | some (.typedef name inner) =>
      match resolveAlias types fuel inner with
      | none => none
      | some resolved =>
        match isTreeG types fuel inner, isPrimitiveG types fuel inner with
        | some it, some ip =>
          if it || ip then some resolved
          else if inner ≠ resolved.1 then some (goff, .typedef name resolved.1)
          else some (goff, .typedef name inner)
        | _, _ => none
    | some other => some (goff, other)

/-- The resolve-and-merge loop of `clean_typedefs::run`: resolve every key
of the type map, merge it with its resolution in the buckets and collect
the resolved data keyed by the resolved goff. -/
def cleanStep (types : List (Goff × LType)) :
    List (Goff × LType) → GoffBuckets → List (Goff × LType) →
    Option (GoffBuckets × List (Goff × LType))
  | [], buckets, newMap => some (buckets, newMap)
  | (k1, _) :: rest, buckets, newMap =>
    match resolveAlias types 1001 k1 with
    | none => none
    | some (k2, data) =>
      match buckets.merge k1 k2 with
      | (_, some _) => none
      | (buckets2, none) => cleanStep types rest buckets2 (mapInsert newMap k2 data)

/-- The typedef-cleaning pass, `clean_typedefs::run`: resolve-and-merge,
then dedupe with the mapper that rewrites every nested goff through the
buckets (the debug-only assertion loop of the source is not modelled). -/
def cleanTypedefsRun (hash : LType → Nat) (dedupeFuel : Nat)
    (types : List (Goff × LType)) (symbols : List (String × SymbolInfo))
    (ns : NamespaceMaps) : Option (DedupeOut LType) :=
  match cleanStep types types GoffBuckets.empty [] with
  | none => none
  | some (buckets, newMap) =>
    dedupe hash (fun t bks => some (t.mapGoff bks.primaryFallback)) dedupeFuel
      newMap buckets symbols (some ns)

/-! ## Tree flattening (exstractor/src/lstage/flatten_trees.rs) -/

/-- The accumulation loop that `flatten_by_tree` runs over the entries of
a `Sub` or `Ptmf` node: `seen` carries the entries already iterated (the
source's `inners.iter().take(i)`), `newVec` the `new_vec` accumulator.
When an entry flattens to a change and `new_vec` is empty, the already
seen prefix of unchanged entries is copied in front; an unchanged entry
found after a change is pushed nowhere. -/
def flattenVecLoop (flat : Tree Goff → Option (Option (Tree Goff))) :
    List (Tree Goff) → List (Tree Goff) → List (Tree Goff) → Option (List (Tree Goff))
  | [], _, newVec => some newVec
  | t :: rest, seen, newVec =>
    match flat t with
    | none => none
    | some none => flattenVecLoop flat rest (seen ++ [t]) newVec
    | some (some x) =>
      let newVec2 := if newVec.isEmpty then seen ++ [x] else newVec ++ [x]
      flattenVecLoop flat rest (seen ++ [t]) newVec2

/-- One tree flattening step, `flatten_by_tree` (returning `some (some t)`
when the tree changed, `some none` when unchanged, `none` on error).  The
`Base` case inlines `flatten_by_goff` at the incremented depth: a goff
naming another `Tree` L-type is replaced by that (flattened) tree, an
`Alias` is an error, anything else leaves the node unchanged.  Arrays of
length one collapse to their element and a `Ptmd` whose pointee flattens
to a `Sub` becomes a `Ptmf`.  The source bails beyond depth 1000; fuel 0
models the exceeded limit. -/
def flattenByTreeF (types : List (Goff × LType)) : Nat → Tree Goff → Option (Option (Tree Goff))
  | 0, _ => none
  | fuel + 1, t =>
    match t with
    | .base inner =>
      match mapGet types inner with
      | none => none
      | some (.alias _) => none
      | some (.tree t2) =>
        (match flattenByTreeF types fuel t2 with
         | none => none
         | some (some x) => some (some x)
         | some none => some (some t2))
      | some _ => some none
    | .ptr inner =>
      match flattenByTreeF types fuel inner with
      | none => none
      | some (some x) => some (some (.ptr x))
      | some none => some none
    | .array inner len =>
      match flattenByTreeF types fuel inner with
      | none => none
      | some (some x) => if len = 1 then some (some x) else some (some (.array x len))
      | some none => if len = 1 then some (some inner) else some none
    | .sub inners =>
      match flattenVecLoop (flattenByTreeF types fuel) inners [] [] with
      | none => none
      | some newVec => if newVec.isEmpty then some none else some (some (.sub newVec))
    | .ptmd b inner =>
      match flattenByTreeF types fuel inner with
      | none => none
      | some (some (.sub ts)) => some (some (.ptmf b ts))
      | some (some other) => some (some (.ptmd b other))
      | some none => some none
    | .ptmf b inners =>
      match flattenVecLoop (flattenByTreeF types fuel) inners [] [] with
      | none => none
      | some newVec => if newVec.isEmpty then some none else some (some (.ptmf b newVec))

/-- Flattening of a type by goff, `flatten_by_goff`: only `Tree` L-types
flatten (always reporting a change), aliases are an invariant violation. -/
def flattenByGoff (types : List (Goff × LType)) (fuel : Nat) (goff : Goff) :
    Option (Option (Tree Goff)) :=
  match mapGet types goff with
  | none => none
  | some (.alias _) => none
  | some (.tree t) =>
    (match flattenByTreeF types fuel t with
     | none => none
     | some (some x) => some (some x)
     | some none => some (some t))
  | some _ => some none

/-! ## Enum size resolution (exstractor/src/lstage/resolve_enum_sizes.rs) -/

/-- The in-progress sentinel, `RESOLVING` (valid because `sizeof` of a
resolved type is never zero). -/
def RESOLVING : Nat := 0

/-- The unsized sentinel, `UNSIZED` (`u32::MAX`). -/
def UNSIZED : Nat := 4294967295

/-- The configured widths that seed the resolver,
`extract.pointer-width` / `ptmd-repr` / `ptmf-repr`. -/
structure SizeConfig : Type where
  pointerSize : Nat
  ptmdSize : Nat
  ptmfSize : Nat

/-- The initial size map of `SizeResolver::try_new`: the pointer, PTMD and
PTMF widths from the configuration and the fixed primitive table. -/
def initialSizes (cfg : SizeConfig) : List (Goff × Nat) :=
  Prim.all.foldl (fun m p => mapInsert m (Goff.prim p) ((Prim.byteSize p).getD UNSIZED))
    (mapInsert (mapInsert (mapInsert [] Goff.pointer cfg.pointerSize)
      Goff.ptmdGoff cfg.ptmdSize) Goff.ptmfGoff cfg.ptmfSize)

/-- Result of a size resolution step: fuel exhaustion is distinguished
from the errors the source reports. -/
inductive SizeRes : Type where
  | fuelOut
  | fail (e : String)
  | ok (size : Nat) (sizes : List (Goff × Nat))
  deriving DecidableEq

/-- The tail of every `get_size` branch: reject the sentinel value and
record the resolved size. -/
def finishSize (goff : Goff) (size : Nat) (sizes : List (Goff × Nat)) : SizeRes :=
  if size = RESOLVING then .fail "unexpected invalid size"
  else .ok size (mapInsert sizes goff size)

mutual

/-- Resolve the size of a type, `SizeResolver::get_size`: a memoized
result is returned unless it is the in-progress sentinel, which is an
infinite-size error; every branch that recurses first records the
sentinel for its own goff. -/
def getSize (types : List (Goff × LType)) : Nat → List (Goff × Nat) → Goff → SizeRes
  | 0, _, _ => .fuelOut
  | fuel + 1, sizes, goff =>
    match mapGet sizes goff with
    | some x =>
      if x = RESOLVING then .fail "failed to resolve size: infinite sized type"
      else .ok x sizes
    | none =>
      match mapGet types goff with
      | none => .fail "unexpected unlinked type"
      | some (.prim p) =>
        let size := (p.byteSize).getD UNSIZED
        finishSize goff size (mapInsert sizes goff size)
      | some (.typedef _ target) =>
        (match getSize types fuel (mapInsert sizes goff RESOLVING) target with
         | .ok size sizes2 => finishSize goff size sizes2
         | e => e)
      | some (.alias inner) =>
        (match getSize types fuel (mapInsert sizes goff RESOLVING) inner with
         | .ok size sizes2 => finishSize goff size sizes2
         | e => e)
      | some (.enum d) =>
        (match d.data.byteSizeOrBase with
         | .ok size =>
           if size = 0 then .fail "unexpected zero-sized enum"
           else if size = UNSIZED then .fail "unexpected unsized enum"
           else finishSize goff size sizes
         | .error inner =>
           match getSize types fuel (mapInsert sizes goff RESOLVING) inner with
           | .ok size sizes2 =>
             if size = 0 then .fail "unexpected zero-sized enum"
             else if size = UNSIZED then .fail "unexpected unsized enum"
             else finishSize goff size sizes2
           | e => e)
      | some (.enumDecl _) => .fail "encountered declaration while resolving size: enum decl"
      | some (.union d) =>
        (match getMembersMax types fuel (mapInsert sizes goff RESOLVING) d.data.members 0 with
         | .ok maxSize sizes2 =>
           if maxSize ≠ d.data.byteSize then .fail "unexpected union size mismatch"
           else if d.data.byteSize = 0 then .fail "unexpected zero-sized union"
           else if d.data.byteSize = UNSIZED then .fail "unexpected unsized union"
           else finishSize goff d.data.byteSize sizes2
         | e => e)
      | some (.unionDecl _) => .fail "encountered declaration while resolving size: union decl"
      | some (.struct d) =>
        if d.data.byteSize = 0 then .fail "unexpected zero-sized struct"
        else if d.data.byteSize = UNSIZED then .fail "unexpected unsized struct"
        else finishSize goff d.data.byteSize sizes
      | some (.structDecl _) => .fail "encountered declaration while resolving size: struct decl"
      | some (.tree tyTree) =>
        (match getTreeSize types fuel (mapInsert sizes goff RESOLVING) tyTree with
         | .ok size sizes2 => finishSize goff size sizes2
         | e => e)

/-- The maximum member size scan of the union branch of `get_size`. -/
def getMembersMax (types : List (Goff × LType)) :
    Nat → List (Goff × Nat) → List Member → Nat → SizeRes
  | 0, _, _, _ => .fuelOut
  | _ + 1, sizes, [], acc => .ok acc sizes
  | fuel + 1, sizes, m :: rest, acc =>
    match getTreeSize types fuel sizes m.ty with
    | .ok s sizes2 => getMembersMax types fuel sizes2 rest (max s acc)
    | e => e

/-- Resolve the size of a type tree, `SizeResolver::get_tree_size`:
base goffs recurse, arrays multiply, pointers and PTM kinds read the
configured widths seeded in the map, subroutines are unsized. -/
def getTreeSize (types : List (Goff × LType)) :
    Nat → List (Goff × Nat) → Tree Goff → SizeRes
  | 0, _, _ => .fuelOut
  | fuel + 1, sizes, .base inner => getSize types fuel sizes inner
  | fuel + 1, sizes, .array elemty len =>
    if len = 0 then .fail "unexpected 0-length array"
    else
      match getTreeSize types fuel sizes elemty with
      | .ok s sizes2 =>
        if s = UNSIZED then .fail "array element must be sized"
        else .ok (s * len) sizes2
      | e => e
  | _ + 1, sizes, .ptr _ =>
    (match mapGet sizes Goff.pointer with
     | none => .fail "unwrap: pointer size missing"
     | some s => .ok s sizes)
  | _ + 1, sizes, .sub _ => .ok UNSIZED sizes
  | _ + 1, sizes, .ptmd _ _ =>
    (match mapGet sizes Goff.ptmdGoff with
     | none => .fail "unwrap: ptmd size missing"
     | some s => .ok s sizes)
  | _ + 1, sizes, .ptmf _ _ =>
    (match mapGet sizes Goff.ptmfGoff with
     | none => .fail "unwrap: ptmf size missing"
     | some s => .ok s sizes)

end

/-! ## Templated names (exstructs/src/template.rs)

`NamespacedTemplatedName` is recursive through
`Vec<TemplateArg<NamespacedTemplatedName>>` and `Tree`; the embedding
specializes the generic `TemplateArg`/`Tree`/`Vec` layers into a mutual
inductive family with explicit list spines (`NtnArgList`, `NtnTreeList`)
so that the recursive functions over it stay structural. -/

mutual

/-- A fully qualified name with recursive template arguments,
`struct NamespacedTemplatedName`. -/
inductive NamespacedTemplatedName : Type where
  | mk (base : NamespacedName) (templates : NtnArgList)

/-- Spine of `Vec<TemplateArg<NamespacedTemplatedName>>`. -/
inductive NtnArgList : Type where
  | nil
  | cons (a : NtnArg) (rest : NtnArgList)

/-- `TemplateArg<NamespacedTemplatedName>`. -/
inductive NtnArg : Type where
  | const (v : Int)
  | type (t : NtnTree)
  | staticConst

/-- `Tree<NamespacedTemplatedName>`. -/
inductive NtnTree : Type where
  | base (r : NamespacedTemplatedName)
  | array (t : NtnTree) (len : Nat)
  | ptr (t : NtnTree)
  | sub (ts : NtnTreeList)
  | ptmd (b : NamespacedTemplatedName) (t : NtnTree)
  | ptmf (b : NamespacedTemplatedName) (ts : NtnTreeList)

/-- Spine of `Vec<Tree<NamespacedTemplatedName>>`. -/
inductive NtnTreeList : Type where
  | nil
  | cons (t : NtnTree) (rest : NtnTreeList)

end

mutual

/-- Decidable equality for templated names (the source derives `Eq`). -/
def ntnDecEq : (a b : NamespacedTemplatedName) → Decidable (a = b)
  | .mk b1 t1, .mk b2 t2 =>
    match instDecidableEqNamespacedName b1 b2, ntnArgListDecEq t1 t2 with
    | .isTrue p, .isTrue q => .isTrue (by rw [p, q])
    | .isFalse p, _ => .isFalse (by intro q; cases q; exact p rfl)
    | _, .isFalse p => .isFalse (by intro q; cases q; exact p rfl)
termination_by structural a => a

/-- Decidable equality for template-argument lists. -/
def ntnArgListDecEq : (a b : NtnArgList) → Decidable (a = b)
  | .nil, .nil => .isTrue rfl
  | .nil, .cons _ _ => .isFalse (by intro q; cases q)
  | .cons _ _, .nil => .isFalse (by intro q; cases q)
  | .cons a as, .cons b bs =>
    match ntnArgDecEq a b, ntnArgListDecEq as bs with
    | .isTrue p, .isTrue q => .isTrue (by rw [p, q])
    | .isFalse p, _ => .isFalse (by intro q; cases q; exact p rfl)
    | _, .isFalse p => .isFalse (by intro q; cases q; exact p rfl)
termination_by structural a => a

/-- Decidable equality for template arguments over templated names. -/
def ntnArgDecEq : (a b : NtnArg) → Decidable (a = b)
  | .const v, .const w =>
    match Int.instDecidableEq v w with
    | .isTrue p => .isTrue (by rw [p])
    | .isFalse p => .isFalse (by intro q; cases q; exact p rfl)
  | .type t, .type t2 =>
    match ntnTreeDecEq t t2 with
    | .isTrue p => .isTrue (by rw [p])
    | .isFalse p => .isFalse (by intro q; cases q; exact p rfl)
  | .staticConst, .staticConst => .isTrue rfl
  | .const _, .type _ => .isFalse (by intro q; cases q)
  | .const _, .staticConst => .isFalse (by intro q; cases q)
  | .type _, .const _ => .isFalse (by intro q; cases q)
  | .type _, .staticConst => .isFalse (by intro q; cases q)
  | .staticConst, .const _ => .isFalse (by intro q; cases q)
  | .staticConst, .type _ => .isFalse (by intro q; cases q)
termination_by structural a => a

/-- Decidable equality for trees over templated names. -/
def ntnTreeDecEq : (a b : NtnTree) → Decidable (a = b)
  | .base r, .base s =>
    match ntnDecEq r s with
    | .isTrue p => .isTrue (by rw [p])
    | .isFalse p => .isFalse (by intro q; cases q; exact p rfl)
  | .array t l, .array t2 l2 =>
    match ntnTreeDecEq t t2, Nat.decEq l l2 with
    | .isTrue p, .isTrue q => .isTrue (by rw [p, q])
    | .isFalse p, _ => .isFalse (by intro q; cases q; exact p rfl)
    | _, .isFalse p => .isFalse (by intro q; cases q; exact p rfl)
  | .ptr t, .ptr t2 =>
    match ntnTreeDecEq t t2 with
    | .isTrue p => .isTrue (by rw [p])
    | .isFalse p => .isFalse (by intro q; cases q; exact p rfl)
  | .sub ts, .sub ts2 =>
    match ntnTreeListDecEq ts ts2 with
    | .isTrue p => .isTrue (by rw [p])
    | .isFalse p => .isFalse (by intro q; cases q; exact p rfl)
  | .ptmd b t, .ptmd b2 t2 =>
    match ntnDecEq b b2, ntnTreeDecEq t t2 with
    | .isTrue p, .isTrue q => .isTrue (by rw [p, q])
    | .isFalse p, _ => .isFalse (by intro q; cases q; exact p rfl)
    | _, .isFalse p => .isFalse (by intro q; cases q; exact p rfl)
  | .ptmf b ts, .ptmf b2 ts2 =>
    match ntnDecEq b b2, ntnTreeListDecEq ts ts2 with
    | .isTrue p, .isTrue q => .isTrue (by rw [p, q])
    | .isFalse p, _ => .isFalse (by intro q; cases q; exact p rfl)
    | _, .isFalse p => .isFalse (by intro q; cases q; exact p rfl)
  | .base _, .array _ _ => .isFalse (by intro q; cases q)
  | .base _, .ptr _ => .isFalse (by intro q; cases q)
  | .base _, .sub _ => .isFalse (by intro q; cases q)
  | .base _, .ptmd _ _ => .isFalse (by intro q; cases q)
  | .base _, .ptmf _ _ => .isFalse (by intro q; cases q)
  | .array _ _, .base _ => .isFalse (by intro q; cases q)
  | .array _ _, .ptr _ => .isFalse (by intro q; cases q)
  | .array _ _, .sub _ => .isFalse (by intro q; cases q)
  | .array _ _, .ptmd _ _ => .isFalse (by intro q; cases q)
  | .array _ _, .ptmf _ _ => .isFalse (by intro q; cases q)
  | .ptr _, .base _ => .isFalse (by intro q; cases q)
  | .ptr _, .array _ _ => .isFalse (by intro q; cases q)
  | .ptr _, .sub _ => .isFalse (by intro q; cases q)
  | .ptr _, .ptmd _ _ => .isFalse (by intro q; cases q)
  | .ptr _, .ptmf _ _ => .isFalse (by intro q; cases q)
  | .sub _, .base _ => .isFalse (by intro q; cases q)
  | .sub _, .array _ _ => .isFalse (by intro q; cases q)
  | .sub _, .ptr _ => .isFalse (by intro q; cases q)
  | .sub _, .ptmd _ _ => .isFalse (by intro q; cases q)
  | .sub _, .ptmf _ _ => .isFalse (by intro q; cases q)
  | .ptmd _ _, .base _ => .isFalse (by intro q; cases q)
  | .ptmd _ _, .array _ _ => .isFalse (by intro q; cases q)
  | .ptmd _ _, .ptr _ => .isFalse (by intro q; cases q)
  | .ptmd _ _, .sub _ => .isFalse (by intro q; cases q)
  | .ptmd _ _, .ptmf _ _ => .isFalse (by intro q; cases q)
  | .ptmf _ _, .base _ => .isFalse (by intro q; cases q)
  | .ptmf _ _, .array _ _ => .isFalse (by intro q; cases q)
  | .ptmf _ _, .ptr _ => .isFalse (by intro q; cases q)
  | .ptmf _ _, .sub _ => .isFalse (by intro q; cases q)
  | .ptmf _ _, .ptmd _ _ => .isFalse (by intro q; cases q)
termination_by structural a => a

/-- Decidable equality for tree lists over templated names. -/
def ntnTreeListDecEq : (a b : NtnTreeList) → Decidable (a = b)
  | .nil, .nil => .isTrue rfl
  | .nil, .cons _ _ => .isFalse (by intro q; cases q)
  | .cons _ _, .nil => .isFalse (by intro q; cases q)
  | .cons a as, .cons b bs =>
    match ntnTreeDecEq a b, ntnTreeListDecEq as bs with
    | .isTrue p, .isTrue q => .isTrue (by rw [p, q])
    | .isFalse p, _ => .isFalse (by intro q; cases q; exact p rfl)
    | _, .isFalse p => .isFalse (by intro q; cases q; exact p rfl)
termination_by structural a => a

end

instance : DecidableEq NamespacedTemplatedName := ntnDecEq

instance : DecidableEq NtnArgList := ntnArgListDecEq

/-! ### Ordering of names (model of the derived Rust `Ord` instances:
variant order first, then fields lexicographically; strings compare by
their character sequences) -/

/-- Lexicographic comparison of lists under an element comparison. -/
def cmpList {α : Type} (c : α → α → Ordering) : List α → List α → Ordering
  | [], [] => .eq
  | [], _ :: _ => .lt
  | _ :: _, [] => .gt
  | a :: as, b :: bs =>
    match c a b with
    | .eq => cmpList c as bs
    | o => o

/-- Comparison of namespace segments (derived `Ord` on `NameSeg`). -/
def cmpNameSeg : NameSeg → NameSeg → Ordering
  | .name a, .name b => compare a b
  | .name _, _ => .lt
  | .type _ _, .name _ => .gt
  | .type g a, .type g2 a2 =>
    (match compare g g2 with
     | .eq => compare a a2
     | o => o)
  | .type _ _, _ => .lt
  | .subprogram _ _ _, .name _ => .gt
  | .subprogram _ _ _, .type _ _ => .gt
  | .subprogram g a x, .subprogram g2 a2 x2 =>
    (match compare g g2 with
     | .eq =>
       match compare a a2 with
       | .eq => compare x x2
       | o => o
     | o => o)
  | .subprogram _ _ _, .anonymous => .lt
  | .anonymous, .anonymous => .eq
  | .anonymous, _ => .gt

/-- Comparison of namespaces (derived `Ord` on `Namespace`). -/
def cmpNamespace (a b : Namespace) : Ordering := cmpList cmpNameSeg a.segs b.segs

/-- Comparison of namespaced names (derived `Ord` on `NamespacedName`). -/
def cmpNamespacedName (a b : NamespacedName) : Ordering :=
  match cmpNamespace a.ns b.ns with
  | .eq => compare a.basename b.basename
  | o => o

mutual

/-- Comparison of templated names (derived `Ord`). -/
def ntnCmp : NamespacedTemplatedName → NamespacedTemplatedName → Ordering
  | .mk b1 t1, .mk b2 t2 =>
    match cmpNamespacedName b1 b2 with
    | .eq => ntnArgListCmp t1 t2
    | o => o
termination_by structural a => a

/-- Comparison of template-argument lists. -/
def ntnArgListCmp : NtnArgList → NtnArgList → Ordering
  | .nil, .nil => .eq
  | .nil, .cons _ _ => .lt
  | .cons _ _, .nil => .gt
  | .cons a as, .cons b bs =>
    match ntnArgCmp a b with
    | .eq => ntnArgListCmp as bs
    | o => o
termination_by structural a => a

/-- Comparison of template arguments over templated names. -/
def ntnArgCmp : NtnArg → NtnArg → Ordering
  | .const v, .const w => compare v w
  | .const _, _ => .lt
  | .type _, .const _ => .gt
  | .type t, .type t2 => ntnTreeCmp t t2
  | .type _, .staticConst => .lt
  | .staticConst, .staticConst => .eq
  | .staticConst, _ => .gt
termination_by structural a => a

/-- Comparison of trees over templated names. -/
def ntnTreeCmp : NtnTree → NtnTree → Ordering
  | .base r, .base s => ntnCmp r s
  | .base _, _ => .lt
  | .array _ _, .base _ => .gt
  | .array t l, .array t2 l2 =>
    (match ntnTreeCmp t t2 with
     | .eq => compare l l2
     | o => o)
  | .array _ _, _ => .lt
  | .ptr _, .base _ => .gt
  | .ptr _, .array _ _ => .gt
  | .ptr t, .ptr t2 => ntnTreeCmp t t2
  | .ptr _, _ => .lt
  | .sub _, .base _ => .gt
  | .sub _, .array _ _ => .gt
  | .sub _, .ptr _ => .gt
  | .sub ts, .sub ts2 => ntnTreeListCmp ts ts2
  | .sub _, _ => .lt
  | .ptmd _ _, .ptmf _ _ => .lt
  | .ptmd b t, .ptmd b2 t2 =>
    (match ntnCmp b b2 with
     | .eq => ntnTreeCmp t t2
     | o => o)
  | .ptmd _ _, _ => .gt
  | .ptmf b ts, .ptmf b2 ts2 =>
    (match ntnCmp b b2 with
     | .eq => ntnTreeListCmp ts ts2
     | o => o)
  | .ptmf _ _, _ => .gt
termination_by structural a => a

/-- Comparison of tree lists over templated names. -/
def ntnTreeListCmp : NtnTreeList → NtnTreeList → Ordering
  | .nil, .nil => .eq
  | .nil, .cons _ _ => .lt
  | .cons _ _, .nil => .gt
  | .cons a as, .cons b bs =>
    match ntnTreeCmp a b with
    | .eq => ntnTreeListCmp as bs
    | o => o
termination_by structural a => a

end

mutual

/-- Goff mapping inside a templated name, `NamespacedTemplatedName::map_goff`. -/
def ntnMapGoff (f : Goff → Goff) : NamespacedTemplatedName → NamespacedTemplatedName
  | .mk b ts => .mk (b.mapGoff f) (ntnArgListMapGoff f ts)
termination_by structural a => a

/-- Goff mapping over a template-argument list. -/
def ntnArgListMapGoff (f : Goff → Goff) : NtnArgList → NtnArgList
  | .nil => .nil
  | .cons a rest => .cons (ntnArgMapGoff f a) (ntnArgListMapGoff f rest)
termination_by structural a => a

/-- Goff mapping inside a template argument over templated names,
`TemplateArg::<NamespacedTemplatedName>::map_goff`. -/
def ntnArgMapGoff (f : Goff → Goff) : NtnArg → NtnArg
  | .const v => .const v
  | .type t => .type (ntnTreeMapGoff f t)
  | .staticConst => .staticConst
termination_by structural a => a

/-- Goff mapping inside a tree over templated names (the
`tree.for_each_mut(|r| r.map_goff(f))` of the source). -/
def ntnTreeMapGoff (f : Goff → Goff) : NtnTree → NtnTree
  | .base r => .base (ntnMapGoff f r)
  | .array t len => .array (ntnTreeMapGoff f t) len
  | .ptr t => .ptr (ntnTreeMapGoff f t)
  | .sub ts => .sub (ntnTreeListMapGoff f ts)
  | .ptmd b t => .ptmd (ntnMapGoff f b) (ntnTreeMapGoff f t)
  | .ptmf b ts => .ptmf (ntnMapGoff f b) (ntnTreeListMapGoff f ts)
termination_by structural a => a

/-- Goff mapping over a tree list over templated names. -/
def ntnTreeListMapGoff (f : Goff → Goff) : NtnTreeList → NtnTreeList
  | .nil => .nil
  | .cons t rest => .cons (ntnTreeMapGoff f t) (ntnTreeListMapGoff f rest)
termination_by structural a => a

end

/-! ## Comparator-based sets and maps (for BTree collections keyed by
names or goff pairs, whose Rust `Ord` is a derived comparison) -/

/-- Insert into a list sorted by a comparator, without duplicating. -/
def setInsertC {α : Type} (cmp : α → α → Ordering) : List α → α → List α
  | [], k => [k]
  | k2 :: rest, k =>
    match cmp k k2 with
    | .lt => k :: k2 :: rest
    | .eq => k2 :: rest
    | .gt => k2 :: setInsertC cmp rest k

/-- Extend a comparator-sorted set with the elements of a list. -/
def setExtendC {α : Type} (cmp : α → α → Ordering) (s : List α) (ks : List α) : List α :=
  ks.foldl (setInsertC cmp) s

/-- Collect a list into a comparator-sorted set. -/
def setOfListC {α : Type} (cmp : α → α → Ordering) (ks : List α) : List α :=
  setExtendC cmp [] ks

/-- Remove an element from a comparator-sorted set (model of
`BTreeSet::remove`). -/
def setRemoveC {α : Type} (cmp : α → α → Ordering) : List α → α → List α
  | [], _ => []
  | k2 :: rest, k =>
    match cmp k k2 with
    | .eq => rest
    | _ => k2 :: setRemoveC cmp rest k

/-- Insert-or-replace in a comparator-sorted association list. -/
def mapInsertC {κ α : Type} (cmp : κ → κ → Ordering) : List (κ × α) → κ → α → List (κ × α)
  | [], k, v => [(k, v)]
  | (k2, v2) :: rest, k, v =>
    match cmp k k2 with
    | .lt => (k, v) :: (k2, v2) :: rest
    | .eq => (k, v) :: rest
    | .gt => (k2, v2) :: mapInsertC cmp rest k v

/-- Lexicographic comparison of goff pairs (derived `Ord` on `GoffPair`). -/
def cmpGoffPair (a b : Goff × Goff) : Ordering :=
  match compare a.1 b.1 with
  | .eq => compare a.2 b.2
  | o => o

/-! ## M-types (exstructs/src/structure.rs) -/

/-- Payload of a defined M-type, `struct MTypeData<T>`: optional primary
name plus declared aliases. -/
structure MTypeData (T : Type) : Type where
  name : Option NamespacedName
  declNames : List NamespacedTemplatedName
  data : T
  deriving DecidableEq

/-- Payload of a declared M-type, `struct MTypeDecl`. -/
structure MTypeDecl : Type where
  name : NamespacedTemplatedName
  typedefNames : List NamespacedTemplatedName
  deriving DecidableEq

/-- Mid-level type data, `enum MType`. -/
inductive MType : Type where
  | prim (p : Prim)
  | enum (d : MTypeData Enum)
  | enumDecl (d : MTypeDecl)
  | union (d : MTypeData Union)
  | unionDecl (d : MTypeDecl)
  | struct (d : MTypeData Struct)
  | structDecl (d : MTypeDecl)
  deriving DecidableEq

/-- Goff mapping inside an M-type payload, `MTypeData::<T>::map_goff`. -/
def MTypeData.mapGoff {T : Type} (fd : (Goff → Goff) → T → T) (f : Goff → Goff)
    (d : MTypeData T) : MTypeData T :=
  { name := d.name.map (NamespacedName.mapGoff f),
    declNames := d.declNames.map (ntnMapGoff f),
    data := fd f d.data }

/-- Goff mapping inside an M-type declaration, `MTypeDecl::map_goff`. -/
def MTypeDecl.mapGoff (f : Goff → Goff) (d : MTypeDecl) : MTypeDecl :=
  { name := ntnMapGoff f d.name, typedefNames := d.typedefNames.map (ntnMapGoff f) }

/-- Goff mapping for resolved enum data is a no-op, `impl MapGoff for Enum`. -/
def Enum.mapGoff (_f : Goff → Goff) (d : Enum) : Enum := d

/-- Goff mapping over an M-type, `MType::map_goff`. -/
def MType.mapGoff (f : Goff → Goff) : MType → MType
  | .prim p => .prim p
  | .enum d => .enum (d.mapGoff Enum.mapGoff f)
  | .enumDecl d => .enumDecl (d.mapGoff f)
  | .union d => .union (d.mapGoff Union.mapGoff f)
  | .unionDecl d => .unionDecl (d.mapGoff f)
  | .struct d => .struct (d.mapGoff Struct.mapGoff f)
  | .structDecl d => .structDecl (d.mapGoff f)

/-! ## Merge semantics (exstructs/src/algorithm/merge/merge_data.rs) -/

/-- Primary-name selection of `merge_data`: the first name wins when both
are present. -/
def selectName : Option NamespacedName → Option NamespacedName → Option NamespacedName
  | some a, _ => some a
  | none, b => b

/-- Merge a definition payload with a declaration,
`MTypeData::<T>::merge_with_decl`: the declaration's primary name and
typedef names join the decl-name set. -/
def MTypeData.mergeWithDecl {T : Type} (a : MTypeData T) (other : MTypeDecl) : MTypeData T :=
  { name := a.name,
    data := a.data,
    declNames := setOfListC ntnCmp (a.declNames ++ other.typedefNames ++ [other.name]) }

/-- The decl-name priority of `MTypeDecl::select_decl_name`: the smaller
name becomes primary, the other is returned second. -/
def selectDeclName (a b : NamespacedTemplatedName) :
    NamespacedTemplatedName × NamespacedTemplatedName :=
  let m := if ntnCmp a b = .gt then b else a
  if a = m then (m, b) else (m, a)

/-- Merge two declarations, `MTypeDecl::merge_with_decl`. -/
def MTypeDecl.mergeWithDecl (a b : MTypeDecl) : MTypeDecl :=
  let (name, name2) := selectDeclName a.name b.name
  let names := setOfListC ntnCmp (a.typedefNames ++ b.typedefNames ++ [name2])
  { name := name, typedefNames := setRemoveC ntnCmp names name }

/-- The vtable union loop of `Struct::merge_data`: every entry of the
other vtable is matched against this vtable (destructors by being a
destructor, others by index); matched entries must agree on the name,
unmatched ones are appended. -/
def structMergeVtable (selfVt : List (Nat × VtableEntry)) :
    List (Nat × VtableEntry) → List (Nat × VtableEntry) → Option (List (Nat × VtableEntry))
  | [], acc => some acc
  | (i, oe) :: rest, acc =>
    if oe.isDtor then
      match selfVt.find? (fun p => p.2.isDtor) with
      | some (_, se) =>
        if oe.name = se.name then structMergeVtable selfVt rest acc else none
      | none => structMergeVtable selfVt rest (acc ++ [(i, oe)])
    else
      match selfVt.find? (fun p => !p.2.isDtor && p.1 = i) with
      | some (_, se) =>
        if oe.name = se.name then structMergeVtable selfVt rest acc else none
      | none => structMergeVtable selfVt rest (acc ++ [(i, oe)])

/-- Merge two struct payloads, `Struct::merge_data`: the vtables union (and
re-sort by index), all other fields come from the left operand. -/
def Struct.mergeData (a other : Struct) : Option Struct :=
  match structMergeVtable a.vtable other.vtable a.vtable with
  | none => none
  | some newVtable =>
    some { templateArgs := a.templateArgs,
           byteSize := a.byteSize,
           vtable := sortByKey (fun p => p.1) newVtable,
           members := a.members }

/-- Merge two M-types, `MType::merge_data`.  The match arms keep the
source order: primitives absorb everything, enums beat unions and
structs, structs beat unions, and declarations fold into definitions. -/
def MType.mergeData : MType → MType → Option MType
  | .prim a, .prim b => if a = b then some (.prim a) else none
  | .prim a, _ => some (.prim a)
  | _, .prim a => some (.prim a)
  | .enum a, .enum b =>
    if a.data = b.data then
      some (.enum { name := selectName a.name b.name,
                    data := a.data,
                    declNames := setOfListC ntnCmp (a.declNames ++ b.declNames) })
    else none
  | .enum a, .enumDecl b => some (.enum (a.mergeWithDecl b))
  | .enumDecl b, .enum a => some (.enum (a.mergeWithDecl b))
  | .enumDecl a, .enumDecl b => some (.enumDecl (a.mergeWithDecl b))
  | .enum d, _ => some (.enum d)
  | _, .enum d => some (.enum d)
  | .enumDecl _, _ => none
  | _, .enumDecl _ => none
  | .struct a, .struct b =>
    (match a.data.mergeData b.data with
     | none => none
     | some data =>
       some (.struct { name := selectName a.name b.name,
                       data := data,
                       declNames := setOfListC ntnCmp (a.declNames ++ b.declNames) }))
  | .struct a, .structDecl b => some (.struct (a.mergeWithDecl b))
  | .structDecl b, .struct a => some (.struct (a.mergeWithDecl b))
  | .structDecl a, .structDecl b => some (.structDecl (a.mergeWithDecl b))
  | .struct d, _ => some (.struct d)
  | _, .struct d => some (.struct d)
  | .structDecl _, _ => none
  | _, .structDecl _ => none
  | .union a, .union b =>
    some (.union { name := selectName a.name b.name,
                   data := a.data,
                   declNames := setOfListC ntnCmp (a.declNames ++ b.declNames) })
  | .union a, .unionDecl b => some (.union (a.mergeWithDecl b))
  | .unionDecl b, .union a => some (.union (a.mergeWithDecl b))
  | .unionDecl a, .unionDecl b => some (.unionDecl (a.mergeWithDecl b))

/-! ## Merge tasks (exstructs/src/algorithm/merge/merge_task.rs and
add_merge_deps.rs) -/

/-- The canonical ordering of a goff pair, `GoffPair::from`. -/
def mkGoffPair (a b : Goff) : Goff × Goff := if a < b then (a, b) else (b, a)

/-- A pending merge with its unresolved pair dependencies,
`struct MergeTask`. -/
structure MergeTask : Type where
  deps : List (Goff × Goff)
  merge : Goff × Goff
  deriving DecidableEq

/-- A fresh merge task, `MergeTask::new`. -/
def MergeTask.new (k1 k2 : Goff) : MergeTask := ⟨[], mkGoffPair k1 k2⟩

/-- Record a pair dependency, `MergeTask::add_dep`: a dependency between
equal goffs, or equal to the merge pair itself, is trivially satisfied
and dropped. -/
def MergeTask.addDep (t : MergeTask) (k1 k2 : Goff) : MergeTask :=
  if k1 = k2 ∨ t.merge = mkGoffPair k1 k2 then t
  else { t with deps := t.deps ++ [mkGoffPair k1 k2] }

mutual

/-- Pair-dependency extraction from two trees, `tree_add_merge_deps`:
matching `Base` and PTM-base positions add dependencies, array lengths
and subroutine arities must agree, shape mismatches are errors. -/
def treeAddMergeDeps : Tree Goff → Tree Goff → MergeTask → Option MergeTask
  | .base a, .base b, task => some (task.addDep a b)
  | .array a la, .array b lb, task =>
    if la = lb then treeAddMergeDeps a b task else none
  | .ptr a, .ptr b, task => treeAddMergeDeps a b task
  | .sub as, .sub bs, task =>
    if as.length = bs.length then treeListAddMergeDeps as bs task else none
  | .ptmd ba a, .ptmd bb b, task => treeAddMergeDeps a b (task.addDep ba bb)
  | .ptmf ba as, .ptmf bb bs, task =>
    if as.length = bs.length then treeListAddMergeDeps as bs (task.addDep ba bb) else none
  | _, _, _ => none

/-- Pairwise dependency extraction from two tree lists (the zips of the
source, after the length checks). -/
def treeListAddMergeDeps : List (Tree Goff) → List (Tree Goff) → MergeTask → Option MergeTask
  | a :: as, b :: bs, task =>
    (match treeAddMergeDeps a b task with
     | none => none
     | some task2 => treeListAddMergeDeps as bs task2)
  | _, _, task => some task

end

/-- Pair dependencies of two members, `Member::add_merge_deps`: offsets,
names and specials must agree. -/
def Member.addMergeDeps (a b : Member) (task : MergeTask) : Option MergeTask :=
  if a.offset = b.offset ∧ a.name = b.name ∧ a.special = b.special then
    treeAddMergeDeps a.ty b.ty task
  else none

/-- Pair dependencies of two member lists (zip after the length check). -/
def membersAddMergeDeps : List Member → List Member → MergeTask → Option MergeTask
  | a :: as, b :: bs, task =>
    (match a.addMergeDeps b task with
     | none => none
     | some task2 => membersAddMergeDeps as bs task2)
  | _, _, task => some task

/-- Pair dependencies of two vtable entries, `VtableEntry::add_merge_deps`. -/
def VtableEntry.addMergeDeps (a b : VtableEntry) (task : MergeTask) : Option MergeTask :=
  if a.name = b.name ∧ a.functionTypes.length = b.functionTypes.length then
    treeListAddMergeDeps a.functionTypes b.functionTypes task
  else none

/-- Pair dependencies of two template arguments,
`TemplateArg::<Goff>::add_merge_deps`. -/
def TemplateArg.addMergeDeps : TemplateArg Goff → TemplateArg Goff → MergeTask → Option MergeTask
  | .const a, .const b, task => if a = b then some task else none
  | .type a, .type b, task => treeAddMergeDeps a b task
  | .staticConst, .staticConst, task => some task
  | _, _, _ => none

/-- Pair dependencies of two template-argument lists. -/
def targsAddMergeDeps : List (TemplateArg Goff) → List (TemplateArg Goff) →
    MergeTask → Option MergeTask
  | a :: as, b :: bs, task =>
    (match TemplateArg.addMergeDeps a b task with
     | none => none
     | some task2 => targsAddMergeDeps as bs task2)
  | _, _, task => some task

/-- Pair dependencies of two union payloads, `Union::add_merge_deps`. -/
def Union.addMergeDeps (a b : Union) (task : MergeTask) : Option MergeTask :=
  if a.byteSize = b.byteSize ∧ a.templateArgs.length = b.templateArgs.length then
    match targsAddMergeDeps a.templateArgs b.templateArgs task with
    | none => none
    | some task2 =>
      if a.members.length = b.members.length then
        membersAddMergeDeps a.members b.members task2
      else none
  else none

/-- The vtable scan of `Struct::add_merge_deps`: each entry of this
vtable adds dependencies against the matching entry of the other vtable,
when one exists (destructors match destructors, others match by index). -/
def structVtableAddMergeDeps (otherVt : List (Nat × VtableEntry)) :
    List (Nat × VtableEntry) → MergeTask → Option MergeTask
  | [], task => some task
  | (i, entry) :: rest, task =>
    if entry.isDtor then
      match otherVt.find? (fun p => p.2.isDtor) with
      | some (_, oe) =>
        (match entry.addMergeDeps oe task with
         | none => none
         | some task2 => structVtableAddMergeDeps otherVt rest task2)
      | none => structVtableAddMergeDeps otherVt rest task
    else
      match otherVt.find? (fun p => !p.2.isDtor && p.1 = i) with
      | some (_, oe) =>
        (match entry.addMergeDeps oe task with
         | none => none
         | some task2 => structVtableAddMergeDeps otherVt rest task2)
      | none => structVtableAddMergeDeps otherVt rest task

/-- Pair dependencies of two struct payloads, `Struct::add_merge_deps`. -/
def Struct.addMergeDeps (a b : Struct) (task : MergeTask) : Option MergeTask :=
  if a.byteSize = b.byteSize ∧ a.templateArgs.length = b.templateArgs.length then
    match targsAddMergeDeps a.templateArgs b.templateArgs task with
    | none => none
    | some task2 =>
      match structVtableAddMergeDeps b.vtable a.vtable task2 with
      | none => none
      | some task3 =>
        if a.members.length = b.members.length then
          membersAddMergeDeps a.members b.members task3
        else none
  else none

/-- Pair dependencies of two M-types, `MType::add_merge_deps`: only
same-kind combinations (or kind with its declaration) are compatible. -/
def MType.addMergeDeps : MType → MType → MergeTask → Option MergeTask
  | .prim a, .prim b, task => if a = b then some task else none
  | .enum a, .enum b, task => if a.data = b.data then some task else none
  | .enum _, .enumDecl _, task => some task
  | .enumDecl _, .enum _, task => some task
  | .enumDecl _, .enumDecl _, task => some task
  | .union a, .union b, task => a.data.addMergeDeps b.data task
  | .union _, .unionDecl _, task => some task
  | .unionDecl _, .union _, task => some task
  | .unionDecl _, .unionDecl _, task => some task
  | .struct a, .struct b, task => a.data.addMergeDeps b.data task
  | .struct _, .structDecl _, task => some task
  | .structDecl _, .struct _, task => some task
  | .structDecl _, .structDecl _, task => some task
  | _, _, _ => none

/-! ## The merge scheduler (exstractor/src/mstage/link_merge.rs,
`process_merges` lines 161..233) -/

/-- Update the dependencies of a task against the buckets,
`MergeTask::update_deps`: satisfied pairs (same canonical) are removed;
the task is ready when none remain. -/
def MergeTask.updateDeps (t : MergeTask) (b : GoffBuckets) : MergeTask × Bool :=
  let deps2 := t.deps.filter (fun p => !(b.primaryFallback p.1 = b.primaryFallback p.2))
  ({ t with deps := deps2 }, deps2.isEmpty)

/-- Execute a merge, `MergeTask::execute`: store the merged data under
both keys and union the buckets. -/
def MergeTask.execute (t : MergeTask) (types : List (Goff × MType)) (buckets : GoffBuckets) :
    Option (List (Goff × MType) × GoffBuckets) :=
  match mapGet types t.merge.1, mapGet types t.merge.2 with
  | some t1, some t2 =>
    (match t1.mergeData t2 with
     | none => none
     | some merged =>
       let types2 := mapInsert (mapInsert types t.merge.1 merged) t.merge.2 merged
       match buckets.merge t.merge.1 t.merge.2 with
       | (b2, none) => some (types2, b2)
       | (_, some _) => none)
  | _, _ => none

/-- One scan over the task list: ready tasks execute immediately (the
buckets they update are seen by the rest of the scan), the others are
pushed back. -/
def schedulerPassGo : List MergeTask → List (Goff × MType) → GoffBuckets →
    List MergeTask → Option (List (Goff × MType) × GoffBuckets × List MergeTask)
  | [], types, buckets, retained => some (types, buckets, retained)
  | task :: rest, types, buckets, retained =>
    let (task2, ready) := task.updateDeps buckets
    if ready then
      match task2.execute types buckets with
      | none => none
      | some (types2, buckets2) => schedulerPassGo rest types2 buckets2 retained
    else
      schedulerPassGo rest types buckets (retained ++ [task2])

/-- The scheduler loop of `process_merges`: rescan until a scan makes no
progress. -/
def schedulerLoop : Nat → List MergeTask → List (Goff × MType) → GoffBuckets →
    Option (List (Goff × MType) × GoffBuckets × List MergeTask)
  | 0, _, _, _ => none
  | fuel + 1, tasks, types, buckets =>
    match schedulerPassGo tasks types buckets [] with
    | none => none
    | some (types2, buckets2, remaining) =>
      if remaining.length = tasks.length then some (types2, buckets2, remaining)
      else schedulerLoop fuel remaining types2 buckets2

/-- Collect the dependency map of the remaining tasks,
`MergeTask::track_deps` folded over the task list. -/
def trackDeps (tasks : List MergeTask) : List ((Goff × Goff) × List (Goff × Goff)) :=
  tasks.foldl
    (fun m task =>
      match mapGet m task.merge with
      | none => mapInsertC cmpGoffPair m task.merge (setOfListC cmpGoffPair task.deps)
      | some s => mapInsertC cmpGoffPair m task.merge (setExtendC cmpGoffPair s task.deps))
    []

/-- One round of the transitive-closure loop over the dependency map. -/
def closureStep (keys : List (Goff × Goff))
    (depmap : List ((Goff × Goff) × List (Goff × Goff))) :
    List ((Goff × Goff) × List (Goff × Goff)) × Bool :=
  keys.foldl
    (fun acc merge =>
      match mapGet acc.1 merge with
      | none => acc
      | some curr =>
        let newDeps := curr.foldl
          (fun nd d =>
            match mapGet acc.1 d with
            | some dd => setExtendC cmpGoffPair nd dd
            | none => nd)
          curr
        if curr.length = newDeps.length then acc
        else (mapInsertC cmpGoffPair acc.1 merge newDeps, true))
    (depmap, false)

/-- The transitive-closure loop (`while changed`). -/
def closureLoop : Nat → List (Goff × Goff) → List ((Goff × Goff) × List (Goff × Goff)) →
    Option (List ((Goff × Goff) × List (Goff × Goff)))
  | 0, _, _ => none
  | fuel + 1, keys, depmap =>
    match closureStep keys depmap with
    | (depmap2, true) => closureLoop fuel keys depmap2
    | (depmap2, false) => some depmap2

/-- The circular-dependency map: a dependency is circular for a merge when
the dependency's own closure contains the merge. -/
def circularDepmap (depmap : List ((Goff × Goff) × List (Goff × Goff))) :
    List ((Goff × Goff) × List (Goff × Goff)) :=
  depmap.map
    (fun p =>
      (p.1,
       p.2.filter (fun dep =>
         match mapGet depmap dep with
         | some inv => decide (p.1 ∈ inv)
         | none => false)))

/-- Drop the circular dependencies of a task, `MergeTask::remove_deps`. -/
def MergeTask.removeDeps (t : MergeTask)
    (circ : List ((Goff × Goff) × List (Goff × Goff))) : MergeTask :=
  match mapGet circ t.merge with
  | none => t
  | some toRemove => { t with deps := t.deps.filter (fun p => !(decide (p ∈ toRemove))) }

/-- The scheduler of `process_merges` from a built task list: run the
scan loop; when tasks stall, drop the circular dependencies found through
the transitive closure and resume; fail if tasks remain; finally dedupe
with the merging mapper. -/
def processMergesFromTasks (hash : MType → Nat)
    (loopFuel closureFuel dedupeFuel : Nat)
    (types : List (Goff × MType)) (symbols : List (String × SymbolInfo))
    (tasks : List MergeTask) : Option (DedupeOut MType) :=
  match schedulerLoop loopFuel tasks types GoffBuckets.empty with
  | none => none
  | some (types1, buckets1, remaining) =>
    let next :=
      if remaining.isEmpty then some (types1, buckets1, remaining)
      else
        let depmap0 := trackDeps remaining
        match closureLoop closureFuel (mapKeys depmap0) depmap0 with
        | none => none
        | some depmap =>
          let circ := circularDepmap depmap
          let tasks2 := remaining.map (fun t => t.removeDeps circ)
          schedulerLoop loopFuel tasks2 types1 buckets1
    match next with
    | none => none
    | some (types2, buckets2, remaining2) =>
      if remaining2.isEmpty then
        mergingDedupe hash (fun t bks => some (t.mapGoff bks.primaryFallback))
          (fun a b => a.mergeData b) dedupeFuel types2 buckets2 symbols none
      else none

/-- Whether a tree is a bare `Base` node (the
`matches!(tree, Tree::Base(_))` of `Eliminations::insert`). -/
def Tree.isBaseNode {R : Type} : Tree R → Bool
  | .base _ => true
  | _ => false

/-! ## Fully qualified names and H-types

The defining module of `FullQualName`, `NamespacedTemplatedGoffName` and
`HType` is not part of the provided sources (only their uses in
fullqual.rs, replace.rs, name_graph.rs and the hstage are).  They are
modelled from the spec and pinned by those uses. -/

/-- Modelled from the spec: a fully qualified name whose base is a goff
with template arguments, `NamespacedTemplatedGoffName` (the `Goff`
variant payload of `FullQualName`); the shape is pinned by its
construction in fullqual.rs. -/
structure NamespacedTemplatedGoffName : Type where
  base : NamespacedName
  templates : List (TemplateArg Goff)
  deriving DecidableEq

/-- Modelled from the spec: `FullQualName` is one of
`Name(NamespacedTemplatedName)` or `Goff(base, template-args)`. -/
inductive FullQualName : Type where
  | name (n : NamespacedTemplatedName)
  | goff (n : NamespacedTemplatedGoffName)

/-- Decidable equality for fully qualified names. -/
instance : DecidableEq FullQualName
  | .name a, .name b =>
    match ntnDecEq a b with
    | .isTrue p => .isTrue (by rw [p])
    | .isFalse p => .isFalse (by intro q; cases q; exact p rfl)
  | .goff a, .goff b =>
    if h : a = b then .isTrue (by rw [h]) else .isFalse (by intro q; cases q; exact h rfl)
  | .name _, .goff _ => .isFalse (by intro q; cases q)
  | .goff _, .name _ => .isFalse (by intro q; cases q)

mutual

/-- Comparison of trees over goffs (derived `Ord` on `Tree<Goff>`). -/
def treeCmpGoff : Tree Goff → Tree Goff → Ordering
  | .base r, .base s => compare r s
  | .base _, _ => .lt
  | .array _ _, .base _ => .gt
  | .array t l, .array t2 l2 =>
    (match treeCmpGoff t t2 with
     | .eq => compare l l2
     | o => o)
  | .array _ _, _ => .lt
  | .ptr _, .base _ => .gt
  | .ptr _, .array _ _ => .gt
  | .ptr t, .ptr t2 => treeCmpGoff t t2
  | .ptr _, _ => .lt
  | .sub _, .base _ => .gt
  | .sub _, .array _ _ => .gt
  | .sub _, .ptr _ => .gt
  | .sub ts, .sub ts2 => treeListCmpGoff ts ts2
  | .sub _, _ => .lt
  | .ptmd _ _, .ptmf _ _ => .lt
  | .ptmd b t, .ptmd b2 t2 =>
    (match compare b b2 with
     | .eq => treeCmpGoff t t2
     | o => o)
  | .ptmd _ _, _ => .gt
  | .ptmf b ts, .ptmf b2 ts2 =>
    (match compare b b2 with
     | .eq => treeListCmpGoff ts ts2
     | o => o)
  | .ptmf _ _, _ => .gt

/-- Comparison of tree lists over goffs. -/
def treeListCmpGoff : List (Tree Goff) → List (Tree Goff) → Ordering
  | [], [] => .eq
  | [], _ :: _ => .lt
  | _ :: _, [] => .gt
  | a :: as, b :: bs =>
    match treeCmpGoff a b with
    | .eq => treeListCmpGoff as bs
    | o => o

end

/-- Comparison of template arguments over goffs (derived `Ord`). -/
def cmpTemplateArgGoff : TemplateArg Goff → TemplateArg Goff → Ordering
  | .const v, .const w => compare v w
  | .const _, _ => .lt
  | .type _, .const _ => .gt
  | .type t, .type t2 => treeCmpGoff t t2
  | .type _, .staticConst => .lt
  | .staticConst, .staticConst => .eq
  | .staticConst, _ => .gt

/-- Comparison of goff-based qualified names (derived `Ord`). -/
def cmpNtgn (a b : NamespacedTemplatedGoffName) : Ordering :=
  match cmpNamespacedName a.base b.base with
  | .eq => cmpList cmpTemplateArgGoff a.templates b.templates
  | o => o

/-- Comparison of fully qualified names (derived `Ord`; the `Name`
variant precedes the `Goff` variant). -/
def cmpFullQualName : FullQualName → FullQualName → Ordering
  | .name a, .name b => ntnCmp a b
  | .name _, .goff _ => .lt
  | .goff _, .name _ => .gt
  | .goff a, .goff b => cmpNtgn a b

/-- Goff mapping inside a goff-based qualified name. -/
def NamespacedTemplatedGoffName.mapGoff (f : Goff → Goff) (n : NamespacedTemplatedGoffName) :
    NamespacedTemplatedGoffName :=
  { base := n.base.mapGoff f, templates := n.templates.map (TemplateArg.mapGoff f) }

/-- Goff mapping inside a fully qualified name. -/
def FullQualName.mapGoff (f : Goff → Goff) : FullQualName → FullQualName
  | .name n => .name (ntnMapGoff f n)
  | .goff n => .goff (n.mapGoff f)

/-- Payload of an H-type: its fully qualified names and its data.
Modelled from the spec (pinned by the `HTypeData { fqnames, data }`
patterns of the hstage). -/
structure HTypeData (T : Type) : Type where
  fqnames : List FullQualName
  data : T
  deriving DecidableEq

/-- Modelled from the spec: high-level type data `HType` with variants
`Prim`, `Enum`, `Union`, `Struct`, each non-primitive carrying its
fully-qualified names (pinned by the exhaustive matches in fullqual.rs,
replace.rs and stages.rs). -/
inductive HType : Type where
  | prim (p : Prim)
  | enum (d : HTypeData Enum)
  | union (d : HTypeData Union)
  | struct (d : HTypeData Struct)
  deriving DecidableEq

/-- The fully qualified names of an H-type, `HType::fqnames`; a primitive
is an error. -/
def HType.fqnames : HType → Option (List FullQualName)
  | .prim _ => none
  | .enum d => some d.fqnames
  | .union d => some d.fqnames
  | .struct d => some d.fqnames

/-- Add names to an H-type, `HType::add_fqnames`: the union of the old
and new names, deduplicated through a `BTreeSet`; primitives ignore the
addition. -/
def HType.addFqnames : HType → List FullQualName → HType
  | .prim p, _ => .prim p
  | .enum d, names => .enum { d with fqnames := setOfListC cmpFullQualName (d.fqnames ++ names) }
  | .union d, names => .union { d with fqnames := setOfListC cmpFullQualName (d.fqnames ++ names) }
  | .struct d, names => .struct { d with fqnames := setOfListC cmpFullQualName (d.fqnames ++ names) }

/-- Goff mapping over an H-type (names and data).  Modelled from the
spec; the M-type implementation in map_goff.rs is the blueprint. -/
def HType.mapGoff (f : Goff → Goff) : HType → HType
  | .prim p => .prim p
  | .enum d => .enum { fqnames := d.fqnames.map (FullQualName.mapGoff f), data := d.data }
  | .union d => .union { fqnames := d.fqnames.map (FullQualName.mapGoff f),
                         data := d.data.mapGoff f }
  | .struct d => .struct { fqnames := d.fqnames.map (FullQualName.mapGoff f),
                           data := d.data.mapGoff f }

/-! ## Tree replacement (tyyaml `Tree::to_replaced`) and the replace
family (exstructs/src/algorithm/replace.rs) -/

mutual

/-- Replace representations in a tree through a partial function,
`Tree::to_replaced`: `some none` means no replacement happened, and a PTM
base may only be replaced by another `Base`. -/
def treeToReplaced (f : Goff → Option (Tree Goff)) : Tree Goff → Option (Option (Tree Goff))
  | .base x => some (f x)
  | .array x len =>
    (match treeToReplaced f x with
     | none => none
     | some r => some (r.map (fun elem => .array elem len)))
  | .ptr x =>
    (match treeToReplaced f x with
     | none => none
     | some r => some (r.map .ptr))
  | .sub x =>
    (match treeToReplacedVec f x [] [] with
     | none => none
     | some r => some (r.map .sub))
  | .ptmd b x =>
    (match f b with
     | none =>
       match treeToReplaced f x with
       | none => none
       | some r => some (r.map (fun nx => .ptmd b nx))
     | some (.base b2) =>
       (match treeToReplaced f x with
        | none => none
        | some r => some (r.map (fun nx => .ptmd b2 nx)))
     | some _ => none)
  | .ptmf b x =>
    (match f b with
     | none =>
       match treeToReplacedVec f x [] [] with
       | none => none
       | some r => some (r.map (fun nx => .ptmf b nx))
     | some (.base b2) =>
       (match treeToReplacedVec f x [] [] with
        | none => none
        | some r => some (r.map (fun nx => .ptmf b2 nx)))
     | some _ => none)

/-- The vector loop of `to_replaced_impl_vec`: unchanged entries are kept
once a change has been seen, and the unchanged prefix is copied in front
of the first change. -/
def treeToReplacedVec (f : Goff → Option (Tree Goff)) :
    List (Tree Goff) → List (Tree Goff) → List (Tree Goff) →
    Option (Option (List (Tree Goff)))
  | [], _, out => some (if out.isEmpty then none else some out)
  | t :: rest, seen, out =>
    match treeToReplaced f t with
    | none => none
    | some none =>
      treeToReplacedVec f rest (seen ++ [t]) (if out.isEmpty then out else out ++ [t])
    | some (some newT) =>
      treeToReplacedVec f rest (seen ++ [t]) ((if out.isEmpty then seen else out) ++ [newT])

end

/-- Replace a goff by a tree inside a tree, free function `tree_replace`:
returns the (possibly unchanged) tree and whether it changed. -/
def treeReplace (tree : Tree Goff) (k : Goff) (replacement : Tree Goff) :
    Option (Tree Goff × Bool) :=
  match treeToReplaced (fun x => if x = k then some replacement else none) tree with
  | none => none
  | some none => some (tree, false)
  | some (some t2) => some (t2, true)

/-- Replacement inside a member, `Member::replace`. -/
def Member.replace (m : Member) (k : Goff) (repl : Tree Goff) : Option (Member × Bool) :=
  match treeReplace m.ty k repl with
  | none => none
  | some (t2, c) => some ({ m with ty := t2 }, c)

/-- Replacement inside a vtable entry, `VtableEntry::replace`. -/
def VtableEntry.replace (v : VtableEntry) (k : Goff) (repl : Tree Goff) :
    Option (VtableEntry × Bool) := do
  let r ← v.functionTypes.foldlM
    (fun (acc : List (Tree Goff) × Bool) t => do
      let (t2, c) ← treeReplace t k repl
      pure (acc.1 ++ [t2], acc.2 || c))
    (([] : List (Tree Goff)), false)
  pure ({ v with functionTypes := r.1 }, r.2)

/-- Replacement inside a template argument, `TemplateArg::<Goff>::replace`. -/
def TemplateArg.replace (a : TemplateArg Goff) (k : Goff) (repl : Tree Goff) :
    Option (TemplateArg Goff × Bool) :=
  match a with
  | .type t =>
    (match treeReplace t k repl with
     | none => none
     | some (t2, c) => some (.type t2, c))
  | other => some (other, false)

/-- Replacement inside union data, `Union::replace` (members first, then
template arguments). -/
def Union.replace (u : Union) (k : Goff) (repl : Tree Goff) : Option (Union × Bool) := do
  let ms ← u.members.foldlM
    (fun acc m => do
      let (m2, c) ← m.replace k repl
      pure (acc.1 ++ [m2], acc.2 || c))
    (([] : List Member), false)
  let ts ← u.templateArgs.foldlM
    (fun acc a => do
      let (a2, c) ← a.replace k repl
      pure (acc.1 ++ [a2], acc.2 || c))
    (([] : List (TemplateArg Goff)), false)
  pure ({ u with members := ms.1, templateArgs := ts.1 }, ms.2 || ts.2)

/-- Replacement inside struct data, `Struct::replace` (vtable, then
members, then template arguments). -/
def Struct.replace (s : Struct) (k : Goff) (repl : Tree Goff) : Option (Struct × Bool) := do
  let vt ← s.vtable.foldlM
    (fun acc p => do
      let (v2, c) ← p.2.replace k repl
      pure (acc.1 ++ [(p.1, v2)], acc.2 || c))
    (([] : List (Nat × VtableEntry)), false)
  let ms ← s.members.foldlM
    (fun acc m => do
      let (m2, c) ← m.replace k repl
      pure (acc.1 ++ [m2], acc.2 || c))
    (([] : List Member), false)
  let ts ← s.templateArgs.foldlM
    (fun acc a => do
      let (a2, c) ← a.replace k repl
      pure (acc.1 ++ [a2], acc.2 || c))
    (([] : List (TemplateArg Goff)), false)
  pure ({ s with vtable := vt.1, members := ms.1, templateArgs := ts.1 },
        vt.2 || ms.2 || ts.2)

/-- Replacement inside an H-type, `HType::replace`: primitives and enums
never change. -/
def HType.replace (t : HType) (k : Goff) (repl : Tree Goff) : Option (HType × Bool) :=
  match t with
  | .prim p => some (.prim p, false)
  | .enum d => some (.enum d, false)
  | .union d =>
    (match d.data.replace k repl with
     | none => none
     | some (u2, c) => some (.union { d with data := u2 }, c))
  | .struct d =>
    (match d.data.replace k repl with
     | none => none
     | some (s2, c) => some (.struct { d with data := s2 }, c))

/-- Replacement inside a symbol, `SymbolInfo::replace` (type, then
template arguments). -/
def SymbolInfo.replace (s : SymbolInfo) (k : Goff) (repl : Tree Goff) :
    Option (SymbolInfo × Bool) := do
  let (t2, c) ← treeReplace s.ty k repl
  let ts ← s.templateArgs.foldlM
    (fun acc a => do
      let (a2, c2) ← a.replace k repl
      pure (acc.1 ++ [a2], acc.2 || c2))
    (([] : List (TemplateArg Goff)), false)
  pure ({ s with ty := t2, templateArgs := ts.1 }, c || ts.2)

/-! ## Contains and non-eliminateable marking
(exstructs/src/algorithm/contains_goff.rs and mark_non_eliminateable.rs) -/

/-- Whether a template argument references the goff,
`TemplateArg::<Goff>::contains_goff`. -/
def TemplateArg.containsGoff (a : TemplateArg Goff) (k : Goff) : Bool :=
  match a with
  | .type t => treeContains k t
  | _ => false

/-- Whether union data references the goff, `Union::contains_goff`. -/
def Union.containsGoff (u : Union) (k : Goff) : Bool :=
  u.templateArgs.any (fun a => a.containsGoff k) || u.members.any (fun m => treeContains k m.ty)

/-- Whether struct data references the goff, `Struct::contains_goff`. -/
def Struct.containsGoff (s : Struct) (k : Goff) : Bool :=
  s.vtable.any (fun p => p.2.functionTypes.any (treeContains k))
    || s.templateArgs.any (fun a => a.containsGoff k)
    || s.members.any (fun m => treeContains k m.ty)

/-- Marking of members, `Member::mark_non_eliminateable`: every PTM base
of the member type. -/
def Member.markNonElim (m : Member) (marked : List Goff) : List Goff :=
  (treePtmBases m.ty).foldl setInsert marked

/-- Marking of vtable entries, `VtableEntry::mark_non_eliminateable`. -/
def VtableEntry.markNonElim (v : VtableEntry) (marked : List Goff) : List Goff :=
  v.functionTypes.foldl (fun acc t => (treePtmBases t).foldl setInsert acc) marked

/-- Marking of template arguments, `TemplateArg::mark_non_eliminateable`. -/
def TemplateArg.markNonElim (a : TemplateArg Goff) (marked : List Goff) : List Goff :=
  match a with
  | .type t => (treePtmBases t).foldl setInsert marked
  | _ => marked

/-- Marking of union data, `Union::mark_non_eliminateable`:
self-referential unions are marked, then template arguments and members
contribute their PTM bases. -/
def Union.markNonElim (u : Union) (selfGoff : Goff) (marked : List Goff) : List Goff :=
  let m1 := if u.containsGoff selfGoff then setInsert marked selfGoff else marked
  let m2 := u.templateArgs.foldl (fun acc a => a.markNonElim acc) m1
  u.members.foldl (fun acc m => m.markNonElim acc) m2

/-- Marking of struct data, `Struct::mark_non_eliminateable`:
self-referential structs and structs with a vtable are marked. -/
def Struct.markNonElim (s : Struct) (selfGoff : Goff) (marked : List Goff) : List Goff :=
  let m1 := if s.containsGoff selfGoff then setInsert marked selfGoff else marked
  let m2 := if !s.vtable.isEmpty then setInsert m1 selfGoff else m1
  let m3 := s.templateArgs.foldl (fun acc a => a.markNonElim acc) m2
  let m4 := s.vtable.foldl (fun acc p => p.2.markNonElim acc) m3
  s.members.foldl (fun acc m => m.markNonElim acc) m4

/-- Marking of symbols, `SymbolInfo::mark_non_eliminateable`. -/
def SymbolInfo.markNonElim (s : SymbolInfo) (marked : List Goff) : List Goff :=
  let m1 := (treePtmBases s.ty).foldl setInsert marked
  s.templateArgs.foldl (fun acc a => a.markNonElim acc) m1

/-- Marking of an H-type.  Modelled from the spec (PTM-base positions,
structs with vtables and self-referential layouts are not eliminateable);
the M-type implementation in mark_non_eliminateable.rs is the blueprint. -/
def HType.markNonElim (t : HType) (selfGoff : Goff) (marked : List Goff) : List Goff :=
  match t with
  | .prim _ => marked
  | .enum _ => marked
  | .union d => d.data.markNonElim selfGoff marked
  | .struct d => d.data.markNonElim selfGoff marked

/-! ## Name graph (exstructs/src/name_graph.rs) -/

/-- A directed graph over fully qualified names, `struct NameGraph`. -/
structure NameGraph : Type where
  names : List FullQualName
  indices : List (FullQualName × Nat)
  isDerived : List (Nat × List Nat)
  deriving DecidableEq

/-- The empty name graph. -/
def NameGraph.empty : NameGraph := ⟨[], [], []⟩

/-- Intern a name, `NameGraph::to_index`. -/
def NameGraph.toIndex (g : NameGraph) (n : FullQualName) : NameGraph × Nat :=
  match mapGet g.indices n with
  | some i => (g, i)
  | none =>
    let i := g.names.length
    ({ g with names := g.names ++ [n], indices := mapInsertC cmpFullQualName g.indices n i }, i)

/-- Whether the edge set contains an edge, `Edges::contains`. -/
def edgesContains (e : List (Nat × List Nat)) (a b : Nat) : Bool :=
  match mapGet e a with
  | none => false
  | some targets => targets.contains b

/-- Add an edge, `Edges::insert`; the flag tells whether it is new. -/
def edgesInsert (e : List (Nat × List Nat)) (a b : Nat) : List (Nat × List Nat) × Bool :=
  match mapGet e a with
  | none => (mapInsert e a [b], true)
  | some targets => (mapInsert e a (setInsert targets b), !targets.contains b)

/-- Record a derived-of relation, `NameGraph::add_derived`: a self edge is
a no-op, an inverse edge is an error. -/
def NameGraph.addDerived (g : NameGraph) (derived base : FullQualName) :
    Option (NameGraph × Bool) :=
  if derived = base then some (g, false)
  else
    let (g1, di) := g.toIndex derived
    let (g2, bi) := g1.toIndex base
    if edgesContains g2.isDerived bi di then none
    else
      let (e2, changed) := edgesInsert g2.isDerived di bi
      some ({ g2 with isDerived := e2 }, changed)

/-! ## Layout optimizer (exstractor/src/hstage/optimize_layout.rs) -/

/-- The H-stage state the optimizer works on (the configuration and size
cache of `HStage` are not touched by it and are omitted). -/
structure HStage : Type where
  types : List (Goff × HType)
  symbols : List (String × SymbolInfo)
  nameGraph : NameGraph
  deriving DecidableEq

/-- The output of one optimizer, `struct OptimizeOutput`: per-goff change
functions, eliminations and derived-name additions. -/
structure OptimizeOutput : Type where
  changes : List (Goff × List (HType → Option HType))
  eliminations : List (Goff × Tree Goff)
  addIsDerivedNames : List (FullQualName × FullQualName)

/-- The empty optimizer output. -/
def OptimizeOutput.emptyOut : OptimizeOutput := ⟨[], [], []⟩

/-- Queue a change function for a goff, `OptimizeOutput::change_fn`. -/
def OptimizeOutput.changeFn (o : OptimizeOutput) (k : Goff) (f : HType → Option HType) :
    OptimizeOutput :=
  { o with changes :=
      match mapGet o.changes k with
      | none => mapInsert o.changes k [f]
      | some fns => mapInsert o.changes k (fns ++ [f]) }

/-- Record an elimination, `Eliminations::insert`: replacing a
non-eliminateable goff by a composite tree (anything but `Base`) is
silently skipped; conflicting replacement trees for the same goff are an
error. -/
def elimInsert (e : List (Goff × Tree Goff)) (k : Goff) (tree : Tree Goff)
    (nonElim : List Goff) : Option (List (Goff × Tree Goff)) :=
  if !tree.isBaseNode && nonElim.contains k then some e
  else
    match mapGet e k with
    | none => some (mapInsert e k tree)
    | some old => if old = tree then some e else none

/-- Modelled from the spec: `Struct::zst_with_templates` builds the
zero-sized struct of an eliminated empty union ("empty union is the same
as an empty struct - a ZST, which has a sizeof() of 1"), carrying the
union's template arguments. -/
def Struct.zstWithTemplates (targs : List (TemplateArg Goff)) : Struct :=
  { templateArgs := targs, byteSize := 1, vtable := [], members := [] }

/-- The change function the optimizer queues for an empty union: an empty
union must be a ZST and becomes a zero-sized struct with its template
arguments. -/
def emptyUnionChange (t : HType) : Option HType :=
  match t with
  | .union d2 =>
    if d2.data.byteSize = 1 then
      some (.struct { fqnames := d2.fqnames,
                      data := Struct.zstWithTemplates d2.data.templateArgs })
    else none
  | _ => none

/-- One entry of the union optimizer's scan (the loop body of
`optimize_union_fewer_than_2_members`). -/
def optimizeUnionMemberNames (types : List (Goff × HType)) (output : OptimizeOutput)
    (d : HTypeData Union) (member : Member) : Option OptimizeOutput :=
  match member.ty with
  | .base memberGoff =>
    (match mapGet types memberGoff with
     | none => none
     | some memberT =>
       match memberT.fqnames with
       | none => some output
       | some memberFqnames =>
         let pairs := (memberFqnames.map
           (fun base => d.fqnames.map (fun derived => (derived, base)))).flatten
         let o2 := { output with
                     addIsDerivedNames := output.addIsDerivedNames ++ pairs }
         some (o2.changeFn memberGoff (fun t => some (t.addFqnames d.fqnames))))
  | _ => some output

def optimizeUnionEntry (types : List (Goff × HType)) (nonElim : List Goff)
    (output : OptimizeOutput) (p : Goff × HType) : Option OptimizeOutput :=
  match p.2 with
  | .union d =>
    (match d.data.members with
     | [] => some (output.changeFn p.1 emptyUnionChange)
     | [member] =>
       (match optimizeUnionMemberNames types output d member with
        | none => none
        | some output2 =>
          match elimInsert output2.eliminations p.1 member.ty nonElim with
          | none => none
          | some e2 => some { output2 with eliminations := e2 })
     | _ => some output)
  | _ => some output

/-- The union optimizer, `optimize_union_fewer_than_2_members`: an empty
union becomes a ZST struct by a change function; a single-member union is
eliminated in favor of its member type, giving the member type the union's
names (and derived-of edges) when the member is a `Base` of a named type. -/
def optimizeUnionStep (types : List (Goff × HType)) (nonElim : List Goff) :
    Option OptimizeOutput :=
  types.foldlM (optimizeUnionEntry types nonElim) OptimizeOutput.emptyOut

/-- Apply the queued change functions, first half of
`OptimizeOutput::apply`. -/
def applyChanges (types : List (Goff × HType)) :
    List (Goff × List (HType → Option HType)) → Bool → Option (List (Goff × HType) × Bool)
  | [], changed => some (types, changed)
  | (k, fns) :: rest, changed =>
    match mapGet types k with
    | none => none
    | some old =>
      match fns.foldlM (fun t f => f t) old with
      | none => none
      | some temp =>
        if old = temp then applyChanges types rest changed
        else applyChanges (mapInsert types k temp) rest true

/-- Apply one elimination to every other type and every symbol. -/
def applyOneElim (k : Goff) (repl : Tree Goff) (types : List (Goff × HType))
    (symbols : List (String × SymbolInfo)) (changed : Bool) :
    Option (List (Goff × HType) × List (String × SymbolInfo) × Bool) :=
  if treeContains k repl then none
  else do
    let tr ← types.foldlM
      (fun acc p =>
        if p.1 = k then pure (acc.1 ++ [p], acc.2)
        else do
          let (t2, c) ← p.2.replace k repl
          pure (acc.1 ++ [(p.1, t2)], acc.2 || c))
      (([] : List (Goff × HType)), changed)
    let sr ← symbols.foldlM
      (fun acc p => do
        let (s2, c) ← p.2.replace k repl
        pure (acc.1 ++ [(p.1, s2)], acc.2 || c))
      (([] : List (String × SymbolInfo)), tr.2)
    pure (tr.1, sr.1, sr.2)

/-- Apply all eliminations in order. -/
def applyElims : List (Goff × Tree Goff) → List (Goff × HType) →
    List (String × SymbolInfo) → Bool →
    Option (List (Goff × HType) × List (String × SymbolInfo) × Bool)
  | [], types, symbols, changed => some (types, symbols, changed)
  | (k, repl) :: rest, types, symbols, changed =>
    match applyOneElim k repl types symbols changed with
    | none => none
    | some (types2, symbols2, changed2) => applyElims rest types2 symbols2 changed2

/-- Apply an optimizer output to the stage, `OptimizeOutput::apply`:
changes, then eliminations (with substitution in every type and symbol),
then removal of the eliminated keys, then the derived-name edges. -/
def OptimizeOutput.apply (o : OptimizeOutput) (stage : HStage) : Option (HStage × Bool) := do
  let (types1, changed1) ← applyChanges stage.types o.changes false
  let (types2, symbols2, changed2) ← applyElims o.eliminations types1 stage.symbols changed1
  let types3 := o.eliminations.foldl (fun ts p => mapRemove ts p.1) types2
  let gr ← o.addIsDerivedNames.foldlM
    (fun acc p => do
      let (g2, c) ← acc.1.addDerived p.1 p.2
      pure (g2, acc.2 || c))
    (stage.nameGraph, changed2)
  pure (⟨types3, symbols2, gr.1⟩, gr.2)

/-- The non-eliminateable context of one optimizer run: the marks of
every type and every symbol. -/
def markAll (stage : HStage) : List Goff :=
  let m1 := stage.types.foldl (fun acc p => p.2.markNonElim p.1 acc) []
  stage.symbols.foldl (fun acc p => p.2.markNonElim acc) m1

/-- One pass of the optimizer loop (the optimizer list holds only
`optimize_union_fewer_than_2_members`). -/
def optimizePass (stage : HStage) : Option (HStage × Bool) :=
  match optimizeUnionStep stage.types (markAll stage) with
  | none => none
  | some output => output.apply stage

/-- The optimizer fixpoint loop, `optimize_layout::run`: iterate the
optimizer; after a changing pass, dedupe and go again; stop when a pass
changes nothing. -/
def optimizeRun (hash : HType → Nat) (dedupeFuel : Nat) :
    Nat → HStage → Option HStage
  | 0, _ => none
  | fuel + 1, stage =>
    match optimizePass stage with
    | none => none
    | some (stage2, changed) =>
      if changed then
        match dedupe hash (fun t bks => some (t.mapGoff bks.primaryFallback)) dedupeFuel
          stage2.types GoffBuckets.empty stage2.symbols none with
        | none => none
        | some out =>
          optimizeRun hash dedupeFuel fuel ⟨out.map, out.symbols, stage2.nameGraph⟩
      else some stage2

/-! ## Concrete scenario inputs used by the theorems -/

/-- The type map of the flattening scenario: a named composite tree (a
pointer to `i32`) and the `i32` primitive. -/
def c4Types : List (Goff × LType) :=
  [(0x10, .tree (.ptr (.base (Goff.prim .i32)))), (Goff.prim .i32, .prim .i32)]

/-- The shared name of the two `Node` structs. -/
def nodeName : NamespacedName := ⟨⟨[]⟩, "Node"⟩

/-- Identity of the first `Node`. -/
def nodeGa : Goff := 0x20

/-- Identity of the second `Node`. -/
def nodeGb : Goff := 0x30

/-- The `Node` struct of the first unit: one member `next` of type
`Node*` (self-referential). -/
def nodeStructA : MType :=
  .struct ⟨some nodeName, [],
    ⟨[], 8, [], [{ offset := 0, name := some "next", ty := .ptr (.base nodeGa),
                   special := none }]⟩⟩

/-- The `Node` struct of the second unit. -/
def nodeStructB : MType :=
  .struct ⟨some nodeName, [],
    ⟨[], 8, [], [{ offset := 0, name := some "next", ty := .ptr (.base nodeGb),
                   special := none }]⟩⟩

/-- The merged catalog of the two units before name merging. -/
def c5Types : List (Goff × MType) := [(nodeGa, nodeStructA), (nodeGb, nodeStructB)]

/-- The merge task the name grouping produces for the `Node` pair. -/
def c5Task : MergeTask :=
  (MType.addMergeDeps nodeStructA nodeStructB (MergeTask.new nodeGa nodeGb)).getD
    (MergeTask.new nodeGa nodeGb)

/-- The bucket state after the scenario's scheduler run: both `Node`
identities share the one bucket. -/
def c5Buckets : GoffBuckets := ⟨[(nodeGa, 0), (nodeGb, 0)], [[nodeGa, nodeGb], []], [1]⟩

/-- A fully qualified name for the self-referential union scenario. -/
def c6FqU : FullQualName := .goff ⟨⟨⟨[]⟩, "U"⟩, []⟩

/-- Identity of the self-referential union. -/
def c6Gu : Goff := 0x40

/-- A union with exactly one member whose type is the composite tree
`Ptr(Base(self))`: self-referential, hence marked non-eliminateable, and
its elimination would be a composite replacement. -/
def c6UnionU : HType :=
  .union ⟨[c6FqU],
    ⟨[], 8, [{ offset := 0, name := some "p", ty := .ptr (.base c6Gu), special := none }]⟩⟩

/-- The H-stage of the union scenario. -/
def c6Stage : HStage := ⟨[(c6Gu, c6UnionU)], [], NameGraph.empty⟩

/-- Identity of the single-member union of the amended scenario. -/
def c6bGu : Goff := 0x60

/-- Identity of the named struct its member refers to. -/
def c6bGs : Goff := 0x70

/-- The union's fully-qualified name. -/
def c6bFqU : FullQualName := .goff ⟨⟨⟨[]⟩, "U2"⟩, []⟩

/-- The member struct's fully-qualified name. -/
def c6bFqS : FullQualName := .goff ⟨⟨⟨[]⟩, "S"⟩, []⟩

/-- The single member: a `Base` reference to the struct. -/
def c6bMember : Member := { offset := 0, name := some "v", ty := .base c6bGs, special := none }

/-- The single-member union. -/
def c6bDU : HTypeData Union := ⟨[c6bFqU], ⟨[], 8, [c6bMember]⟩⟩

/-- The named member struct. -/
def c6bDS : HTypeData Struct := ⟨[c6bFqS], ⟨[], 8, [], []⟩⟩

/-- The catalog: the union and the struct it wraps. -/
def c6bTypes : List (Goff × HType) := [(c6bGu, .union c6bDU), (c6bGs, .struct c6bDS)]

/-- The union optimizer's output on that catalog with nothing marked
non-eliminateable. -/
def c6bOut : OptimizeOutput := (optimizeUnionStep c6bTypes []).getD OptimizeOutput.emptyOut

/-- The order the two stable sorts of `load_struct_type_from_entry`
establish on the member list: offset ascending, and at equal offsets
non-base before base. -/
def memberOrd (a b : Member) : Prop :=
  a.offset < b.offset ∨ (a.offset = b.offset ∧ cond a.isBase 1 0 ≤ cond b.isBase 1 0)

/-- The empty base member of the empty-base scenario (`struct A{}` as a
base of `B` at offset 0). -/
def c7A : Member := { offset := 0, name := none, ty := .base 0x11, special := some .base }

/-- The colliding data member `int x` at offset 0. -/
def c7X : Member := { offset := 0, name := some "x", ty := .base (Goff.prim .i32), special := none }

/-- Cleanliness of an L-type value after typedef cleaning: not an `Alias`
and not a `Tree` rooted at `Tree::Base`. -/
def ltypeClean (v : LType) : Prop :=
  (∀ g, v ≠ .alias g) ∧ (∀ g, v ≠ .tree (.base g))

/-- Identity of the function-pointer tree type of the typedef scenario. -/
def c3Gptr : Goff := 0x100

/-- Identity of the typedef `Fn`. -/
def c3Gtd : Goff := 0x200

/-- The typedef name `Fn`. -/
def c3FnName : NamespacedName := ⟨⟨[]⟩, "Fn"⟩

/-- The function-pointer tree `Ptr(Sub([I32, I32, I32]))`. -/
def c3FnTree : Tree Goff :=
  .ptr (.sub [.base (Goff.prim .i32), .base (Goff.prim .i32), .base (Goff.prim .i32)])

/-- The type map of `typedef int (*Fn)(int, int)`. -/
def c3Types : List (Goff × LType) :=
  [(c3Gptr, .tree c3FnTree), (c3Gtd, .typedef c3FnName c3Gptr),
   (Goff.prim .i32, .prim .i32)]

/-- The expected output of cleaning the typedef scenario: the typedef
name is dropped and the class of `Fn` holds the function-pointer tree. -/
def c3Out : DedupeOut LType :=
  ⟨[(c3Gptr, .tree c3FnTree), (Goff.prim .i32, .prim .i32)], [], some ⟨[], [], []⟩⟩

/-- One step of the size-dependency relation `get_size` recurses on
before reaching trees: a typedef target, an alias target, or the
base-type reference of an enum with undetermined size. -/
def sizeStep (types : List (Goff × LType)) (g g' : Goff) : Prop :=
  (∃ n, mapGet types g = some (.typedef n g'))
  ∨ mapGet types g = some (.alias g')
  ∨ (∃ d, mapGet types g = some (.enum d) ∧ d.data.byteSizeOrBase = .error g')

/-- A concrete size configuration (8-byte pointers and PTMDs, 16-byte PTMFs). -/
def c9Cfg : SizeConfig := ⟨8, 8, 16⟩

/-- Identity of the cyclic enum. -/
def c9GE : Goff := 0x300

/-- Identity of the typedef in the size cycle. -/
def c9GT : Goff := 0x310

/-- Identity of the alias closing the size cycle. -/
def c9GA : Goff := 0x320

/-- The enum whose width refers to the typedef. -/
def c9EnumD : LTypeData EnumUndeterminedSize := ⟨none, ⟨.error c9GT, []⟩⟩

/-- The cyclic type map: enum -> typedef -> alias -> enum. -/
def c9Types : List (Goff × LType) :=
  [(c9GE, .enum c9EnumD), (c9GT, .typedef ⟨⟨[]⟩, "T"⟩ c9GA), (c9GA, .alias c9GE)]

/-- Identity of the well-founded enum. -/
def c9GE2 : Goff := 0x340

/-- An enum whose width is a base-type reference to `i32`. -/
def c9EnumOkD : LTypeData EnumUndeterminedSize := ⟨none, ⟨.error (Goff.prim .i32), []⟩⟩

/-- The single-enum type map that resolves through the primitive table. -/
def c9OkTypes : List (Goff × LType) := [(c9GE2, .enum c9EnumOkD)]

/-- A one-entry deduplicated type map used by the idempotence witness. -/
def c2Map : List (Goff × LType) := [(c3Gptr, .tree c3FnTree)]

/-! # Theorems -/

/-! ## Association list lemmas -/

theorem mapGet_mapInsert_self {κ α : Type} [LinearOrder κ] (m : List (κ × α)) (k : κ) (v : α) :
    mapGet (mapInsert m k v) k = some v := by
  induction m with
  | nil => simp [mapInsert, mapGet]
  | cons p rest ih =>
    by_cases h1 : k < p.1
    · simp [mapInsert, h1, mapGet]
    · by_cases h2 : k = p.1
      · simp [mapInsert, h1, h2, mapGet]
      · simp [mapInsert, h1, h2, mapGet, ih]

theorem mapGet_mapInsert_ne {κ α : Type} [LinearOrder κ] (m : List (κ × α)) (k k2 : κ) (v : α)
    (h : k2 ≠ k) : mapGet (mapInsert m k v) k2 = mapGet m k2 := by
  induction m with
  | nil => simp [mapInsert, mapGet, h]
  | cons p rest ih =>
    by_cases h1 : k < p.1
    · simp [mapInsert, h1, mapGet, h]
    · by_cases h2 : k = p.1
      · subst h2
        simp [mapInsert, h1, mapGet, h]
      · by_cases h3 : k2 = p.1
        · simp [mapInsert, h1, h2, mapGet, h3]
        · simp [mapInsert, h1, h2, mapGet, h3, ih]

theorem mem_mapKeys_cons {κ α : Type} (p : κ × α) (rest : List (κ × α)) (x : κ) :
    x ∈ mapKeys (p :: rest) ↔ x = p.1 ∨ x ∈ mapKeys rest := by
  simp [mapKeys]

theorem mapGet_eq_none_of_not_mem_keys {κ α : Type} [DecidableEq κ] (m : List (κ × α)) (k : κ)
    (h : k ∉ mapKeys m) : mapGet m k = none := by
  induction m with
  | nil => rfl
  | cons p rest ih =>
    rw [mem_mapKeys_cons] at h
    push_neg at h
    simp [mapGet, h.1, ih h.2]

theorem mem_keys_of_mapGet_eq_some {κ α : Type} [DecidableEq κ] (m : List (κ × α)) (k : κ)
    (v : α) (h : mapGet m k = some v) : k ∈ mapKeys m := by
  induction m with
  | nil => simp [mapGet] at h
  | cons p rest ih =>
    rw [mem_mapKeys_cons]
    by_cases h1 : k = p.1
    · exact Or.inl h1
    · simp only [mapGet, if_neg h1] at h
      exact Or.inr (ih h)

theorem mapKeys_mapInsert_sub {κ α : Type} [LinearOrder κ] (m : List (κ × α)) (k : κ) (v : α) :
    ∀ x ∈ mapKeys (mapInsert m k v), x = k ∨ x ∈ mapKeys m := by
  induction m with
  | nil =>
    intro x hx
    rw [mapInsert, mem_mapKeys_cons] at hx
    rcases hx with h | h
    · exact Or.inl h
    · cases h
  | cons p rest ih =>
    intro x hx
    rw [mapInsert] at hx
    by_cases h1 : k < p.1
    · rw [if_pos h1, mem_mapKeys_cons, mem_mapKeys_cons] at hx
      rcases hx with h | h | h
      · exact Or.inl h
      · exact Or.inr ((mem_mapKeys_cons p rest x).mpr (Or.inl h))
      · exact Or.inr ((mem_mapKeys_cons p rest x).mpr (Or.inr h))
    · rw [if_neg h1] at hx
      by_cases h2 : k = p.1
      · rw [if_pos h2, mem_mapKeys_cons] at hx
        rcases hx with h | h
        · exact Or.inl h
        · exact Or.inr ((mem_mapKeys_cons p rest x).mpr (Or.inr h))
      · rw [if_neg h2, mem_mapKeys_cons] at hx
        rcases hx with h | h
        · exact Or.inr ((mem_mapKeys_cons p rest x).mpr (Or.inl h))
        · rcases ih x h with h3 | h3
          · exact Or.inl h3
          · exact Or.inr ((mem_mapKeys_cons p rest x).mpr (Or.inr h3))

theorem mapKeys_mapRemove_sub {κ α : Type} [DecidableEq κ] (m : List (κ × α)) (k : κ) :
    ∀ x ∈ mapKeys (mapRemove m k), x ∈ mapKeys m := by
  induction m with
  | nil => simp [mapRemove]
  | cons p rest ih =>
    intro x hx
    rw [mapRemove] at hx
    by_cases h1 : k = p.1
    · rw [if_pos h1] at hx
      exact (mem_mapKeys_cons p rest x).mpr (Or.inr hx)
    · rw [if_neg h1, mem_mapKeys_cons] at hx
      rcases hx with h | h
      · exact (mem_mapKeys_cons p rest x).mpr (Or.inl h)
      · exact (mem_mapKeys_cons p rest x).mpr (Or.inr (ih x h))

theorem mapKeys_nodup_cons {κ α : Type} (p : κ × α) (rest : List (κ × α))
    (h : (mapKeys (p :: rest)).Nodup) :
    p.1 ∉ mapKeys rest ∧ (mapKeys rest).Nodup := by
  have : mapKeys (p :: rest) = p.1 :: mapKeys rest := rfl
  rw [this, List.nodup_cons] at h
  exact h

theorem not_mem_keys_mapRemove {κ α : Type} [DecidableEq κ] (m : List (κ × α)) (k : κ)
    (h : (mapKeys m).Nodup) : k ∉ mapKeys (mapRemove m k) := by
  induction m with
  | nil => simp [mapRemove, mapKeys]
  | cons p rest ih =>
    obtain ⟨hp, hnd⟩ := mapKeys_nodup_cons p rest h
    rw [mapRemove]
    by_cases h1 : k = p.1
    · rw [if_pos h1]
      intro q
      exact hp (h1 ▸ q)
    · rw [if_neg h1]
      intro q
      rcases (mem_mapKeys_cons _ _ k).mp q with h2 | h2
      · exact h1 h2
      · exact ih hnd h2

theorem mapRemove_keys_nodup {κ α : Type} [DecidableEq κ] (m : List (κ × α)) (k : κ)
    (h : (mapKeys m).Nodup) : (mapKeys (mapRemove m k)).Nodup := by
  induction m with
  | nil => simp [mapRemove, mapKeys]
  | cons p rest ih =>
    obtain ⟨hp, hnd⟩ := mapKeys_nodup_cons p rest h
    rw [mapRemove]
    by_cases h1 : k = p.1
    · rw [if_pos h1]
      exact hnd
    · rw [if_neg h1]
      have : mapKeys ((p :: mapRemove rest k : List (κ × α))) =
          p.1 :: mapKeys (mapRemove rest k) := rfl
      rw [this, List.nodup_cons]
      exact ⟨fun q => hp (mapKeys_mapRemove_sub rest k p.1 q), ih hnd⟩

/-! ## C6 helper lemmas -/

theorem elimInsert_get_other (e : List (Goff × Tree Goff)) (k1 : Goff) (tree : Tree Goff)
    (nonElim : List Goff) (e2 : List (Goff × Tree Goff)) (k : Goff)
    (h : elimInsert e k1 tree nonElim = some e2) (hk : k ≠ k1) :
    mapGet e2 k = mapGet e k := by
  unfold elimInsert at h
  split at h
  · cases h
    rfl
  · split at h
    · cases h
      exact mapGet_mapInsert_ne e k1 k tree hk
    · split at h
      · cases h
        rfl
      · cases h

theorem optimizeUnionMemberNames_eliminations (types : List (Goff × HType))
    (out : OptimizeOutput) (d : HTypeData Union) (member : Member) (o2 : OptimizeOutput)
    (h : optimizeUnionMemberNames types out d member = some o2) :
    o2.eliminations = out.eliminations := by
  unfold optimizeUnionMemberNames at h
  split at h
  · split at h
    · cases h
    · split at h
      · cases h
        rfl
      · cases h
        rfl
  all_goals (cases h; rfl)

theorem optimizeUnionEntry_elim_other (types : List (Goff × HType)) (nonElim : List Goff)
    (out : OptimizeOutput) (p : Goff × HType) (out2 : OptimizeOutput) (k : Goff)
    (h : optimizeUnionEntry types nonElim out p = some out2) (hk : k ≠ p.1) :
    mapGet out2.eliminations k = mapGet out.eliminations k := by
  unfold optimizeUnionEntry at h
  split at h
  · split at h
    · cases h
      rfl
    · split at h
      · cases h
      · rename_i output2 heq
        split at h
        · cases h
        · rename_i e2 he
          cases h
          rw [elimInsert_get_other output2.eliminations p.1 _ nonElim e2 k he hk]
          rw [optimizeUnionMemberNames_eliminations types out _ _ output2 heq]
    · cases h
      rfl
  all_goals (cases h; rfl)

theorem optimizeUnionEntry_fold_elim_other (types : List (Goff × HType)) (nonElim : List Goff)
    (k : Goff) :
    ∀ (l : List (Goff × HType)) (out out2 : OptimizeOutput),
      (∀ p ∈ l, p.1 ≠ k) →
      l.foldlM (optimizeUnionEntry types nonElim) out = some out2 →
      mapGet out2.eliminations k = mapGet out.eliminations k := by
  intro l
  induction l with
  | nil =>
    intro out out2 _ h
    cases h
    rfl
  | cons p rest ih =>
    intro out out2 hne h
    simp only [List.foldlM_cons] at h
    cases hstep : optimizeUnionEntry types nonElim out p with
    | none => rw [hstep] at h; cases h
    | some outMid =>
      rw [hstep] at h
      have h1 := ih outMid out2 (fun q hq => hne q (List.mem_cons_of_mem p hq)) h
      have h2 := optimizeUnionEntry_elim_other types nonElim out p outMid k hstep
        (fun q => (hne p (List.mem_cons_self p rest)) q.symm)
      rw [h1, h2]

theorem optimizeUnionEntry_elim_own (types : List (Goff × HType)) (nonElim : List Goff)
    (out : OptimizeOutput) (k : Goff) (d : HTypeData Union) (m : Member)
    (out2 : OptimizeOutput)
    (hm : d.data.members = [m])
    (h : optimizeUnionEntry types nonElim out (k, .union d) = some out2)
    (h0 : mapGet out.eliminations k = none) :
    mapGet out2.eliminations k =
      if m.ty.isBaseNode || !(nonElim.contains k) then some m.ty else none := by
  unfold optimizeUnionEntry at h
  simp only [hm] at h
  split at h
  · cases h
  · rename_i o2 heq
    split at h
    · cases h
    · rename_i e2 he
      cases h
      have helim := optimizeUnionMemberNames_eliminations types out d m o2 heq
      unfold elimInsert at he
      split at he
      · rename_i hcond
        cases he
        rw [helim, h0]
        have hneg : ¬ (m.ty.isBaseNode || !nonElim.contains k) = true := by
          simp only [Bool.and_eq_true, Bool.not_eq_true'] at hcond
          simp only [hcond.1, hcond.2, Bool.false_or, Bool.not_true]
          exact Bool.false_ne_true
        rw [if_neg hneg]
      · rename_i hcond
        split at he
        · rename_i hnone
          cases he
          have hpos : (m.ty.isBaseNode || !nonElim.contains k) = true := by
            cases hb : m.ty.isBaseNode with
            | true => simp
            | false =>
              cases hc : nonElim.contains k with
              | false => simp [hb, hc]
              | true => exact absurd (by simp only [hb, hc, Bool.not_false, Bool.and_self]) hcond
          rw [if_pos hpos]
          exact mapGet_mapInsert_self _ _ _
        · rename_i old hsome
          rw [helim, h0] at hsome
          cases hsome

theorem changeFn_addIsDerivedNames (o : OptimizeOutput) (k : Goff) (f : HType → Option HType) :
    (o.changeFn k f).addIsDerivedNames = o.addIsDerivedNames := rfl

theorem changeFn_changes_isSome (o : OptimizeOutput) (k : Goff) (f : HType → Option HType)
    (g : Goff) (hs : (mapGet o.changes g).isSome = true ∨ g = k) :
    (mapGet (o.changeFn k f).changes g).isSome = true := by
  unfold OptimizeOutput.changeFn
  by_cases hg : g = k
  · subst hg
    split <;> simp [mapGet_mapInsert_self]
  · rcases hs with hs | hs
    · split <;> (rw [mapGet_mapInsert_ne _ _ _ _ hg]; exact hs)
    · exact absurd hs hg

theorem changeFn_changes_mono (o : OptimizeOutput) (k : Goff) (f : HType → Option HType)
    (g : Goff) (hs : (mapGet o.changes g).isSome = true) :
    (mapGet (o.changeFn k f).changes g).isSome = true :=
  changeFn_changes_isSome o k f g (Or.inl hs)

theorem optimizeUnionMemberNames_derived_mono (types : List (Goff × HType))
    (out : OptimizeOutput) (d : HTypeData Union) (member : Member) (o2 : OptimizeOutput)
    (h : optimizeUnionMemberNames types out d member = some o2)
    (x : FullQualName × FullQualName) (hx : x ∈ out.addIsDerivedNames) :
    x ∈ o2.addIsDerivedNames := by
  unfold optimizeUnionMemberNames at h
  split at h
  · split at h
    · cases h
    · split at h
      · cases h
        exact hx
      · cases h
        rw [changeFn_addIsDerivedNames]
        exact List.mem_append_left _ hx
  all_goals (cases h; exact hx)

theorem optimizeUnionMemberNames_changes_mono (types : List (Goff × HType))
    (out : OptimizeOutput) (d : HTypeData Union) (member : Member) (o2 : OptimizeOutput)
    (h : optimizeUnionMemberNames types out d member = some o2)
    (g : Goff) (hs : (mapGet out.changes g).isSome = true) :
    (mapGet o2.changes g).isSome = true := by
  unfold optimizeUnionMemberNames at h
  split at h
  · split at h
    · cases h
    · split at h
      · cases h
        exact hs
      · cases h
        exact changeFn_changes_mono _ _ _ g hs
  all_goals (cases h; exact hs)

theorem optimizeUnionEntry_derived_mono (types : List (Goff × HType)) (nonElim : List Goff)
    (out : OptimizeOutput) (p : Goff × HType) (out2 : OptimizeOutput)
    (h : optimizeUnionEntry types nonElim out p = some out2)
    (x : FullQualName × FullQualName) (hx : x ∈ out.addIsDerivedNames) :
    x ∈ out2.addIsDerivedNames := by
  unfold optimizeUnionEntry at h
  split at h
  · split at h
    · cases h
      rw [changeFn_addIsDerivedNames]
      exact hx
    · split at h
      · cases h
      · rename_i o2 heq
        split at h
        · cases h
        · cases h
          exact optimizeUnionMemberNames_derived_mono types out _ _ o2 heq x hx
    · cases h
      exact hx
  all_goals (cases h; exact hx)

theorem optimizeUnionEntry_changes_mono (types : List (Goff × HType)) (nonElim : List Goff)
    (out : OptimizeOutput) (p : Goff × HType) (out2 : OptimizeOutput)
    (h : optimizeUnionEntry types nonElim out p = some out2)
    (g : Goff) (hs : (mapGet out.changes g).isSome = true) :
    (mapGet out2.changes g).isSome = true := by
  unfold optimizeUnionEntry at h
  split at h
  · split at h
    · cases h
      exact changeFn_changes_mono _ _ _ g hs
    · split at h
      · cases h
      · rename_i o2 heq
        split at h
        · cases h
        · cases h
          exact optimizeUnionMemberNames_changes_mono types out _ _ o2 heq g hs
    · cases h
      exact hs
  all_goals (cases h; exact hs)

theorem optimizeUnionEntry_fold_derived_mono (types : List (Goff × HType))
    (nonElim : List Goff) (x : FullQualName × FullQualName) :
    ∀ (l : List (Goff × HType)) (out out2 : OptimizeOutput),
      l.foldlM (optimizeUnionEntry types nonElim) out = some out2 →
      x ∈ out.addIsDerivedNames → x ∈ out2.addIsDerivedNames := by
  intro l
  induction l with
  | nil =>
    intro out out2 h hx
    cases h
    exact hx
  | cons p rest ih =>
    intro out out2 h hx
    simp only [List.foldlM_cons] at h
    cases hstep : optimizeUnionEntry types nonElim out p with
    | none => rw [hstep] at h; cases h
    | some outMid =>
      rw [hstep] at h
      exact ih outMid out2 h (optimizeUnionEntry_derived_mono types nonElim out p outMid hstep x hx)

theorem optimizeUnionEntry_fold_changes_mono (types : List (Goff × HType))
    (nonElim : List Goff) (g : Goff) :
    ∀ (l : List (Goff × HType)) (out out2 : OptimizeOutput),
      l.foldlM (optimizeUnionEntry types nonElim) out = some out2 →
      (mapGet out.changes g).isSome = true → (mapGet out2.changes g).isSome = true := by
  intro l
  induction l with
  | nil =>
    intro out out2 h hs
    cases h
    exact hs
  | cons p rest ih =>
    intro out out2 h hs
    simp only [List.foldlM_cons] at h
    cases hstep : optimizeUnionEntry types nonElim out p with
    | none => rw [hstep] at h; cases h
    | some outMid =>
      rw [hstep] at h
      exact ih outMid out2 h (optimizeUnionEntry_changes_mono types nonElim out p outMid hstep g hs)

theorem optimizeUnionMemberNames_base_named (types : List (Goff × HType))
    (out : OptimizeOutput) (d : HTypeData Union) (member : Member) (o2 : OptimizeOutput)
    (memberGoff : Goff) (memberT : HType) (memberFqnames : List FullQualName)
    (hty : member.ty = .base memberGoff)
    (hmg : mapGet types memberGoff = some memberT)
    (hfq : memberT.fqnames = some memberFqnames)
    (h : optimizeUnionMemberNames types out d member = some o2) :
    (∀ derived ∈ d.fqnames, ∀ base ∈ memberFqnames, (derived, base) ∈ o2.addIsDerivedNames)
    ∧ (mapGet o2.changes memberGoff).isSome = true := by
  unfold optimizeUnionMemberNames at h
  rw [hty] at h
  simp only [hmg, hfq] at h
  cases h
  constructor
  · intro derived hderived base hbase
    rw [changeFn_addIsDerivedNames]
    refine List.mem_append_right _ ?_
    rw [List.mem_flatten]
    refine ⟨d.fqnames.map (fun derived => (derived, base)), ?_, ?_⟩
    · exact List.mem_map_of_mem _ hbase
    · exact List.mem_map_of_mem _ hderived
  · exact changeFn_changes_isSome _ _ _ _ (Or.inr rfl)

theorem optimizeUnionEntry_base_named (types : List (Goff × HType)) (nonElim : List Goff)
    (out : OptimizeOutput) (k : Goff) (d : HTypeData Union) (m : Member) (out2 : OptimizeOutput)
    (memberGoff : Goff) (memberT : HType) (memberFqnames : List FullQualName)
    (hm : d.data.members = [m])
    (hty : m.ty = .base memberGoff)
    (hmg : mapGet types memberGoff = some memberT)
    (hfq : memberT.fqnames = some memberFqnames)
    (h : optimizeUnionEntry types nonElim out (k, .union d) = some out2) :
    (∀ derived ∈ d.fqnames, ∀ base ∈ memberFqnames, (derived, base) ∈ out2.addIsDerivedNames)
    ∧ (mapGet out2.changes memberGoff).isSome = true := by
  unfold optimizeUnionEntry at h
  simp only [hm] at h
  split at h
  · cases h
  · rename_i o2 heq
    split at h
    · cases h
    · cases h
      exact optimizeUnionMemberNames_base_named types out d m o2 memberGoff memberT
        memberFqnames hty hmg hfq heq

theorem mem_mapKeys_of_mem {κ α : Type} (p : κ × α) (l : List (κ × α)) (hp : p ∈ l) :
    p.1 ∈ mapKeys l :=
  List.mem_map_of_mem _ hp

/-! ## C1: GoffBuckets canonical representatives -/

theorem get?_set_self {α : Type} (l : List α) (i : Nat) (a : α) (h : i < l.length) :
    (l.set i a).get? i = some a := by
  rw [List.get?_set_eq]
  rw [List.get?_eq_get h]
  rfl

theorem mem_of_getLast?_eq {α : Type} (l : List α) (a : α) (h : l.getLast? = some a) :
    a ∈ l :=
  List.mem_of_mem_getLast? (by rw [h]; rfl)

theorem isPrim_mono (x y : Goff) (hx : x.isPrim = true) (hxy : x ≤ y) : y.isPrim = true := by
  unfold Goff.isPrim at hx ⊢
  rw [decide_eq_true_eq] at hx ⊢
  exact Nat.le_trans hx hxy

theorem pairwise_last_ge : ∀ (b : List Goff), List.Pairwise (· < ·) b → ∀ (l : Goff),
    b.getLast? = some l → ∀ x ∈ b, x ≤ l := by
  intro b
  induction b with
  | nil =>
    intro _ l hl
    cases hl
  | cons h t ih =>
    intro hs l hl x hx
    rw [List.pairwise_cons] at hs
    cases t with
    | nil =>
      rcases List.mem_cons.mp hx with rfl | hx
      · cases hl
        exact Nat.le_refl x
      · cases hx
    | cons h2 t2 =>
      have hl2 : (h2 :: t2).getLast? = some l := by
        rw [← hl]
        rfl
      rcases List.mem_cons.mp hx with rfl | hx
      · exact Nat.le_of_lt (hs.1 l (mem_of_getLast?_eq _ l hl2))
      · exact ih hs.2 l hl2 x hx

theorem pairwise_head_le (h : Goff) (t : List Goff) (hs : List.Pairwise (· < ·) (h :: t)) :
    ∀ x ∈ h :: t, h ≤ x := by
  rw [List.pairwise_cons] at hs
  intro x hx
  rcases List.mem_cons.mp hx with rfl | hx
  · exact Nat.le_refl x
  · exact Nat.le_of_lt (hs.1 x hx)

theorem primaryFromBucket_spec (b : List Goff)
    (hsort : List.Pairwise (· < ·) b)
    (huniq : ∀ x ∈ b, ∀ y ∈ b, x.isPrim = true → y.isPrim = true → x = y)
    (hne : b ≠ []) :
    ∃ c, GoffBuckets.primaryFromBucket b = some c ∧ c ∈ b
      ∧ (∀ p ∈ b, p.isPrim = true → c = p)
      ∧ ((∀ p ∈ b, p.isPrim = false) → ∀ x ∈ b, c ≤ x) := by
  cases hl : b.getLast? with
  | none =>
    rw [List.getLast?_eq_none_iff] at hl
    exact absurd hl hne
  | some l =>
    have hlm := mem_of_getLast?_eq b l hl
    by_cases hp : l.isPrim = true
    · refine ⟨l, ?_, hlm, ?_, ?_⟩
      · simp only [GoffBuckets.primaryFromBucket, hl]
        rw [if_pos hp]
      · intro p hpm hpp
        exact huniq l hlm p hpm hp hpp
      · intro hall
        exact absurd hp (by simp [hall l hlm])
    · cases b with
      | nil => exact absurd rfl hne
      | cons h t =>
        refine ⟨h, ?_, List.mem_cons_self h t, ?_, ?_⟩
        · simp only [GoffBuckets.primaryFromBucket, hl]
          rw [if_neg hp]
          rfl
        · intro p hpm hpp
          exact absurd (isPrim_mono p l hpp (pairwise_last_ge _ hsort l hl p hpm)) hp
        · intro _
          exact pairwise_head_le h t hsort

theorem mapGet_mem {κ α : Type} [DecidableEq κ] :
    ∀ (m : List (κ × α)) (k : κ) (v : α), mapGet m k = some v → (k, v) ∈ m := by
  intro m
  induction m with
  | nil =>
    intro k v h
    cases h
  | cons p rest ih =>
    intro k v h
    obtain ⟨k2, v2⟩ := p
    rw [mapGet] at h
    split at h
    · rename_i heq
      cases h
      subst heq
      exact List.mem_cons_self _ _
    · exact List.mem_cons_of_mem _ (ih k v h)

theorem goffBuckets_primary_spec (s : GoffBuckets) (k : Goff) (i : Nat) (b : List Goff)
    (hwf : s.WF) (hk : mapGet s.indexMap k = some i) (hb : s.buckets.get? i = some b) :
    ∃ c, s.primary k = some c ∧ c ∈ b
      ∧ (∀ p ∈ b, p.isPrim = true → c = p)
      ∧ ((∀ p ∈ b, p.isPrim = false) → ∀ x ∈ b, c ≤ x)
      ∧ s.primaryFallback k = c
      ∧ s.insert k = (s, some c) := by
  obtain ⟨w1, w2, w3, w4, w5, w6⟩ := hwf
  have hbm : b ∈ s.buckets := List.get?_mem hb
  have hbne : b ≠ [] := by
    intro q
    have hm := w1 (k, i) (mapGet_mem _ k i hk)
    rw [hb, q] at hm
    cases hm
  obtain ⟨c, hc1, hc2, hc3, hc4⟩ := primaryFromBucket_spec b (w3 b hbm) (w4 b hbm) hbne
  have hprim : s.primary k = some c := by
    simp only [GoffBuckets.primary, hk, GoffBuckets.primaryFromIndex, hb]
    exact hc1
  refine ⟨c, hprim, hc2, hc3, hc4, ?_, ?_⟩
  · unfold GoffBuckets.primaryFallback
    rw [hprim]
    rfl
  · unfold GoffBuckets.insert
    simp only [hk, GoffBuckets.primaryFromIndex, hb]
    rw [hc1]

theorem mem_mapInsert {κ α : Type} [LinearOrder κ] :
    ∀ (m : List (κ × α)) (k : κ) (v : α) (p : κ × α),
      p ∈ mapInsert m k v → p = (k, v) ∨ p ∈ m := by
  intro m
  induction m with
  | nil =>
    intro k v p h
    exact Or.inl (List.mem_singleton.mp h)
  | cons q rest ih =>
    intro k v p h
    obtain ⟨k2, v2⟩ := q
    rw [mapInsert] at h
    split at h
    · rcases List.mem_cons.mp h with rfl | h2
      · exact Or.inl rfl
      · exact Or.inr h2
    · split at h
      · rcases List.mem_cons.mp h with rfl | h2
        · exact Or.inl rfl
        · exact Or.inr (List.mem_cons_of_mem _ h2)
      · rcases List.mem_cons.mp h with rfl | h2
        · exact Or.inr (List.mem_cons_self _ _)
        · rcases ih k v p h2 with h3 | h3
          · exact Or.inl h3
          · exact Or.inr (List.mem_cons_of_mem _ h3)

theorem set_concat_length {α : Type} :
    ∀ (B : List α) (x y : α), (B ++ [x]).set B.length y = B ++ [y] := by
  intro B
  induction B with
  | nil =>
    intro x y
    rfl
  | cons b B ih =>
    intro x y
    simp only [List.cons_append, List.length_cons, List.set_cons_succ]
    rw [ih]

theorem makeNewBucket_indexMap (s : GoffBuckets) :
    (s.makeNewBucket).1.indexMap = s.indexMap := by
  unfold GoffBuckets.makeNewBucket
  cases s.freeList <;> rfl

theorem insert_new_nil (s : GoffBuckets) (k : Goff)
    (hk : mapGet s.indexMap k = none) (hf : s.freeList = []) :
    s.insert k =
      (⟨mapInsert s.indexMap k s.buckets.length, s.buckets ++ [[k]], []⟩, none) := by
  unfold GoffBuckets.insert
  simp only [hk]
  unfold GoffBuckets.makeNewBucket
  rw [hf]
  have h1 : (s.buckets ++ [[]]).get? s.buckets.length = some ([] : List Goff) :=
    List.get?_concat_length _ _
  simp only [h1, Option.getD_some]
  rw [show setInsert ([] : List Goff) k = [k] from rfl]
  rw [set_concat_length]

theorem insert_new_free (s : GoffBuckets) (k : Goff) (i : Nat) (rest : List Nat)
    (hk : mapGet s.indexMap k = none) (hf : s.freeList = i :: rest)
    (hie : (s.buckets.get? i).getD [] = []) :
    s.insert k =
      (⟨mapInsert s.indexMap k i, s.buckets.set i [k], rest⟩, none) := by
  unfold GoffBuckets.insert
  simp only [hk]
  unfold GoffBuckets.makeNewBucket
  rw [hf]
  simp only [hie]
  rfl

theorem insert_WF (s : GoffBuckets) (k : Goff) (hwf : s.WF) : (s.insert k).1.WF := by
  obtain ⟨w1, w2, w3, w4, w5, w6⟩ := hwf
  cases hk : mapGet s.indexMap k with
  | some i =>
    have hs : (s.insert k).1 = s := by
      unfold GoffBuckets.insert
      simp only [hk]
    rw [hs]
    exact ⟨w1, w2, w3, w4, w5, w6⟩
  | none =>
    cases hf : s.freeList with
    | nil =>
      rw [insert_new_nil s k hk hf]
      refine ⟨?_, ?_, ?_, ?_, ?_, ?_⟩
      · intro p hp
        rcases mem_mapInsert _ k s.buckets.length p hp with rfl | hp2
        · have h1 : (s.buckets ++ [[k]]).get? s.buckets.length = some [k] :=
            List.get?_concat_length _ _
          simp only [h1, Option.getD_some]
          exact List.mem_singleton.mpr rfl
        · have hm := w1 p hp2
          cases hbp : s.buckets.get? p.2 with
          | none =>
            rw [hbp] at hm
            cases hm
          | some b =>
            rw [hbp] at hm
            have hlt : p.2 < s.buckets.length := by
              obtain ⟨h2, _⟩ := List.get?_eq_some.mp hbp
              exact h2
            rw [show (s.buckets ++ [[k]]).get? p.2 = s.buckets.get? p.2 from
              List.get?_append hlt, hbp]
            exact hm
      · intro i2 hi2 x hx
        rw [List.mem_range, List.length_append] at hi2
        rcases Nat.lt_or_ge i2 s.buckets.length with hlt | hge
        · rw [List.get?_append hlt] at hx
          have h2 := w2 i2 (List.mem_range.mpr hlt) x hx
          have hxk : x ≠ k := by
            intro q
            rw [q, hk] at h2
            cases h2
          rw [mapGet_mapInsert_ne _ _ _ _ hxk]
          exact h2
        · have hi2e : i2 = s.buckets.length := by
            simp only [List.length_singleton] at hi2
            omega
          subst hi2e
          rw [List.get?_concat_length] at hx
          simp only [Option.getD_some] at hx
          rcases List.mem_singleton.mp hx with rfl
          exact mapGet_mapInsert_self _ _ _
      · intro b hb
        rcases List.mem_append.mp hb with hb2 | hb2
        · exact w3 b hb2
        · rcases List.mem_singleton.mp hb2 with rfl
          exact List.pairwise_singleton _ k
      · intro b hb x hx y hy _ _
        rcases List.mem_append.mp hb with hb2 | hb2
        · rename_i hxp hyp
          exact w4 b hb2 x hx y hy hxp hyp
        · rcases List.mem_singleton.mp hb2 with rfl
          rcases List.mem_singleton.mp hx with rfl
          rcases List.mem_singleton.mp hy with rfl
          rfl
      · intro j hj
        cases hj
      · exact List.nodup_nil
    | cons i rest =>
      obtain ⟨hiL, hie⟩ := w5 i (by rw [hf]; exact List.mem_cons_self i rest)
      rw [insert_new_free s k i rest hk hf hie]
      have hsetlen : (s.buckets.set i [k]).length = s.buckets.length :=
        List.length_set _ _ _
      refine ⟨?_, ?_, ?_, ?_, ?_, ?_⟩
      · intro p hp
        rcases mem_mapInsert _ k i p hp with rfl | hp2
        · rw [get?_set_self _ _ _ hiL]
          simp only [Option.getD_some]
          exact List.mem_singleton.mpr rfl
        · have hm := w1 p hp2
          cases hbp : s.buckets.get? p.2 with
          | none =>
            rw [hbp] at hm
            cases hm
          | some b =>
            rw [hbp] at hm
            have hpne : i ≠ p.2 := by
              intro q
              rw [q, hbp] at hie
              simp only [Option.getD_some] at hie
              rw [hie] at hm
              cases hm
            rw [List.get?_set_ne _ _ hpne, hbp]
            exact hm
      · intro i2 hi2 x hx
        rw [List.mem_range, hsetlen] at hi2
        by_cases hieq : i = i2
        · subst hieq
          rw [get?_set_self _ _ _ hiL] at hx
          simp only [Option.getD_some] at hx
          rcases List.mem_singleton.mp hx with rfl
          exact mapGet_mapInsert_self _ _ _
        · rw [List.get?_set_ne _ _ hieq] at hx
          have h2 := w2 i2 (List.mem_range.mpr hi2) x hx
          have hxk : x ≠ k := by
            intro q
            rw [q, hk] at h2
            cases h2
          rw [mapGet_mapInsert_ne _ _ _ _ hxk]
          exact h2
      · intro b hb
        rcases List.mem_or_eq_of_mem_set hb with hb2 | hb2
        · exact w3 b hb2
        · rcases hb2 with rfl
          exact List.pairwise_singleton _ k
      · intro b hb x hx y hy hxp hyp
        rcases List.mem_or_eq_of_mem_set hb with hb2 | hb2
        · exact w4 b hb2 x hx y hy hxp hyp
        · rcases hb2 with rfl
          rcases List.mem_singleton.mp hx with rfl
          rcases List.mem_singleton.mp hy with rfl
          rfl
      · intro j hj
        have hjf : j ∈ s.freeList := by
          rw [hf]
          exact List.mem_cons_of_mem i hj
        obtain ⟨hjL, hje⟩ := w5 j hjf
        have hji : i ≠ j := by
          intro q
          rw [hf] at w6
          exact (List.nodup_cons.mp w6).1 (q ▸ hj)
        refine ⟨by rw [hsetlen]; exact hjL, ?_⟩
        rw [List.get?_set_ne _ _ hji]
        exact hje
      · rw [hf] at w6
        exact (List.nodup_cons.mp w6).2

theorem insert_found_self (s : GoffBuckets) (k : Goff) :
    (mapGet (s.insert k).1.indexMap k).isSome = true := by
  unfold GoffBuckets.insert
  cases hk : mapGet s.indexMap k with
  | some i =>
    simp only [hk]
    rfl
  | none =>
    simp only [hk]
    rw [makeNewBucket_indexMap]
    rw [mapGet_mapInsert_self]
    rfl

theorem insert_preserves_found (s : GoffBuckets) (k x : Goff)
    (h : (mapGet s.indexMap x).isSome = true) :
    (mapGet (s.insert k).1.indexMap x).isSome = true := by
  unfold GoffBuckets.insert
  cases hk : mapGet s.indexMap k with
  | some i =>
    simp only [hk]
    exact h
  | none =>
    simp only [hk]
    rw [makeNewBucket_indexMap]
    by_cases hxk : x = k
    · subst hxk
      rw [mapGet_mapInsert_self]
      rfl
    · rw [mapGet_mapInsert_ne _ _ _ _ hxk]
      exact h

theorem insert_some_spec (s : GoffBuckets) (k c : Goff) (hwf : s.WF)
    (h : (s.insert k).2 = some c) :
    (s.insert k).1 = s ∧ (mapGet s.indexMap c).isSome = true := by
  obtain ⟨w1, w2, w3, w4, w5, w6⟩ := hwf
  unfold GoffBuckets.insert at h ⊢
  cases hk : mapGet s.indexMap k with
  | none =>
    simp only [hk] at h
    cases h
  | some i =>
    simp only [hk] at h ⊢
    refine ⟨trivial, ?_⟩
    have hm := w1 (k, i) (mapGet_mem _ k i hk)
    cases hb : s.buckets.get? i with
    | none =>
      rw [hb] at hm
      cases hm
    | some b =>
      rw [hb] at hm
      simp only [Option.getD_some] at hm
      simp only [GoffBuckets.primaryFromIndex, hb] at h
      have hcb : c ∈ b := by
        unfold GoffBuckets.primaryFromBucket at h
        cases hl : b.getLast? with
        | none =>
          rw [hl] at h
          cases h
        | some l =>
          simp only [hl] at h
          split at h
          · cases h
            exact mem_of_getLast?_eq b _ hl
          · cases b with
            | nil => cases h
            | cons hh tt =>
              cases h
              exact List.mem_cons_self _ _
      have hlt : i < s.buckets.length := by
        obtain ⟨h2, _⟩ := List.get?_eq_some.mp hb
        exact h2
      have h3 := w2 i (List.mem_range.mpr hlt) c (by rw [hb]; exact hcb)
      rw [h3]
      rfl

theorem goffBuckets_merge_spec (s : GoffBuckets) (k1 k2 : Goff) (hwf : s.WF) :
    ((s.merge k1 k2).2.isSome = true ↔
      ((s.insert k1).2.getD k1 ≠ ((s.insert k1).1.insert k2).2.getD k2
       ∧ ((s.insert k1).2.getD k1).isPrim = true
       ∧ (((s.insert k1).1.insert k2).2.getD k2).isPrim = true))
    ∧ ((s.merge k1 k2).2.isSome = true →
      (s.merge k1 k2).1 = ((s.insert k1).1.insert k2).1) := by
  have hwf1 := insert_WF s k1 hwf
  have hF1 : (mapGet ((s.insert k1).1.insert k2).1.indexMap
      ((s.insert k1).2.getD k1)).isSome = true := by
    cases hc1 : (s.insert k1).2 with
    | none =>
      simp only [hc1, Option.getD_none]
      exact insert_preserves_found _ k2 k1 (insert_found_self s k1)
    | some c =>
      simp only [hc1, Option.getD_some]
      obtain ⟨hs1, hfound⟩ := insert_some_spec s k1 c hwf hc1
      refine insert_preserves_found _ k2 c ?_
      rw [hs1]
      exact hfound
  have hF2 : (mapGet ((s.insert k1).1.insert k2).1.indexMap
      (((s.insert k1).1.insert k2).2.getD k2)).isSome = true := by
    cases hc2 : ((s.insert k1).1.insert k2).2 with
    | none =>
      simp only [hc2, Option.getD_none]
      exact insert_found_self _ k2
    | some c =>
      simp only [hc2, Option.getD_some]
      obtain ⟨hs2, hfound⟩ := insert_some_spec _ k2 c hwf1 hc2
      rw [hs2]
      exact hfound
  obtain ⟨i1, hi1⟩ := Option.isSome_iff_exists.mp hF1
  obtain ⟨i2, hi2⟩ := Option.isSome_iff_exists.mp hF2
  simp only [GoffBuckets.merge]
  by_cases hpp : (s.insert k1).2.getD k1 = ((s.insert k1).1.insert k2).2.getD k2
  · rw [if_pos hpp]
    constructor
    · constructor
      · intro q
        simp at q
      · rintro ⟨hq, -, -⟩
        exact absurd hpp hq
    · intro q
      simp at q
  · rw [if_neg hpp]
    unfold pickBucketPrimaryKey
    rw [if_neg hpp]
    cases hp1 : ((s.insert k1).2.getD k1).isPrim with
    | true =>
      cases hp2 : (((s.insert k1).1.insert k2).2.getD k2).isPrim with
      | true =>
        constructor
        · constructor
          · intro _
            exact ⟨hpp, by simp [hp1], by simp [hp2]⟩
          · intro _
            rfl
        · intro _
          rfl
      | false =>
        simp only [hi2, hi1]
        constructor
        · constructor
          · intro q
            simp at q
          · intro hrhs
            simp [hp2] at hrhs
        · intro q
          simp at q
    | false =>
      cases hp2 : (((s.insert k1).1.insert k2).2.getD k2).isPrim with
      | true =>
        simp only [hi1, hi2]
        constructor
        · constructor
          · intro q
            simp at q
          · intro hrhs
            simp [hp1] at hrhs
        · intro q
          simp at q
      | false =>
        by_cases hlt : (s.insert k1).2.getD k1 < ((s.insert k1).1.insert k2).2.getD k2
        · rw [if_pos hlt]
          simp only [hi2, hi1]
          constructor
          · constructor
            · intro q
              simp at q
            · intro hrhs
              simp [hp1] at hrhs
          · intro q
            simp at q
        · rw [if_neg hlt]
          simp only [hi1, hi2]
          constructor
          · constructor
            · intro q
              simp at q
            · intro hrhs
              simp [hp1] at hrhs
          · intro q
            simp at q

/-- C1: under the bucket invariants, for every goff `k` indexed to a
bucket `b`, `primary` returns a canonical member `c` of `b` that is the
(unique) primitive identity if `b` holds one and the least member
otherwise; `primary_fallback` returns the same `c`, and `insert` of the
already-present `k` leaves the state unchanged and returns `c`.  `merge`
returns an error exactly when the two post-insert class primaries are
distinct primitive identities, and an error leaves the state exactly as
after the two inserts (no bucket is merged). -/
theorem goffBuckets_primary_canonical :
    (∀ (s : GoffBuckets) (k : Goff) (i : Nat) (b : List Goff),
      s.WF → mapGet s.indexMap k = some i → s.buckets.get? i = some b →
      ∃ c, s.primary k = some c ∧ c ∈ b
        ∧ (∀ p ∈ b, p.isPrim = true → c = p)
        ∧ ((∀ p ∈ b, p.isPrim = false) → ∀ x ∈ b, c ≤ x)
        ∧ s.primaryFallback k = c
        ∧ s.insert k = (s, some c))
    ∧ (∀ (s : GoffBuckets) (k1 k2 : Goff), s.WF →
      ((s.merge k1 k2).2.isSome = true ↔
        ((s.insert k1).2.getD k1 ≠ ((s.insert k1).1.insert k2).2.getD k2
         ∧ ((s.insert k1).2.getD k1).isPrim = true
         ∧ (((s.insert k1).1.insert k2).2.getD k2).isPrim = true))
      ∧ ((s.merge k1 k2).2.isSome = true →
        (s.merge k1 k2).1 = ((s.insert k1).1.insert k2).1)) := by
  constructor
  · intro s k i b hwf hk hb
    exact goffBuckets_primary_spec s k i b hwf hk hb
  · intro s k1 k2 hwf
    exact goffBuckets_merge_spec s k1 k2 hwf

/-- C1 (witness): the canonical-representative characterization at the
two-element bucket state of the Node scenario, and the merge error on two
distinct primitive identities. -/
theorem goffBuckets_primary_canonical_witness :
    c5Buckets.WF
    ∧ c5Buckets.primary nodeGb = some nodeGa
    ∧ c5Buckets.primaryFallback nodeGb = nodeGa
    ∧ c5Buckets.insert nodeGb = (c5Buckets, some nodeGa)
    ∧ (GoffBuckets.empty.merge (Goff.prim .i32) (Goff.prim .u32)).2.isSome = true
    ∧ (GoffBuckets.empty.merge (Goff.prim .i32) (Goff.prim .u32)).1 =
        ((GoffBuckets.empty.insert (Goff.prim .i32)).1.insert (Goff.prim .u32)).1 := by
  obtain ⟨c, hc1, -, -, -, hc5, hc6⟩ := goffBuckets_primary_canonical.1 c5Buckets nodeGb 0
    [nodeGa, nodeGb] (by decide) (by decide) (by decide)
  have hceq : c = nodeGa := by
    have hv : c5Buckets.primary nodeGb = some nodeGa := by decide
    rw [hv] at hc1
    cases hc1
    rfl
  subst hceq
  have hm := goffBuckets_primary_canonical.2 GoffBuckets.empty (Goff.prim .i32) (Goff.prim .u32) (by decide)
  have hsome := hm.1.mpr (by decide)
  exact ⟨by decide, hc1, hc5, hc6, hsome, hm.2 hsome⟩

/-! ## C2: dedupe idempotence -/

theorem empty_primaryFallback (k : Goff) : GoffBuckets.empty.primaryFallback k = k := rfl

mutual

theorem treeMapGoff_id (f : Goff → Goff) (hf : ∀ k, f k = k) :
    ∀ (t : Tree Goff), treeMapGoff f t = t
  | .base r => by rw [treeMapGoff, hf]
  | .array t len => by rw [treeMapGoff, treeMapGoff_id f hf t]
  | .ptr t => by rw [treeMapGoff, treeMapGoff_id f hf t]
  | .sub ts => by rw [treeMapGoff, treeListMapGoff_id f hf ts]
  | .ptmd b t => by rw [treeMapGoff, hf, treeMapGoff_id f hf t]
  | .ptmf b ts => by rw [treeMapGoff, hf, treeListMapGoff_id f hf ts]

theorem treeListMapGoff_id (f : Goff → Goff) (hf : ∀ k, f k = k) :
    ∀ (ts : List (Tree Goff)), treeMapGoffList f ts = ts
  | [] => by rw [treeMapGoffList]
  | t :: ts => by rw [treeMapGoffList, treeMapGoff_id f hf t, treeListMapGoff_id f hf ts]

end

theorem templateArg_mapGoff_id (f : Goff → Goff) (hf : ∀ k, f k = k)
    (a : TemplateArg Goff) : a.mapGoff f = a := by
  cases a with
  | type t => rw [TemplateArg.mapGoff, treeMapGoff_id f hf t]
  | const v => rfl
  | staticConst => rfl

theorem map_elem_id {α : Type} (g : α → α) : ∀ (l : List α), (∀ x ∈ l, g x = x) →
    l.map g = l
  | [], _ => rfl
  | x :: xs, h => by
    rw [List.map_cons, h x (List.mem_cons_self x xs),
      map_elem_id g xs (fun y hy => h y (List.mem_cons_of_mem x hy))]

theorem symbolInfo_mapGoff_id (f : Goff → Goff) (hf : ∀ k, f k = k) (s : SymbolInfo) :
    s.mapGoff f = s := by
  unfold SymbolInfo.mapGoff
  rw [treeMapGoff_id f hf s.ty,
    map_elem_id _ s.templateArgs (fun a _ => templateArg_mapGoff_id f hf a)]

theorem nameSeg_mapGoff_id (f : Goff → Goff) (hf : ∀ k, f k = k) (n : NameSeg) :
    n.mapGoff f = n := by
  cases n with
  | name s => rfl
  | type g s => rw [NameSeg.mapGoff, hf]
  | subprogram g s b => rw [NameSeg.mapGoff, hf]
  | anonymous => rfl

theorem namespace_mapGoff_id (f : Goff → Goff) (hf : ∀ k, f k = k) (n : Namespace) :
    n.mapGoff f = n := by
  unfold Namespace.mapGoff
  rw [map_elem_id _ n.segs (fun s _ => nameSeg_mapGoff_id f hf s)]

theorem namespacedName_mapGoff_id (f : Goff → Goff) (hf : ∀ k, f k = k)
    (n : NamespacedName) : n.mapGoff f = n := by
  unfold NamespacedName.mapGoff
  rw [namespace_mapGoff_id f hf n.ns]

theorem namespaceMaps_mapGoff_id (f : Goff → Goff) (hf : ∀ k, f k = k)
    (ns : NamespaceMaps) : NamespaceMaps.mapGoff f ns = ns := by
  unfold NamespaceMaps.mapGoff
  rw [map_elem_id _ ns.qualifiers (fun p _ => by rw [namespace_mapGoff_id f hf p.2]),
    map_elem_id _ ns.namespaces (fun p _ => by rw [namespace_mapGoff_id f hf p.2]),
    map_elem_id _ ns.bySrc (fun p _ => by rw [namespace_mapGoff_id f hf p.2])]

theorem member_mapGoff_id (f : Goff → Goff) (hf : ∀ k, f k = k) (m : Member) :
    m.mapGoff f = m := by
  unfold Member.mapGoff
  rw [treeMapGoff_id f hf m.ty]

theorem vtableEntry_mapGoff_id (f : Goff → Goff) (hf : ∀ k, f k = k) (v : VtableEntry) :
    v.mapGoff f = v := by
  unfold VtableEntry.mapGoff
  rw [map_elem_id _ v.functionTypes (fun t _ => treeMapGoff_id f hf t)]

theorem union_mapGoff_id (f : Goff → Goff) (hf : ∀ k, f k = k) (u : Union) :
    u.mapGoff f = u := by
  unfold Union.mapGoff
  rw [map_elem_id _ u.templateArgs (fun a _ => templateArg_mapGoff_id f hf a),
    map_elem_id _ u.members (fun m _ => member_mapGoff_id f hf m)]

theorem struct_mapGoff_id (f : Goff → Goff) (hf : ∀ k, f k = k) (s : Struct) :
    s.mapGoff f = s := by
  unfold Struct.mapGoff
  rw [map_elem_id _ s.templateArgs (fun a _ => templateArg_mapGoff_id f hf a),
    map_elem_id _ s.vtable (fun p _ => by rw [vtableEntry_mapGoff_id f hf p.2]),
    map_elem_id _ s.members (fun m _ => member_mapGoff_id f hf m)]

theorem option_map_name_id (f : Goff → Goff) (hf : ∀ k, f k = k)
    (o : Option NamespacedName) : o.map (NamespacedName.mapGoff f) = o := by
  cases o with
  | none => rfl
  | some n => rw [Option.map_some', namespacedName_mapGoff_id f hf n]

theorem ltypeDecl_mapGoff_id (f : Goff → Goff) (hf : ∀ k, f k = k) (d : LTypeDecl) :
    d.mapGoff f = d := by
  unfold LTypeDecl.mapGoff
  rw [namespace_mapGoff_id f hf d.enclosing, namespacedName_mapGoff_id f hf d.nameWithTpl]

theorem ltype_mapGoff_id (f : Goff → Goff) (hf : ∀ k, f k = k) (v : LType) :
    v.mapGoff f = v := by
  cases v
  · rfl
  · rename_i n t
    rw [LType.mapGoff, namespacedName_mapGoff_id f hf n, hf]
  · rename_i d
    rw [LType.mapGoff]
    unfold LTypeData.mapGoff
    rw [option_map_name_id f hf d.name]
    rfl
  · rename_i d
    rw [LType.mapGoff, ltypeDecl_mapGoff_id f hf d]
  · rename_i d
    rw [LType.mapGoff]
    unfold LTypeData.mapGoff
    rw [option_map_name_id f hf d.name, union_mapGoff_id f hf d.data]
  · rename_i d
    rw [LType.mapGoff, ltypeDecl_mapGoff_id f hf d]
  · rename_i d
    rw [LType.mapGoff]
    unfold LTypeData.mapGoff
    rw [option_map_name_id f hf d.name, struct_mapGoff_id f hf d.data]
  · rename_i d
    rw [LType.mapGoff, ltypeDecl_mapGoff_id f hf d]
  · rename_i t
    rw [LType.mapGoff, treeMapGoff_id f hf t]
  · rename_i g
    rw [LType.mapGoff, hf]

theorem mem_keys_mapInsert {κ α : Type} [LinearOrder κ] (m : List (κ × α)) (k : κ)
    (v : α) (x : κ) (hx : x ∈ mapKeys (mapInsert m k v)) : x = k ∨ x ∈ mapKeys m := by
  rw [mapKeys, List.mem_map] at hx
  obtain ⟨p, hp, rfl⟩ := hx
  rcases mem_mapInsert m k v p hp with rfl | hp2
  · exact Or.inl rfl
  · exact Or.inr (List.mem_map_of_mem _ hp2)

theorem pairwise_keys_mapInsert {α : Type} :
    ∀ (m : List (Goff × α)) (k : Goff) (v : α),
      (mapKeys m).Pairwise (· < ·) →
      (mapKeys (mapInsert m k v)).Pairwise (· < ·) := by
  intro m
  induction m with
  | nil =>
    intro k v _
    exact List.pairwise_singleton _ k
  | cons p rest ih =>
    intro k v hp
    obtain ⟨k2, v2⟩ := p
    simp only [mapKeys, List.map_cons] at hp
    rw [List.pairwise_cons] at hp
    rw [mapInsert]
    split
    · rename_i hlt
      simp only [mapKeys, List.map_cons]
      rw [List.pairwise_cons]
      constructor
      · intro y hy
        rcases List.mem_cons.mp hy with rfl | hy2
        · exact hlt
        · exact lt_trans hlt (hp.1 y hy2)
      · rw [List.pairwise_cons]
        exact hp
    · split
      · rename_i hnlt heq
        subst heq
        simp only [mapKeys, List.map_cons]
        rw [List.pairwise_cons]
        exact hp
      · rename_i hnlt hne
        have hgt : k2 < k := by
          rcases Nat.lt_trichotomy k k2 with h | h | h
          · exact absurd h hnlt
          · exact absurd h hne
          · exact h
        simp only [mapKeys, List.map_cons]
        rw [List.pairwise_cons]
        constructor
        · intro y hy
          rcases mem_keys_mapInsert rest k v y hy with rfl | hy2
          · exact hgt
          · exact hp.1 y hy2
        · exact ih k v hp.2

theorem dedupeBuild_sorted {T : Type} [DecidableEq T] (buckets : GoffBuckets)
    (mapper : T → GoffBuckets → Option T) (merger : T → T → Option T) :
    ∀ (l acc out : List (Goff × T)),
      (mapKeys acc).Pairwise (· < ·) →
      dedupeBuild buckets mapper merger l acc = some out →
      (mapKeys out).Pairwise (· < ·) := by
  intro l
  induction l with
  | nil =>
    intro acc out hacc h
    cases h
    exact hacc
  | cons q rest ih =>
    intro acc out hacc h
    obtain ⟨goff, t⟩ := q
    rw [dedupeBuild] at h
    split at h
    · cases h
    · split at h
      · exact ih _ out (pairwise_keys_mapInsert acc _ _ hacc) h
      · split at h
        · exact ih _ out hacc h
        · split at h
          · cases h
          · exact ih _ out (pairwise_keys_mapInsert acc _ _ hacc) h

theorem mapInsert_append_gt {α : Type} :
    ∀ (acc : List (Goff × α)) (k : Goff) (v : α),
      (∀ x ∈ mapKeys acc, x < k) →
      mapInsert acc k v = acc ++ [(k, v)] := by
  intro acc
  induction acc with
  | nil =>
    intro k v _
    rfl
  | cons p rest ih =>
    intro k v hlt
    obtain ⟨k2, v2⟩ := p
    have hk2 : k2 < k := hlt k2 (by simp [mapKeys])
    rw [mapInsert, if_neg (Nat.lt_asymm hk2), if_neg (Ne.symm (ne_of_lt hk2)),
      List.cons_append]
    rw [ih k v (fun x hx => hlt x (by simp [mapKeys] at hx ⊢; exact Or.inr hx))]

theorem dedupeBuild_id {T : Type} [DecidableEq T]
    (mapper : T → GoffBuckets → Option T) (merger : T → T → Option T)
    (hmap : ∀ t, mapper t GoffBuckets.empty = some t) :
    ∀ (l acc : List (Goff × T)),
      (mapKeys (acc ++ l)).Pairwise (· < ·) →
      dedupeBuild GoffBuckets.empty mapper merger l acc = some (acc ++ l) := by
  intro l
  induction l with
  | nil =>
    intro acc _
    rw [dedupeBuild, List.append_nil]
  | cons q rest ih =>
    intro acc hsort
    obtain ⟨goff, t⟩ := q
    rw [dedupeBuild]
    simp only [empty_primaryFallback, hmap]
    have hsortKeys : (mapKeys acc ++ goff :: mapKeys rest).Pairwise (· < ·) := by
      have hkeys : mapKeys (acc ++ (goff, t) :: rest) =
          mapKeys acc ++ goff :: mapKeys rest := by
        simp [mapKeys]
      rw [← hkeys]
      exact hsort
    have haccLt : ∀ x ∈ mapKeys acc, x < goff := by
      intro x hx
      exact (List.pairwise_append.mp hsortKeys).2.2 x hx goff (List.mem_cons_self _ _)
    have hnone : mapGet acc goff = none := by
      apply mapGet_eq_none_of_not_mem_keys
      intro q
      exact absurd (haccLt goff q) (lt_irrefl goff)
    rw [hnone]
    rw [mapInsert_append_gt acc goff t haccLt]
    have hs3 : (mapKeys ((acc ++ [(goff, t)]) ++ rest)).Pairwise (· < ·) := by
      rw [List.append_assoc, List.singleton_append]
      exact hsort
    have hres := ih (acc ++ [(goff, t)]) hs3
    rw [List.append_assoc, List.singleton_append] at hres
    exact hres

theorem pairMergeOne_sticky {T : Type} [DecidableEq T] (map : List (Goff × T)) (k : Goff) :
    ∀ (l : List Goff) (bks : GoffBuckets) (r : GoffBuckets × Bool),
      pairMergeOne map k l bks true = some r → r.2 = true := by
  intro l
  induction l with
  | nil =>
    intro bks r h
    cases h
    rfl
  | cons j rest ih =>
    intro bks r h
    rw [pairMergeOne] at h
    split at h
    · split at h
      · split at h
        · exact ih _ r h
        · cases h
      · exact ih _ r h
    · cases h

theorem pairMergeOne_pure {T : Type} [DecidableEq T] (map : List (Goff × T)) (k : Goff) :
    ∀ (l : List Goff) (bks bks2 : GoffBuckets),
      pairMergeOne map k l bks false = some (bks2, false) →
      bks2 = bks ∧ ∀ bks3, pairMergeOne map k l bks3 false = some (bks3, false) := by
  intro l
  induction l with
  | nil =>
    intro bks bks2 h
    cases h
    exact ⟨rfl, fun bks3 => rfl⟩
  | cons j rest ih =>
    intro bks bks2 h
    rw [pairMergeOne] at h
    split at h
    · rename_i t1 t2 ht1 ht2
      split at h
      · rename_i heq
        split at h
        · rename_i bksm hm
          have := pairMergeOne_sticky map k rest bksm (bks2, false) h
          cases this
        · cases h
      · rename_i hne
        obtain ⟨hbks, hall⟩ := ih bks bks2 h
        refine ⟨hbks, ?_⟩
        intro bks3
        rw [pairMergeOne]
        simp only [ht1, ht2]
        rw [if_neg hne]
        exact hall bks3
    · cases h

theorem pairMergeKeys_sticky {T : Type} [DecidableEq T] (map : List (Goff × T)) :
    ∀ (l : List Goff) (bks : GoffBuckets) (r : GoffBuckets × Bool),
      pairMergeKeys map l bks true = some r → r.2 = true := by
  intro l
  induction l with
  | nil =>
    intro bks r h
    cases h
    rfl
  | cons k rest ih =>
    intro bks r h
    rw [pairMergeKeys] at h
    split at h
    · cases h
    · rename_i bks2 hm2 hp
      have := pairMergeOne_sticky map k rest bks (bks2, hm2) hp
      simp only at this
      subst this
      exact ih bks2 r h

theorem pairMergeKeys_pure {T : Type} [DecidableEq T] (map : List (Goff × T)) :
    ∀ (l : List Goff) (bks bks2 : GoffBuckets),
      pairMergeKeys map l bks false = some (bks2, false) →
      bks2 = bks ∧ ∀ bks3, pairMergeKeys map l bks3 false = some (bks3, false) := by
  intro l
  induction l with
  | nil =>
    intro bks bks2 h
    cases h
    exact ⟨rfl, fun bks3 => rfl⟩
  | cons k rest ih =>
    intro bks bks2 h
    rw [pairMergeKeys] at h
    split at h
    · cases h
    · rename_i bksm hmm hp
      cases hmm with
      | true =>
        have := pairMergeKeys_sticky map rest bksm (bks2, false) h
        cases this
      | false =>
        obtain ⟨hbks, hallOne⟩ := pairMergeOne_pure map k rest bks bksm hp
        subst hbks
        obtain ⟨hbks2, hallKeys⟩ := ih bksm bks2 h
        refine ⟨hbks2, ?_⟩
        intro bks3
        rw [pairMergeKeys]
        rw [hallOne bks3]
        exact hallKeys bks3

theorem pairMergeGroups_sticky {T : Type} [DecidableEq T] (map : List (Goff × T)) :
    ∀ (l : List (Nat × List Goff)) (bks : GoffBuckets) (r : GoffBuckets × Bool),
      pairMergeGroups map l bks true = some r → r.2 = true := by
  intro l
  induction l with
  | nil =>
    intro bks r h
    cases h
    rfl
  | cons g rest ih =>
    intro bks r h
    rw [pairMergeGroups] at h
    split at h
    · cases h
    · rename_i bks2 hm2 hp
      have := pairMergeKeys_sticky map g.2 bks (bks2, hm2) hp
      simp only at this
      subst this
      exact ih bks2 r h

theorem pairMergeGroups_pure {T : Type} [DecidableEq T] (map : List (Goff × T)) :
    ∀ (l : List (Nat × List Goff)) (bks bks2 : GoffBuckets),
      pairMergeGroups map l bks false = some (bks2, false) →
      bks2 = bks ∧ ∀ bks3, pairMergeGroups map l bks3 false = some (bks3, false) := by
  intro l
  induction l with
  | nil =>
    intro bks bks2 h
    cases h
    exact ⟨rfl, fun bks3 => rfl⟩
  | cons g rest ih =>
    intro bks bks2 h
    rw [pairMergeGroups] at h
    split at h
    · cases h
    · rename_i bksm hmm hp
      cases hmm with
      | true =>
        have := pairMergeGroups_sticky map rest bksm (bks2, false) h
        cases this
      | false =>
        obtain ⟨hbks, hallKeys⟩ := pairMergeKeys_pure map g.2 bks bksm hp
        subst hbks
        obtain ⟨hbks2, hallGroups⟩ := ih bksm bks2 h
        refine ⟨hbks2, ?_⟩
        intro bks3
        rw [pairMergeGroups]
        rw [hallKeys bks3]
        exact hallGroups bks3

theorem mergingDedupe_success_tail {T : Type} [DecidableEq T] (hash : T → Nat)
    (mapper : T → GoffBuckets → Option T) (merger : T → T → Option T) :
    ∀ (fuel : Nat) (map : List (Goff × T)) (buckets : GoffBuckets)
      (symbols : List (String × SymbolInfo)) (ns : Option NamespaceMaps)
      (out : DedupeOut T),
      mergingDedupe hash mapper merger fuel map buckets symbols ns = some out →
      (mapKeys out.map).Pairwise (· < ·)
      ∧ (∀ bks3 : GoffBuckets,
          (if (groupByHash hash out.map []).isEmpty then some (bks3, false)
           else pairMergeGroups out.map (groupByHash hash out.map []) bks3 false) =
            some (bks3, false)) := by
  intro fuel
  induction fuel with
  | zero =>
    intro map buckets symbols ns out h
    cases h
  | succ fuel ih =>
    intro map buckets symbols ns out h
    rw [mergingDedupe] at h
    split at h
    · cases h
    · rename_i map2 hbuild
      split at h
      · cases h
      · rename_i buckets2 hasMerges heq
        split at h
        · exact ih map2 buckets2 symbols ns out h
        · rename_i hnm
          have hfalse : hasMerges = false := by
            cases hasMerges
            · rfl
            · exact absurd rfl hnm
          subst hfalse
          cases h
          constructor
          · exact dedupeBuild_sorted buckets mapper merger map [] map2
              List.Pairwise.nil hbuild
          · intro bks3
            split at heq
            · rename_i hemp
              rw [if_pos hemp]
            · rename_i hemp
              rw [if_neg hemp]
              obtain ⟨-, hall⟩ := pairMergeGroups_pure map2 _ buckets buckets2 heq
              exact hall bks3

/-- C2: `dedupe` is idempotent.  For every type map, bucket partition,
symbol table and namespace maps on which `dedupe` succeeds, and every
mapper that is the identity over the empty bucket partition (as the
`primary_fallback` mappers of the pipeline are), running `dedupe` again
on its own output with fresh buckets succeeds in one round and returns
the same type map, symbol table and namespace maps unchanged. -/
theorem dedupe_idempotent :
    ∀ (T : Type) (instT : DecidableEq T) (hash : T → Nat)
      (mapper : T → GoffBuckets → Option T) (fuel fuel2 : Nat)
      (map : List (Goff × T)) (buckets : GoffBuckets)
      (symbols : List (String × SymbolInfo)) (ns : Option NamespaceMaps)
      (out : DedupeOut T),
      (∀ t, mapper t GoffBuckets.empty = some t) →
      1 ≤ fuel2 →
      @dedupe T instT hash mapper fuel map buckets symbols ns = some out →
      @dedupe T instT hash mapper fuel2 out.map GoffBuckets.empty out.symbols out.ns =
        some ⟨out.map, out.symbols, out.ns⟩ := by
  intro T instT hash mapper fuel fuel2 map buckets symbols ns out hmapid hfuel2 h
  obtain ⟨fuel3, rfl⟩ : ∃ f, fuel2 = f + 1 := ⟨fuel2 - 1, by omega⟩
  obtain ⟨hsorted, htail⟩ := mergingDedupe_success_tail hash mapper _ fuel map buckets
    symbols ns out h
  unfold dedupe
  rw [mergingDedupe]
  have hbuild := dedupeBuild_id mapper (fun _ _ => none) hmapid out.map []
    (by simpa using hsorted)
  simp only [List.nil_append] at hbuild
  simp only [hbuild]
  simp only [htail GoffBuckets.empty]
  have hsym : out.symbols.map
      (fun p => (p.1, p.2.mapGoff GoffBuckets.empty.primaryFallback)) = out.symbols :=
    map_elem_id _ out.symbols
      (fun p _ => by rw [symbolInfo_mapGoff_id _ empty_primaryFallback p.2])
  have hns : out.ns.map (NamespaceMaps.mapGoff GoffBuckets.empty.primaryFallback) =
      out.ns := by
    cases hh : out.ns with
    | none => rfl
    | some v =>
      rw [Option.map_some', namespaceMaps_mapGoff_id _ empty_primaryFallback v]
  rw [hsym, hns]
  rw [if_neg Bool.false_ne_true]

/-- C2 (witness): the idempotence theorem applied to a one-entry map:
the first dedupe succeeds and the second returns its output unchanged. -/
theorem dedupe_idempotent_witness :
    (∀ t : LType, some (t.mapGoff GoffBuckets.empty.primaryFallback) = some t)
    ∧ dedupe (fun _ => 0) (fun t bks => some (t.mapGoff bks.primaryFallback)) 2
        c2Map GoffBuckets.empty [] none = some ⟨c2Map, [], none⟩
    ∧ dedupe (fun _ => 0) (fun t bks => some (t.mapGoff bks.primaryFallback)) 1
        c2Map GoffBuckets.empty [] none = some ⟨c2Map, [], none⟩ := by
  have hid : ∀ t : LType, some (t.mapGoff GoffBuckets.empty.primaryFallback) = some t :=
    fun t => by rw [ltype_mapGoff_id _ empty_primaryFallback t]
  have hfirst : dedupe (fun _ => 0) (fun t bks => some (t.mapGoff bks.primaryFallback)) 2
      c2Map GoffBuckets.empty [] none = some ⟨c2Map, [], none⟩ := by decide
  refine ⟨hid, hfirst, ?_⟩
  have happ := dedupe_idempotent LType inferInstance (fun _ => 0)
    (fun t bks => some (t.mapGoff bks.primaryFallback)) 2 1 c2Map GoffBuckets.empty []
    none ⟨c2Map, [], none⟩ hid (by decide) hfirst
  exact happ

/-! ## C3: typedef and alias cleaning -/

theorem resolveAlias_shape (types : List (Goff × LType)) :
    ∀ (fuel : Nat) (goff : Goff) (r : Goff × LType),
      resolveAlias types fuel goff = some r →
      (∀ g, r.2 ≠ .alias g) ∧ (∀ g, r.2 ≠ .tree (.base g)) := by
  intro fuel
  induction fuel with
  | zero =>
    intro goff r h
    cases h
  | succ fuel ih =>
    intro goff r h
    rw [resolveAlias] at h
    split at h
    · cases h
    · exact ih _ r h
    · exact ih _ r h
    · rename_i name inner
      split at h
      · cases h
      · rename_i resolved hres
        split at h
        · rename_i it ip
          split at h
          · cases h
            exact ih _ _ hres
          · split at h
            · cases h
              exact ⟨(fun g q => by cases q), (fun g q => by cases q)⟩
            · cases h
              exact ⟨(fun g q => by cases q), (fun g q => by cases q)⟩
        · cases h
    · rename_i other hother h1 h2 h3 h4
      cases h
      constructor
      · intro g q
        exact h1 g q
      · intro g q
        exact h2 g q

theorem ltypeClean_mapGoff (f : Goff → Goff) (v : LType) (h : ltypeClean v) :
    ltypeClean (v.mapGoff f) := by
  obtain ⟨h1, h2⟩ := h
  cases v
  · exact ⟨(fun g q => by cases q), (fun g q => by cases q)⟩
  · exact ⟨(fun g q => by cases q), (fun g q => by cases q)⟩
  · exact ⟨(fun g q => by cases q), (fun g q => by cases q)⟩
  · exact ⟨(fun g q => by cases q), (fun g q => by cases q)⟩
  · exact ⟨(fun g q => by cases q), (fun g q => by cases q)⟩
  · exact ⟨(fun g q => by cases q), (fun g q => by cases q)⟩
  · exact ⟨(fun g q => by cases q), (fun g q => by cases q)⟩
  · exact ⟨(fun g q => by cases q), (fun g q => by cases q)⟩
  · rename_i t
    cases t with
    | base g => exact absurd rfl (h2 g)
    | array t n => exact ⟨(fun g q => by cases q), (fun g q => by cases q)⟩
    | ptr t => exact ⟨(fun g q => by cases q), (fun g q => by cases q)⟩
    | sub l => exact ⟨(fun g q => by cases q), (fun g q => by cases q)⟩
    | ptmd a b => exact ⟨(fun g q => by cases q), (fun g q => by cases q)⟩
    | ptmf a b => exact ⟨(fun g q => by cases q), (fun g q => by cases q)⟩
  · rename_i g
    exact absurd rfl (h1 g)

theorem dedupeBuild_values {T : Type} [DecidableEq T] (buckets : GoffBuckets)
    (mapper : T → GoffBuckets → Option T) (merger : T → T → Option T)
    (P : T → Prop)
    (hmap : ∀ t t2, P t → mapper t buckets = some t2 → P t2)
    (hmerge : ∀ a b m, merger a b = some m → P m) :
    ∀ (l acc out : List (Goff × T)),
      (∀ p ∈ l, P p.2) →
      (∀ p ∈ acc, P p.2) →
      dedupeBuild buckets mapper merger l acc = some out →
      ∀ p ∈ out, P p.2 := by
  intro l
  induction l with
  | nil =>
    intro acc out _ hacc h
    cases h
    exact hacc
  | cons q rest ih =>
    intro acc out hl hacc h
    obtain ⟨goff, t⟩ := q
    rw [dedupeBuild] at h
    split at h
    · cases h
    · rename_i t2 ht2
      have hpt2 : P t2 := hmap t t2 (hl (goff, t) (List.mem_cons_self _ _)) ht2
      split at h
      · refine ih _ out (fun p hp => hl p (List.mem_cons_of_mem _ hp)) ?_ h
        intro p hp
        rcases mem_mapInsert _ _ _ p hp with rfl | hp2
        · exact hpt2
        · exact hacc p hp2
      · split at h
        · exact ih _ out (fun p hp => hl p (List.mem_cons_of_mem _ hp)) hacc h
        · split at h
          · cases h
          · rename_i merged hmerged
            refine ih _ out (fun p hp => hl p (List.mem_cons_of_mem _ hp)) ?_ h
            intro p hp
            rcases mem_mapInsert _ _ _ p hp with rfl | hp2
            · exact hmerge _ _ merged hmerged
            · exact hacc p hp2

theorem mergingDedupe_values {T : Type} [DecidableEq T] (hash : T → Nat)
    (mapper : T → GoffBuckets → Option T) (merger : T → T → Option T)
    (P : T → Prop)
    (hmap : ∀ t t2 bks, P t → mapper t bks = some t2 → P t2)
    (hmerge : ∀ a b m, merger a b = some m → P m) :
    ∀ (fuel : Nat) (map : List (Goff × T)) (buckets : GoffBuckets)
      (symbols : List (String × SymbolInfo)) (ns : Option NamespaceMaps)
      (out : DedupeOut T),
      (∀ p ∈ map, P p.2) →
      mergingDedupe hash mapper merger fuel map buckets symbols ns = some out →
      ∀ p ∈ out.map, P p.2 := by
  intro fuel
  induction fuel with
  | zero =>
    intro map buckets symbols ns out _ h
    cases h
  | succ fuel ih =>
    intro map buckets symbols ns out hmapv h
    rw [mergingDedupe] at h
    split at h
    · cases h
    · rename_i map2 hmap2
      have hm2 := dedupeBuild_values buckets mapper merger P
        (fun t t2 => hmap t t2 buckets) hmerge map [] map2 hmapv
        (fun p hp => absurd hp (List.not_mem_nil p)) hmap2
      split at h
      · cases h
      · rename_i buckets2 hasMerges _
        split at h
        · exact ih map2 buckets2 symbols ns out hm2 h
        · cases h
          exact hm2

theorem cleanStep_values (types : List (Goff × LType)) :
    ∀ (l : List (Goff × LType)) (buckets : GoffBuckets) (newMap : List (Goff × LType))
      (out : GoffBuckets × List (Goff × LType)),
      (∀ p ∈ newMap, ltypeClean p.2) →
      cleanStep types l buckets newMap = some out →
      ∀ p ∈ out.2, ltypeClean p.2 := by
  intro l
  induction l with
  | nil =>
    intro buckets newMap out hnm h
    cases h
    exact hnm
  | cons q rest ih =>
    intro buckets newMap out hnm h
    obtain ⟨k1, v1⟩ := q
    rw [cleanStep] at h
    split at h
    · cases h
    · rename_i k2 data hres
      split at h
      · cases h
      · refine ih _ _ out ?_ h
        intro p hp
        rcases mem_mapInsert _ _ _ p hp with rfl | hp2
        · exact (resolveAlias_shape types 1001 k1 (k2, data) hres)
        · exact hnm p hp2

theorem cleanTypedefsRun_clean (hash : LType → Nat) (dedupeFuel : Nat)
    (types : List (Goff × LType)) (symbols : List (String × SymbolInfo))
    (ns : NamespaceMaps) (out : DedupeOut LType)
    (h : cleanTypedefsRun hash dedupeFuel types symbols ns = some out) :
    ∀ p ∈ out.map, ltypeClean p.2 := by
  rw [cleanTypedefsRun] at h
  split at h
  · cases h
  · rename_i buckets newMap hstep
    have hnm := cleanStep_values types types GoffBuckets.empty [] (buckets, newMap)
      (fun p hp => absurd hp (List.not_mem_nil p)) hstep
    exact mergingDedupe_values hash _ _ ltypeClean
      (fun t t2 bks ht hm => by
        cases hm
        exact ltypeClean_mapGoff _ t ht)
      (fun a b m hm => by cases hm)
      dedupeFuel newMap buckets symbols (some ns) out hnm h

theorem resolveAlias_typedef (types : List (Goff × LType)) (fuel : Nat) (goff : Goff)
    (name : NamespacedName) (inner : Goff) (r : Goff × LType)
    (hty : mapGet types goff = some (.typedef name inner))
    (h : resolveAlias types (fuel + 1) goff = some r) :
    ∃ resolved it ip, resolveAlias types fuel inner = some resolved
      ∧ isTreeG types fuel inner = some it
      ∧ isPrimitiveG types fuel inner = some ip
      ∧ r = (if it || ip then resolved else (goff, .typedef name resolved.1)) := by
  rw [resolveAlias] at h
  simp only [hty] at h
  split at h
  · cases h
  · rename_i resolved hres
    split at h
    · rename_i it ip hit hip
      refine ⟨resolved, it, ip, hres, hit, hip, ?_⟩
      split at h
      · rename_i hcond
        rw [if_pos hcond]
        cases h
        rfl
      · rename_i hcond
        rw [if_neg hcond]
        split at h
        · cases h
          rfl
        · rename_i hinner
          cases h
          have : inner = resolved.1 := by
            by_contra q
            exact hinner q
          rw [this]
    · cases h

/-- C3: a successful typedef-cleaning run leaves no `Alias` and no
root-`Tree::Base` value in the type map; `resolve_alias` on a `Typedef`
collapses it into the resolved target (dropping the name) exactly when
the target transitively resolves to a composite tree or a primitive, and
otherwise keeps `Typedef{name, resolved-target}`; and the concrete
`typedef int (*Fn)(int, int)` scenario cleans to the single L-type
`Tree(Ptr(Sub([I32, I32, I32])))` with the typedef name gone. -/
theorem clean_typedefs_invariant :
    (∀ (hash : LType → Nat) (dedupeFuel : Nat) (types : List (Goff × LType))
       (symbols : List (String × SymbolInfo)) (ns : NamespaceMaps) (out : DedupeOut LType),
       cleanTypedefsRun hash dedupeFuel types symbols ns = some out →
       ∀ p ∈ out.map, ltypeClean p.2)
    ∧ (∀ (types : List (Goff × LType)) (fuel : Nat) (goff : Goff)
         (name : NamespacedName) (inner : Goff) (r : Goff × LType),
         mapGet types goff = some (.typedef name inner) →
         resolveAlias types (fuel + 1) goff = some r →
         ∃ resolved it ip, resolveAlias types fuel inner = some resolved
           ∧ isTreeG types fuel inner = some it
           ∧ isPrimitiveG types fuel inner = some ip
           ∧ r = (if it || ip then resolved else (goff, .typedef name resolved.1)))
    ∧ cleanTypedefsRun (fun _ => 0) 5 c3Types [] ⟨[], [], []⟩ = some c3Out := by
  refine ⟨?_, ?_, by decide⟩
  · intro hash dedupeFuel types symbols ns out h
    exact cleanTypedefsRun_clean hash dedupeFuel types symbols ns out h
  · intro types fuel goff name inner r hty h
    exact resolveAlias_typedef types fuel goff name inner r hty h

/-- C3 (witness): the cleanliness invariant applied to the cleaned
function-pointer scenario, and the concrete typedef collapse. -/
theorem clean_typedefs_invariant_witness :
    (∀ p ∈ c3Out.map, ltypeClean p.2)
    ∧ resolveAlias c3Types 1001 c3Gtd = some (c3Gptr, .tree c3FnTree) := by
  constructor
  · exact clean_typedefs_invariant.1 (fun _ => 0) 5 c3Types [] ⟨[], [], []⟩ c3Out (by decide)
  · have hres : resolveAlias c3Types 1001 c3Gtd = some (c3Gptr, .tree c3FnTree) := by
      decide
    obtain ⟨resolved, it, ip, h1, h2, h3, h4⟩ := clean_typedefs_invariant.2.1 c3Types 1000 c3Gtd
      c3FnName c3Gptr (c3Gptr, .tree c3FnTree) (by decide) hres
    exact hres

/-! ## C9: enum size resolution -/

theorem getSize_marked_fail (types : List (Goff × LType)) (fuel : Nat)
    (sizes : List (Goff × Nat)) (goff : Goff)
    (h : mapGet sizes goff = some RESOLVING) :
    getSize types (fuel + 1) sizes goff = .fail "failed to resolve size: infinite sized type" := by
  rw [getSize]
  simp only [h]
  simp

theorem getSize_cycle_aux (types : List (Goff × LType)) :
    ∀ (chain : List Goff) (g : Goff) (sizes : List (Goff × Nat)) (fuel : Nat) (gT : Goff),
      chain.length + 2 ≤ fuel →
      List.Chain' (sizeStep types) (g :: chain) →
      sizeStep types ((g :: chain).getLast (List.cons_ne_nil g chain)) gT →
      (mapGet sizes gT = some RESOLVING ∨ gT = g) →
      (∀ x ∈ g :: chain, mapGet sizes x = none) →
      (g :: chain).Nodup →
      ∃ e, getSize types fuel sizes g = .fail e := by
  intro chain
  induction chain with
  | nil =>
    intro g sizes fuel gT hfuel _ hlast hT hnone _
    obtain ⟨fuel1, rfl⟩ : ∃ f, fuel = f + 1 := ⟨fuel - 1, by omega⟩
    obtain ⟨fuel2, rfl⟩ : ∃ f, fuel1 = f + 1 := ⟨fuel1 - 1, by omega⟩
    have hlg : ([g].getLast (List.cons_ne_nil g [])) = g := rfl
    rw [hlg] at hlast
    have hg : mapGet sizes g = none := hnone g (List.mem_cons_self _ _)
    have hmarked : mapGet (mapInsert sizes g RESOLVING) gT = some RESOLVING := by
      rcases hT with hT | rfl
      · have hne : gT ≠ g := by
          intro q
          rw [q, hg] at hT
          cases hT
        rw [mapGet_mapInsert_ne _ _ _ _ hne]
        exact hT
      · exact mapGet_mapInsert_self _ _ _
    have hinner := getSize_marked_fail types fuel2 (mapInsert sizes g RESOLVING) gT hmarked
    rcases hlast with ⟨n, hty⟩ | hty | ⟨d, hty, hbase⟩
    · refine ⟨"failed to resolve size: infinite sized type", ?_⟩
      rw [getSize]
      simp only [hg, hty, hinner]
    · refine ⟨"failed to resolve size: infinite sized type", ?_⟩
      rw [getSize]
      simp only [hg, hty, hinner]
    · refine ⟨"failed to resolve size: infinite sized type", ?_⟩
      rw [getSize]
      simp only [hg, hty, hbase, hinner]
  | cons g1 rest ih =>
    intro g sizes fuel gT hfuel hchain hlast hT hnone hnd
    obtain ⟨fuel1, rfl⟩ : ∃ f, fuel = f + 1 := ⟨fuel - 1, by omega⟩
    have hg : mapGet sizes g = none := hnone g (List.mem_cons_self _ _)
    rw [List.chain'_cons] at hchain
    have hlast2 : sizeStep types ((g1 :: rest).getLast (List.cons_ne_nil g1 rest)) gT := by
      rw [List.getLast_cons (List.cons_ne_nil g1 rest)] at hlast
      exact hlast
    have hgng : g ∉ g1 :: rest := (List.nodup_cons.mp hnd).1
    have hT2 : mapGet (mapInsert sizes g RESOLVING) gT = some RESOLVING ∨ gT = g1 := by
      rcases hT with hT | rfl
      · left
        have hne : gT ≠ g := by
          intro q
          rw [q, hg] at hT
          cases hT
        rw [mapGet_mapInsert_ne _ _ _ _ hne]
        exact hT
      · left
        exact mapGet_mapInsert_self _ _ _
    have hnone2 : ∀ x ∈ g1 :: rest, mapGet (mapInsert sizes g RESOLVING) x = none := by
      intro x hx
      have hxg : x ≠ g := by
        intro q
        exact hgng (q ▸ hx)
      rw [mapGet_mapInsert_ne _ _ _ _ hxg]
      exact hnone x (List.mem_cons_of_mem g hx)
    have hnd2 : (g1 :: rest).Nodup := (List.nodup_cons.mp hnd).2
    obtain ⟨e, hinner⟩ := ih g1 (mapInsert sizes g RESOLVING) fuel1 gT
      (by simp at hfuel ⊢; omega) hchain.2 hlast2 hT2 hnone2 hnd2
    rcases hchain.1 with ⟨n, hty⟩ | hty | ⟨d, hty, hbase⟩
    · refine ⟨e, ?_⟩
      rw [getSize]
      simp only [hg, hty, hinner]
    · refine ⟨e, ?_⟩
      rw [getSize]
      simp only [hg, hty, hinner]
    · refine ⟨e, ?_⟩
      rw [getSize]
      simp only [hg, hty, hbase, hinner]

theorem getSize_enum_base_eq (types : List (Goff × LType)) (fuel : Nat)
    (sizes : List (Goff × Nat)) (goff : Goff) (d : LTypeData EnumUndeterminedSize)
    (inner : Goff)
    (hm : mapGet sizes goff = none)
    (hty : mapGet types goff = some (.enum d))
    (hbase : d.data.byteSizeOrBase = .error inner) :
    getSize types (fuel + 1) sizes goff =
      (match getSize types fuel (mapInsert sizes goff RESOLVING) inner with
       | .ok size sizes2 =>
         if size = 0 then .fail "unexpected zero-sized enum"
         else if size = UNSIZED then .fail "unexpected unsized enum"
         else finishSize goff size sizes2
       | e => e) := by
  rw [getSize]
  simp only [hm, hty, hbase]

theorem getSize_enum_checks (types : List (Goff × LType)) (fuel : Nat)
    (sizes sizes2 : List (Goff × Nat)) (goff : Goff) (d : LTypeData EnumUndeterminedSize)
    (size : Nat)
    (hm : mapGet sizes goff = none)
    (hty : mapGet types goff = some (.enum d))
    (h : getSize types (fuel + 1) sizes goff = .ok size sizes2) :
    size ≠ 0 ∧ size ≠ UNSIZED := by
  rw [getSize] at h
  simp only [hm, hty] at h
  split at h
  · rename_i s hs
    split at h
    · cases h
    · split at h
      · cases h
      · rename_i h0 hU
        unfold finishSize at h
        split at h
        · cases h
        · cases h
          exact ⟨h0, hU⟩
  · rename_i inner hinner
    split at h
    · rename_i s szs hrec
      split at h
      · cases h
      · split at h
        · cases h
        · rename_i h0 hU
          unfold finishSize at h
          split at h
          · cases h
          · cases h
            exact ⟨h0, hU⟩
    · rename_i hne
      exact absurd h (hne _ _)

/-- C9: the size resolver marks every recursing entry with the
`RESOLVING` sentinel before recursing (shown by the unfolding of the
enum base-reference branch), so any cyclic chain of typedef, alias and
enum base-reference steps terminates in the infinite-size error within
fuel linear in the cycle length; and a resolution of an enum that
returns a size returns one that is neither zero nor the `UNSIZED`
sentinel.  The concrete enum → typedef → alias → enum cycle fails with
the infinite-size error, and the enum over `i32` resolves to 4. -/
theorem enum_size_resolution_cycles_and_checks :
    (∀ (types : List (Goff × LType)) (p : List Goff) (g0 : Goff)
       (sizes : List (Goff × Nat)) (fuel : Nat),
       p.length + 2 ≤ fuel →
       List.Chain' (sizeStep types) (g0 :: p) →
       sizeStep types ((g0 :: p).getLast (List.cons_ne_nil g0 p)) g0 →
       (∀ x ∈ g0 :: p, mapGet sizes x = none) →
       (g0 :: p).Nodup →
       ∃ e, getSize types fuel sizes g0 = .fail e)
    ∧ (∀ (types : List (Goff × LType)) (fuel : Nat) (sizes : List (Goff × Nat))
         (goff : Goff) (d : LTypeData EnumUndeterminedSize) (inner : Goff),
         mapGet sizes goff = none →
         mapGet types goff = some (.enum d) →
         d.data.byteSizeOrBase = .error inner →
         getSize types (fuel + 1) sizes goff =
           (match getSize types fuel (mapInsert sizes goff RESOLVING) inner with
            | .ok size sizes2 =>
              if size = 0 then .fail "unexpected zero-sized enum"
              else if size = UNSIZED then .fail "unexpected unsized enum"
              else finishSize goff size sizes2
            | e => e))
    ∧ (∀ (types : List (Goff × LType)) (fuel : Nat) (sizes sizes2 : List (Goff × Nat))
         (goff : Goff) (d : LTypeData EnumUndeterminedSize) (size : Nat),
         mapGet sizes goff = none →
         mapGet types goff = some (.enum d) →
         getSize types (fuel + 1) sizes goff = .ok size sizes2 →
         size ≠ 0 ∧ size ≠ UNSIZED)
    ∧ getSize c9Types 10 (initialSizes c9Cfg) c9GE =
        .fail "failed to resolve size: infinite sized type"
    ∧ getSize c9OkTypes 10 (initialSizes c9Cfg) c9GE2 =
        .ok 4 (mapInsert (mapInsert (initialSizes c9Cfg) c9GE2 RESOLVING) c9GE2 4) := by
  refine ⟨?_, ?_, ?_, by decide, by decide⟩
  · intro types p g0 sizes fuel hfuel hchain hlast hnone hnd
    exact getSize_cycle_aux types p g0 sizes fuel g0 hfuel hchain hlast (Or.inr rfl)
      hnone hnd
  · intro types fuel sizes goff d inner hm hty hbase
    exact getSize_enum_base_eq types fuel sizes goff d inner hm hty hbase
  · intro types fuel sizes sizes2 goff d size hm hty h
    exact getSize_enum_checks types fuel sizes sizes2 goff d size hm hty h

/-- C9 (witness): the cycle theorem applied to the concrete three-node
cycle, and the zero/unsized check at the resolved `i32` enum. -/
theorem enum_size_resolution_cycles_and_checks_witness :
    (∃ e, getSize c9Types 10 (initialSizes c9Cfg) c9GE = .fail e)
    ∧ ((4 : Nat) ≠ 0 ∧ (4 : Nat) ≠ UNSIZED) := by
  constructor
  · refine enum_size_resolution_cycles_and_checks.1 c9Types [c9GT, c9GA] c9GE (initialSizes c9Cfg) 10
      (by decide) ?_ ?_ (by decide) (by decide)
    · refine List.chain'_cons.mpr ⟨Or.inr (Or.inr ⟨c9EnumD, rfl, rfl⟩), ?_⟩
      refine List.chain'_cons.mpr ⟨Or.inl ⟨⟨⟨[]⟩, "T"⟩, rfl⟩, ?_⟩
      exact List.chain'_singleton c9GA
    · exact Or.inr (Or.inl rfl)
  · exact enum_size_resolution_cycles_and_checks.2.2.1 c9OkTypes 9 (initialSizes c9Cfg)
      (mapInsert (mapInsert (initialSizes c9Cfg) c9GE2 RESOLVING) c9GE2 4)
      c9GE2 c9EnumOkD 4 (by decide) (by decide) (by decide)

/-! ## C4: tree flattening -/

/-- C4 (refuting evaluation): the claim states that flattening a `Sub`
node flattens its entries pointwise, preserving the number and order of
entries.  On the subroutine tree `Sub([Base(0x10), Base(i32)])`, where
`0x10` names the composite tree `Ptr(Base(i32))` (so the first entry is
inlined) and the second entry is an unchanged primitive reference, the
source's accumulation loop never pushes the unchanged second entry once a
change has been seen: the result has one entry instead of two.  The
matching loop in tyyaml's `to_replaced_impl_vec` handles exactly this
case by pushing the unchanged entry, showing the flattening loop dropped
it by mistake. -/
theorem flatten_sub_drops_unchanged_entry :
    flattenByTreeF c4Types 1001 (.sub [.base 0x10, .base (Goff.prim .i32)]) =
      some (some (.sub [.ptr (.base (Goff.prim .i32))])) := by
  decide

/-! ## C5: the Node merge scenario -/

/-- C5: on a catalog of two structurally identical self-referential
`Node` structs sharing a fully-qualified name, the merge task's only
dependency pair reduces to the merge pair itself and is discharged at
`add_dep` (the task is built with no deps); the scheduler then executes
the merge: both identities end in one bucket with canonical `nodeGa`, and
the final dedupe leaves exactly one `Node` type whose member type is
`Ptr(Base(Node))` of the canonical identity.  The result holds for every
hash function. -/
theorem node_merge_cycle_scenario :
    MType.addMergeDeps nodeStructA nodeStructB (MergeTask.new nodeGa nodeGb) =
      some (MergeTask.new nodeGa nodeGb)
    ∧ schedulerLoop 5 [c5Task] c5Types GoffBuckets.empty =
        some ([(nodeGa, nodeStructA), (nodeGb, nodeStructA)], c5Buckets, [])
    ∧ c5Buckets.primary nodeGa = some nodeGa
    ∧ c5Buckets.primary nodeGb = some nodeGa
    ∧ ∀ hash : MType → Nat,
        processMergesFromTasks hash 5 5 5 c5Types [] [c5Task] =
          some ⟨[(nodeGa, nodeStructA)], [], none⟩ := by
  refine ⟨by decide, by decide, by decide, by decide, fun hash => rfl⟩

/-! ## C6: single-member union elimination -/

/-- C6 (counterexample): the claim states that for every union with
exactly one member the catalog after the optimizer contains no type equal
to that union, and that the union's names propagate onto the surviving
member type with derived-of edges.  The self-referential single-member
union `U { U* p; }` is marked non-eliminateable and its member type is a
composite tree, so `Eliminations::insert` silently skips it: the
optimizer reaches its fixpoint with the union still in the catalog,
unchanged, and the name graph untouched. -/
theorem single_member_union_not_total_cex :
    (∀ hash : HType → Nat, optimizeRun hash 5 5 c6Stage = some c6Stage)
    ∧ mapGet c6Stage.types c6Gu = some c6UnionU
    ∧ c6Stage.nameGraph = NameGraph.empty := by
  refine ⟨fun hash => rfl, by decide, rfl⟩

/-- C6 (amended): for every catalog with distinct identities holding a
union with exactly one member at identity `k`, a successful run of the
union optimizer records the elimination of `k` by the member's type tree
exactly when that tree is a `Base` node or `k` is not marked
non-eliminateable (a non-eliminateable union with a composite member tree
is silently skipped and survives); and whenever the member is a `Base`
reference to a catalog type carrying fully-qualified names, every
(union name, member-type name) pair is recorded as a derived-of edge and
a change adding the union's names to the member type is queued. -/
theorem optimize_union_single_member_amended :
    ∀ (types : List (Goff × HType)) (nonElim : List Goff) (k : Goff)
      (d : HTypeData Union) (m : Member) (out : OptimizeOutput),
      (mapKeys types).Nodup →
      (k, HType.union d) ∈ types →
      d.data.members = [m] →
      optimizeUnionStep types nonElim = some out →
      (mapGet out.eliminations k =
        if m.ty.isBaseNode || !(nonElim.contains k) then some m.ty else none)
      ∧ (∀ (memberGoff : Goff) (memberT : HType) (memberFqnames : List FullQualName),
          m.ty = .base memberGoff →
          mapGet types memberGoff = some memberT →
          memberT.fqnames = some memberFqnames →
          (∀ derived ∈ d.fqnames, ∀ base ∈ memberFqnames,
            (derived, base) ∈ out.addIsDerivedNames)
          ∧ (mapGet out.changes memberGoff).isSome = true) := by
  intro types nonElim k d m out hnd hmem hm h
  obtain ⟨l1, l2, rfl⟩ := List.append_of_mem hmem
  have hkeys : k ∉ mapKeys l1 ∧ k ∉ mapKeys l2 := by
    simp only [mapKeys, List.map_append, List.map_cons] at hnd
    obtain ⟨h1, h2, hdisj⟩ := List.nodup_append.mp hnd
    exact ⟨fun hq => hdisj hq (List.mem_cons_self _ _), (List.nodup_cons.mp h2).1⟩
  rw [optimizeUnionStep, List.foldlM_append] at h
  simp only [List.foldlM_cons] at h
  cases h1 : l1.foldlM
      (optimizeUnionEntry (l1 ++ (k, HType.union d) :: l2) nonElim)
      OptimizeOutput.emptyOut with
  | none => rw [h1] at h; cases h
  | some out1 =>
    rw [h1] at h
    simp only [Option.bind_eq_bind, Option.some_bind] at h
    cases h2 : optimizeUnionEntry (l1 ++ (k, HType.union d) :: l2) nonElim out1
        (k, HType.union d) with
    | none => rw [h2] at h; cases h
    | some out12 =>
      rw [h2] at h
      simp only [Option.some_bind] at h
      have hne1 : ∀ p ∈ l1, p.1 ≠ k := by
        intro p hp hq
        exact hkeys.1 (hq ▸ mem_mapKeys_of_mem p l1 hp)
      have hne2 : ∀ p ∈ l2, p.1 ≠ k := by
        intro p hp hq
        exact hkeys.2 (hq ▸ mem_mapKeys_of_mem p l2 hp)
      have e0 : mapGet out1.eliminations k = none := by
        rw [optimizeUnionEntry_fold_elim_other _ nonElim k l1 _ out1 hne1 h1]
        rfl
      have e12 := optimizeUnionEntry_elim_own _ nonElim out1 k d m out12 hm h2 e0
      have efin := optimizeUnionEntry_fold_elim_other _ nonElim k l2 out12 out hne2 h
      constructor
      · rw [efin, e12]
      · intro memberGoff memberT memberFqnames hty hmg hfq
        have hown := optimizeUnionEntry_base_named _ nonElim out1 k d m out12
          memberGoff memberT memberFqnames hm hty hmg hfq h2
        constructor
        · intro derived hderived base hbase
          exact optimizeUnionEntry_fold_derived_mono _ nonElim (derived, base) l2
            out12 out h (hown.1 derived hderived base hbase)
        · exact optimizeUnionEntry_fold_changes_mono _ nonElim memberGoff l2
            out12 out h hown.2

/-- C6 (witness): the amended characterization applied to a concrete
catalog of a single-member union wrapping a named struct: the elimination
is recorded, the derived-of pair is present, and the name-propagating
change is queued. -/
theorem optimize_union_single_member_amended_witness :
    (mapKeys c6bTypes).Nodup
    ∧ (c6bGu, HType.union c6bDU) ∈ c6bTypes
    ∧ c6bDU.data.members = [c6bMember]
    ∧ optimizeUnionStep c6bTypes [] = some c6bOut
    ∧ mapGet c6bOut.eliminations c6bGu = some c6bMember.ty
    ∧ (c6bFqU, c6bFqS) ∈ c6bOut.addIsDerivedNames
    ∧ (mapGet c6bOut.changes c6bGs).isSome = true := by
  have h := optimize_union_single_member_amended c6bTypes [] c6bGu c6bDU c6bMember c6bOut
    (by decide) (by decide) rfl rfl
  refine ⟨by decide, by decide, rfl, rfl, ?_, ?_, ?_⟩
  · have h1 := h.1
    simpa using h1
  · exact (h.2 c6bGs (HType.struct c6bDS) [c6bFqS] rfl rfl rfl).1 c6bFqU (by decide)
      c6bFqS (by decide)
  · exact (h.2 c6bGs (HType.struct c6bDS) [c6bFqS] rfl rfl rfl).2


/-! ## C7: struct member sorting and the empty-base optimization -/

theorem mem_stableInsertByKey {α : Type} (key : α → Nat) (l : List α) (m x : α) :
    x ∈ stableInsertByKey key l m ↔ x = m ∨ x ∈ l := by
  induction l with
  | nil => simp [stableInsertByKey]
  | cons h t ih =>
    simp only [stableInsertByKey]
    split
    · simp only [List.mem_cons]
    · simp only [List.mem_cons, ih]
      tauto

theorem stableInsertByKey_perm {α : Type} (key : α → Nat) (l : List α) (m : α) :
    (stableInsertByKey key l m).Perm (m :: l) := by
  induction l with
  | nil => exact List.Perm.refl _
  | cons h t ih =>
    simp only [stableInsertByKey]
    split
    · exact List.Perm.refl _
    · exact (List.Perm.cons h ih).trans (List.Perm.swap m h t)

theorem foldl_stableInsert_perm {α : Type} (key : α → Nat) :
    ∀ (l acc : List α), (l.foldl (stableInsertByKey key) acc).Perm (acc ++ l) := by
  intro l
  induction l with
  | nil => intro acc; simp
  | cons x xs ih =>
    intro acc
    simp only [List.foldl_cons]
    refine (ih (stableInsertByKey key acc x)).trans ?_
    refine (List.Perm.append_right xs (stableInsertByKey_perm key acc x)).trans ?_
    exact List.perm_middle.symm

theorem sortByKey_perm {α : Type} (key : α → Nat) (l : List α) :
    (sortByKey key l).Perm l := by
  simpa using foldl_stableInsert_perm key l []

theorem stableInsertByKey_pairwise {α : Type} (key : α → Nat) (S : α → α → Prop)
    (l : List α) (x : α)
    (hl : l.Pairwise (fun a b => key a < key b ∨ (key a = key b ∧ S a b)))
    (hx : ∀ a ∈ l, S a x) :
    (stableInsertByKey key l x).Pairwise
      (fun a b => key a < key b ∨ (key a = key b ∧ S a b)) := by
  induction l with
  | nil => simp [stableInsertByKey]
  | cons h t ih =>
    rw [List.pairwise_cons] at hl
    simp only [stableInsertByKey]
    split
    · rename_i hlt
      refine List.Pairwise.cons ?_ (List.Pairwise.cons hl.1 hl.2)
      intro b hb
      rcases List.mem_cons.mp hb with rfl | hb
      · exact Or.inl hlt
      · rcases hl.1 b hb with h1 | h1
        · exact Or.inl (lt_trans hlt h1)
        · exact Or.inl (h1.1 ▸ hlt)
    · rename_i hnlt
      refine List.Pairwise.cons ?_ (ih hl.2 (fun a ha => hx a (List.mem_cons_of_mem h ha)))
      intro b hb
      rcases (mem_stableInsertByKey key t x b).mp hb with rfl | hb
      · rcases Nat.lt_or_ge (key h) (key b) with h1 | h1
        · exact Or.inl h1
        · have heq : key h = key b := Nat.le_antisymm (Nat.le_of_not_lt hnlt) h1
          exact Or.inr ⟨heq, hx h (List.mem_cons_self h t)⟩
      · exact hl.1 b hb

theorem sortByKey_pairwise_stable {α : Type} (key : α → Nat) (S : α → α → Prop) :
    ∀ (l acc : List α),
      l.Pairwise S →
      acc.Pairwise (fun a b => key a < key b ∨ (key a = key b ∧ S a b)) →
      (∀ a ∈ acc, ∀ x ∈ l, S a x) →
      (l.foldl (stableInsertByKey key) acc).Pairwise
        (fun a b => key a < key b ∨ (key a = key b ∧ S a b)) := by
  intro l
  induction l with
  | nil =>
    intro acc _ hacc _
    simpa using hacc
  | cons x xs ih =>
    intro acc hl hacc hcross
    simp only [List.foldl_cons]
    rw [List.pairwise_cons] at hl
    refine ih (stableInsertByKey key acc x) hl.2 ?_ ?_
    · exact stableInsertByKey_pairwise key S acc x hacc
        (fun a ha => hcross a ha x (List.mem_cons_self x xs))
    · intro a ha y hy
      rcases (mem_stableInsertByKey key acc x a).mp ha with rfl | ha
      · exact hl.1 y hy
      · exact hcross a ha y (List.mem_cons_of_mem x hy)

theorem sortByKey_pairwise {α : Type} (key : α → Nat) (S : α → α → Prop) (l : List α)
    (hl : l.Pairwise S) :
    (sortByKey key l).Pairwise (fun a b => key a < key b ∨ (key a = key b ∧ S a b)) :=
  sortByKey_pairwise_stable key S l [] hl List.Pairwise.nil (by intro a ha; cases ha)

theorem pairwise_trivial {α : Type} (l : List α) : l.Pairwise (fun _ _ => True) := by
  induction l with
  | nil => exact List.Pairwise.nil
  | cons a t ih => exact List.Pairwise.cons (fun _ _ => trivial) ih

theorem retainMembers_conflict_some : ∀ (l : List Member) (prev x : Nat),
    (retainMembers l prev (some x)).2 = some x := by
  intro l
  induction l with
  | nil =>
    intro prev x
    rfl
  | cons m rest ih =>
    intro prev x
    simp only [retainMembers]
    split
    · split
      · exact ih prev x
      · simp only [Option.isNone_some, Bool.false_eq_true, if_false]
        exact ih _ x
    · exact ih _ x

theorem retainMembers_ok :
    ∀ (l : List Member) (prev : Nat),
      l.Pairwise memberOrd →
      (retainMembers l prev none).2 = none →
      List.Chain' (fun a b => a.offset < b.offset) (retainMembers l prev none).1
      ∧ (∀ m ∈ (retainMembers l prev none).1, m ∈ l)
      ∧ ((retainMembers l prev none).1.filter (fun m => !m.isBase) =
          l.filter (fun m => !m.isBase))
      ∧ (∀ m ∈ l, m ∉ (retainMembers l prev none).1 →
          m.isBase = true ∧ (m.offset = prev ∨
            ∃ m2 ∈ (retainMembers l prev none).1, m2.offset = m.offset))
      ∧ (∀ m2 ∈ ((retainMembers l prev none).1).head?, m2.offset ≠ prev) := by
  intro l
  induction l with
  | nil =>
    intro prev _ _
    refine ⟨List.chain'_nil, ?_, rfl, ?_, ?_⟩
    · intro m hm
      cases hm
    · intro m hm
      cases hm
    · intro m2 hm2
      cases hm2
  | cons m t ih =>
    intro prev hpw hsucc
    rw [List.pairwise_cons] at hpw
    by_cases hoff : m.offset = prev
    · by_cases hbase : m.isBase
      · have hred : retainMembers (m :: t) prev none = retainMembers t prev none := by
          simp only [retainMembers, if_pos hoff, if_pos hbase]
        rw [hred] at hsucc ⊢
        obtain ⟨c1, c2, c3, c4, c5⟩ := ih prev hpw.2 hsucc
        refine ⟨c1, ?_, ?_, ?_, c5⟩
        · intro x hx
          exact List.mem_cons_of_mem m (c2 x hx)
        · rw [c3]
          simp only [List.filter_cons, hbase, Bool.not_true, Bool.false_eq_true, if_false]
        · intro x hx hnx
          rcases List.mem_cons.mp hx with rfl | hx
          · exact ⟨hbase, Or.inl hoff⟩
          · obtain ⟨hb, hrest⟩ := c4 x hx hnx
            exact ⟨hb, hrest⟩
      · exfalso
        have hconf : (retainMembers (m :: t) prev none).2 = some prev := by
          simp only [retainMembers, if_pos hoff, if_neg hbase, Option.isNone_none, if_true]
          exact retainMembers_conflict_some t m.offset prev
        rw [hsucc] at hconf
        cases hconf
    · have hred : retainMembers (m :: t) prev none =
          (m :: (retainMembers t m.offset none).1, (retainMembers t m.offset none).2) := by
        simp only [retainMembers, if_neg hoff]
      rw [hred] at hsucc ⊢
      simp only at hsucc
      obtain ⟨c1, c2, c3, c4, c5⟩ := ih m.offset hpw.2 hsucc
      refine ⟨?_, ?_, ?_, ?_, ?_⟩
      · rw [List.chain'_cons']
        refine ⟨?_, c1⟩
        intro b hb
        have hbmem : b ∈ t := c2 b (List.mem_of_mem_head? hb)
        have hneq := c5 b hb
        rcases hpw.1 b hbmem with h1 | h1
        · exact h1
        · exact absurd h1.1.symm hneq
      · intro x hx
        rcases List.mem_cons.mp hx with rfl | hx
        · exact List.mem_cons_self _ _
        · exact List.mem_cons_of_mem m (c2 x hx)
      · simp only [List.filter_cons, c3]
      · intro x hx hnx
        rcases List.mem_cons.mp hx with rfl | hx
        · exact absurd (List.mem_cons_self x _) hnx
        · have hxnk : x ∉ (retainMembers t m.offset none).1 :=
            fun q => hnx (List.mem_cons_of_mem m q)
          obtain ⟨hb, hrest⟩ := c4 x hx hxnk
          refine ⟨hb, Or.inr ?_⟩
          rcases hrest with h1 | h1
          · exact ⟨m, List.mem_cons_self _ _, h1.symm⟩
          · obtain ⟨m2, hm2, hm2o⟩ := h1
            exact ⟨m2, List.mem_cons_of_mem m hm2, hm2o⟩
      · intro m2 hm2
        simp only [List.head?_cons, Option.mem_def, Option.some.injEq] at hm2
        rw [← hm2]
        exact hoff

theorem retainMembers_no_conflict :
    ∀ (l : List Member) (prev : Nat),
      l.Pairwise memberOrd →
      (∀ x ∈ l, x.isBase = false → x.offset ≠ prev) →
      (l.filter (fun m => !m.isBase)).Pairwise (fun a b => a.offset ≠ b.offset) →
      (retainMembers l prev none).2 = none := by
  intro l
  induction l with
  | nil =>
    intro prev _ _ _
    rfl
  | cons m t ih =>
    intro prev hpw hprev hpair
    rw [List.pairwise_cons] at hpw
    by_cases hoff : m.offset = prev
    · by_cases hbase : m.isBase
      · simp only [retainMembers, if_pos hoff, if_pos hbase]
        refine ih prev hpw.2 (fun x hx => hprev x (List.mem_cons_of_mem m hx)) ?_
        simpa only [List.filter_cons, hbase, Bool.not_true, Bool.false_eq_true,
          if_false] using hpair
      · exact absurd hoff (hprev m (List.mem_cons_self m t)
          (Bool.eq_false_iff.mpr hbase))
    · simp only [retainMembers, if_neg hoff]
      by_cases hbase : m.isBase
      · refine ih m.offset hpw.2 ?_ ?_
        · intro x hx hxb hq
          rcases hpw.1 x hx with h1 | h1
          · exact absurd hq.symm (Nat.ne_of_lt h1)
          · rw [hbase] at h1
            simp only [cond_true, hxb, cond_false] at h1
            exact absurd h1.2 (by decide)
        · simpa only [List.filter_cons, hbase, Bool.not_true, Bool.false_eq_true,
            if_false] using hpair
      · refine ih m.offset hpw.2 ?_ ?_
        · intro x hx hxb hq
          have hmf : (!m.isBase) = true := by
            simp [Bool.eq_false_iff.mpr hbase]
          have hxmem : x ∈ t.filter (fun m => !m.isBase) :=
            List.mem_filter.mpr ⟨hx, by simp [hxb]⟩
          have := (List.pairwise_cons.mp
            (by simpa only [List.filter_cons, hmf, if_true] using hpair)).1 x hxmem
          exact this hq.symm
        · have hmf : (!m.isBase) = true := by
            simp [Bool.eq_false_iff.mpr hbase]
          exact (List.pairwise_cons.mp
            (by simpa only [List.filter_cons, hmf, if_true] using hpair)).2

theorem sorted_members_pairwise (ms : List Member) :
    (sortByKey (fun m => m.offset) (sortByKey (fun m => cond m.isBase 1 0) ms)).Pairwise
      memberOrd := by
  have h1 := sortByKey_pairwise (fun m => cond m.isBase 1 0) (fun _ _ => True) ms
    (pairwise_trivial ms)
  have h2 : (sortByKey (fun m => cond m.isBase 1 0) ms).Pairwise
      (fun a b => cond a.isBase 1 0 ≤ cond b.isBase 1 0) := by
    refine h1.imp ?_
    intro a b hab
    rcases hab with h | h
    · exact Nat.le_of_lt h
    · exact Nat.le_of_eq h.1
  exact sortByKey_pairwise (fun m : Member => m.offset)
    (fun a b : Member => cond a.isBase 1 0 ≤ cond b.isBase 1 0) _ h2

theorem sorted_members_perm (ms : List Member) :
    (sortByKey (fun m => m.offset) (sortByKey (fun m => cond m.isBase 1 0) ms)).Perm ms :=
  (sortByKey_perm _ _).trans (sortByKey_perm _ _)

theorem sortAndCheckMembers_eq (ms : List Member) :
    sortAndCheckMembers ms =
      (match (retainMembers
          (sortByKey (fun m => m.offset) (sortByKey (fun m => cond m.isBase 1 0) ms))
          u32Max none).2 with
       | some _ => .error "found multiple members at the same offset"
       | none => .ok (retainMembers
          (sortByKey (fun m => m.offset) (sortByKey (fun m => cond m.isBase 1 0) ms))
          u32Max none).1) := rfl

/-- C7: after the member sort-and-check of struct loading succeeds (all
collected offsets being valid, below `u32::MAX`), the member list is
strictly ascending by offset; every kept member comes from the input,
every non-base member is kept, and every dropped member is a base sharing
its offset with a kept member; the check succeeds exactly when no two
non-base members share an offset; and the empty-base scenario
`struct A{}; struct B : A { int x; }` (a base of `A` and `x` both at
offset 0) loads with members exactly `[x]`, the base silently dropped. -/
theorem struct_member_sort_and_empty_base :
    (∀ (ms kept : List Member),
      (∀ m ∈ ms, m.offset < u32Max) →
      sortAndCheckMembers ms = .ok kept →
      List.Chain' (fun a b => a.offset < b.offset) kept
      ∧ (∀ m ∈ kept, m ∈ ms)
      ∧ (∀ m ∈ ms, m.isBase = false → m ∈ kept)
      ∧ (∀ m ∈ ms, m ∉ kept → m.isBase = true ∧ ∃ m2 ∈ kept, m2.offset = m.offset))
    ∧ (∀ ms : List Member,
      (∀ m ∈ ms, m.offset < u32Max) →
      ((∃ kept, sortAndCheckMembers ms = .ok kept) ↔
        (ms.filter (fun m => !m.isBase)).Pairwise (fun a b => a.offset ≠ b.offset)))
    ∧ sortAndCheckMembers
        [{ offset := 0, name := none, ty := .base 0x11, special := some .base },
         { offset := 0, name := some "x", ty := .base (Goff.prim .i32), special := none }] =
      .ok [{ offset := 0, name := some "x", ty := .base (Goff.prim .i32), special := none }] := by
  refine ⟨?_, ?_, by decide⟩
  · intro ms kept hbound hok
    rw [sortAndCheckMembers_eq] at hok
    split at hok
    · cases hok
    · rename_i hnone
      cases hok
      obtain ⟨c1, c2, c3, c4, c5⟩ := retainMembers_ok _ u32Max (sorted_members_pairwise ms) hnone
      have hperm := sorted_members_perm ms
      refine ⟨c1, ?_, ?_, ?_⟩
      · intro m hm
        exact hperm.mem_iff.mp (c2 m hm)
      · intro m hm hf
        have hms : m ∈ ms.filter (fun m => !m.isBase) :=
          List.mem_filter.mpr ⟨hm, by simp [hf]⟩
        have hsf : m ∈ (sortByKey (fun m => m.offset)
            (sortByKey (fun m => cond m.isBase 1 0) ms)).filter (fun m => !m.isBase) :=
          (hperm.filter _).mem_iff.mpr hms
        rw [← c3] at hsf
        exact (List.mem_filter.mp hsf).1
      · intro m hm hnk
        have hms : m ∈ sortByKey (fun m => m.offset)
            (sortByKey (fun m => cond m.isBase 1 0) ms) := hperm.mem_iff.mpr hm
        obtain ⟨hb, hrest⟩ := c4 m hms hnk
        refine ⟨hb, ?_⟩
        rcases hrest with h1 | h1
        · exact absurd h1 (Nat.ne_of_lt (hbound m hm))
        · exact h1
  · intro ms hbound
    constructor
    · rintro ⟨kept, hok⟩
      rw [sortAndCheckMembers_eq] at hok
      split at hok
      · cases hok
      · rename_i hnone
        cases hok
        obtain ⟨c1, _, c3, _, _⟩ := retainMembers_ok _ u32Max (sorted_members_pairwise ms) hnone
        haveI : IsTrans Member (fun a b => a.offset < b.offset) :=
          ⟨fun _ _ _ h1 h2 => Nat.lt_trans h1 h2⟩
        rw [List.chain'_iff_pairwise] at c1
        have hp1 := c1.sublist (@List.filter_sublist Member (fun m => !m.isBase) _)
        rw [c3] at hp1
        have hp2 := hp1.imp (fun h => Nat.ne_of_lt h)
        exact (((sorted_members_perm ms).filter _).pairwise_iff
          (fun h => Ne.symm h)).mp hp2
    · intro hpair
      have hperm := sorted_members_perm ms
      have hps : ((sortByKey (fun m => m.offset)
          (sortByKey (fun m => cond m.isBase 1 0) ms)).filter (fun m => !m.isBase)).Pairwise
          (fun a b => a.offset ≠ b.offset) :=
        ((hperm.filter _).pairwise_iff (fun h => Ne.symm h)).mpr hpair
      have hnone := retainMembers_no_conflict _ u32Max (sorted_members_pairwise ms)
        (fun x hx hxb hq => absurd hq (Nat.ne_of_lt (hbound x (hperm.mem_iff.mp hx)))) hps
      refine ⟨(retainMembers (sortByKey (fun m => m.offset)
        (sortByKey (fun m => cond m.isBase 1 0) ms)) u32Max none).1, ?_⟩
      rw [sortAndCheckMembers_eq]
      split
      · rename_i heq2
        rw [hnone] at heq2
        cases heq2
      · rfl

/-- C7 (witness): the sort-and-check characterization applied to the
concrete empty-base scenario. -/
theorem struct_member_sort_and_empty_base_witness :
    List.Chain' (fun a b => a.offset < b.offset) [c7X]
    ∧ c7A.isBase = true
    ∧ (∃ m2 ∈ [c7X], m2.offset = c7A.offset)
    ∧ (∃ kept, sortAndCheckMembers [c7A, c7X] = .ok kept) := by
  have h1 := struct_member_sort_and_empty_base.1 [c7A, c7X] [c7X] (by decide) (by decide)
  have h2 := (struct_member_sort_and_empty_base.2.1 [c7A, c7X] (by decide)).mpr (by decide)
  have h3 := h1.2.2.2 c7A (by decide) (by decide)
  exact ⟨h1.1, h3.1, h3.2, h2⟩

/-! ## C8: bitfield coalescing -/

/-- C8 (counterexample): the claim states two consecutive bitfields merge
exactly when they share the same offset and the same container byte size,
and that bitfields differing in container size remain separate.  Two
adjacent bitfields at offset 4 with container sizes 4 and 8 still merge
into a single member (the later one's container size wins): the source
compares only the offset and whether the previous member is a bitfield. -/
theorem bitfield_merge_container_size_cex :
    loadStructMembers (fun _ => false) Prim.u64
      [⟨some "a", 7, 4, some 3, some 4⟩, ⟨some "b", 7, 4, some 2, some 8⟩] =
    .ok [{ offset := 4, name := some "b", ty := .base 7, special := some (.bitfield 8) }] := by
  decide

/-- C8 (amended): during struct loading, a bitfield member (bit size
present, with a valid container byte size) merges with the previously
collected member exactly when the offsets are equal and that member is
itself a bitfield, regardless of container byte size, replacing it by the
later member; otherwise the bitfield is appended.  Two adjacent bitfields
at offset 4 with container byte size 4 yield the single member
`{offset 4, Bitfield(4)}`. -/
theorem bitfield_merge_same_offset_amended :
    (∀ (isV : String → Bool) (pt : Prim) (ms : List Member) (f : RawStructMember)
       (prev : Member) (b bsz : Nat),
      ms.getLast? = some prev →
      f.bitSize = some b →
      f.byteSize = some bsz →
      bsz < u32Max →
      f.offset < u32Max →
      (∀ n, f.name = some n → isV n = false) →
      addStructMember isV pt ms f =
        .ok (if prev.offset = f.offset ∧ prev.isBitfield = true
             then ms.dropLast ++ [{ offset := f.offset, name := f.name, ty := .base f.tyGoff,
                                    special := some (.bitfield bsz) }]
             else ms ++ [{ offset := f.offset, name := f.name, ty := .base f.tyGoff,
                           special := some (.bitfield bsz) }]))
    ∧ loadStructMembers (fun _ => false) Prim.u64
        [⟨some "a", 7, 4, some 3, some 4⟩, ⟨some "b", 7, 4, some 2, some 4⟩] =
      .ok [{ offset := 4, name := some "b", ty := .base 7, special := some (.bitfield 4) }] := by
  constructor
  · intro isV pt ms f prev b bsz hlast hbs hbyte hbsz hoff hv
    have h1 : ¬ u32Max ≤ f.offset := by omega
    have h2 : ¬ u32Max ≤ bsz := by omega
    cases hn : f.name with
    | none =>
      simp only [addStructMember, h1, if_false, hn, bitfieldStep, hbs, hbyte, h2, hlast]
      split <;> rfl
    | some n =>
      have hvn := hv n hn
      simp only [addStructMember, h1, if_false, hn, hvn, bitfieldStep, hbs, hbyte, h2,
        hlast, Bool.false_eq_true, if_false]
      split <;> rfl
  · decide

/-- C8 (witness): the amended merge characterization applied to a
concrete previous bitfield member and a concrete later bitfield with a
different container size. -/
theorem bitfield_merge_same_offset_amended_witness :
    addStructMember (fun _ => false) Prim.u64
      [{ offset := 4, name := some "a", ty := .base 7, special := some (.bitfield 4) }]
      ⟨some "b", 7, 4, some 2, some 8⟩ =
    .ok [{ offset := 4, name := some "b", ty := .base 7, special := some (.bitfield 8) }] := by
  have h := bitfield_merge_same_offset_amended.1 (fun _ => false) Prim.u64
    [{ offset := 4, name := some "a", ty := .base 7, special := some (.bitfield 4) }]
    ⟨some "b", 7, 4, some 2, some 8⟩
    { offset := 4, name := some "a", ty := .base 7, special := some (.bitfield 4) }
    2 8 (by decide) rfl rfl (by decide) (by decide) (by intro n hn; rfl)
  simpa using h

/-! ## C10: union duplicate-type member merging -/

/-- C10: when loading a union, a member whose type duplicates an already
collected member is merged into the first such member; the merged member
keeps the earlier member's name whenever it has one, and adopts the later
member's name only when the earlier member was anonymous.  A member with
a fresh type is appended. -/
theorem union_member_dup_name_preference :
    (∀ (ms : List Member) (n : Option String) (t : Goff),
      (∀ m ∈ ms, m.ty ≠ .base t) →
      addUnionMember ms n t =
        ms ++ [{ offset := 0, name := n, ty := .base t, special := none }])
    ∧ (∀ (pre : List Member) (m : Member) (post : List Member) (n : Option String) (t : Goff),
      (∀ m2 ∈ pre, m2.ty ≠ .base t) → m.ty = .base t →
      addUnionMember (pre ++ m :: post) n t =
        pre ++ (if m.name = none then { m with name := n } else m) :: post) := by
  constructor
  · intro ms n t h
    induction ms with
    | nil => rfl
    | cons m rest ih =>
      have hm : m.ty ≠ .base t := h m (List.mem_cons_self m rest)
      simp only [addUnionMember, if_neg hm]
      rw [ih (fun m2 hm2 => h m2 (List.mem_cons_of_mem m hm2))]
      rfl
  · intro pre m post n t hpre hm
    induction pre with
    | nil =>
      simp only [List.nil_append, addUnionMember, if_pos hm]
    | cons p rest ih =>
      have hp : p.ty ≠ .base t := hpre p (List.mem_cons_self p rest)
      have ih2 := ih (fun m2 hm2 => hpre m2 (List.mem_cons_of_mem p hm2))
      simp only [List.cons_append, addUnionMember, if_neg hp, List.append_eq]
      rw [ih2]

/-- C10 (witness): the duplicate-type merge at concrete inputs; the
earlier named member keeps its name, an earlier anonymous member adopts
the later name. -/
theorem union_member_dup_name_preference_witness :
    addUnionMember [{ offset := 0, name := some "x", ty := .base 7, special := none }]
      (some "y") 7 =
      [{ offset := 0, name := some "x", ty := .base 7, special := none }]
    ∧ addUnionMember [{ offset := 0, name := none, ty := .base 7, special := none }]
        (some "y") 7 =
      [{ offset := 0, name := some "y", ty := .base 7, special := none }] := by
  constructor
  · have h := union_member_dup_name_preference.2 []
      { offset := 0, name := some "x", ty := .base 7, special := none } [] (some "y") 7
      (by intro m2 hm2; cases hm2) rfl
    simpa using h
  · have h := union_member_dup_name_preference.2 []
      { offset := 0, name := none, ty := .base 7, special := none } [] (some "y") 7
      (by intro m2 hm2; cases hm2) rfl
    simpa using h

end Dejj
